import Mathlib

/-!
# Goose: compile-time pipeline composition (`src/dag`)

A shallow embedding of the template metaprogram of `Rebind.hpp`, `Nodes.hpp`,
`Graph.hpp` and `Router.hpp`, and of the `process` member functions the
composed types run.

* C++ types are trees (`Ty`); the alias templates, traits and concepts of the
  headers are functions over these trees (`RebindImpl`, `GraphImpl`,
  `isHandledImpl`, ...). A construction the compiler rejects (a failed
  `static_assert` or `requires`, an incomplete type, an ambiguous partial
  specialisation or overload) is `none`.
* Base classes come from a class table: the library's own declarations are
  fixed (`coreInfo`), those of the application are a parameter (`ClassTable`).
  A class of the application is described by its bases, by `final`, and by
  whether its `process` deduces the class of its object: what a class template
  of the application requires of its own arguments, and the members it
  declares besides `process`, are not part of the model. The routes of a
  router are instantiations of `Route`.
* A type alias that can be named (`Graph.Subgraph`) is told apart from a
  class that can be instantiated and derived from (`instantiable`,
  `Graph.accepted`, `Router.accepted`).
* Member functions `process` are store transformers (`Proc`): the caller's
  objects live in a `Store`, an argument is an lvalue (a location) or an rvalue
  (a value), and a call returns `void` or a record, the two results the
  terminals of the library produce. `none` is a call without a defined result:
  no such member, no viable overload, an undefined operation. A stage reaches
  its successor through `process` alone.
* The return type of `process` at given argument types is a `Sig`
  (`signature`); `std::visit` needs it of every alternative of a variant.
-/

namespace Goose

/-! ## Part I: definitions -/

/-! ### Types -/

/-- A non-type template argument (`auto V`): a constant together with the name
of its type, so that `Tag<Events::A>` and `Tag<0>` are different types. -/
structure Discr where
  ty : String
  val : Int
deriving DecidableEq, Repr

/-- C++ types, as the partial specialisations of `RebindImpl` tell them apart.

* `leaf n`: a type that is not a template instantiation (`Successor`, `Sink`,
  `Collect`, `int`, a user class).
* `app g args`: `g<args...>` for `template <typename...> class g`.
* `vapp g v args`: `g<v, args...>` for `template <auto, typename...> class g`.
* `other g vs args`: an instantiation of a template with any other parameter
  list (`std::array<T, N>`, `std::integral_constant<T, v>`), with its value
  arguments `vs` and its type arguments `args`. -/
inductive Ty where
  | leaf (n : String)
  | app (g : String) (args : List Ty)
  | vapp (g : String) (v : Discr) (args : List Ty)
  | other (g : String) (vs : List Discr) (args : List Ty)
deriving Repr

mutual
/-- Decidable equality of types. -/
def Ty.decEq : (a b : Ty) → Decidable (a = b)
  | .leaf a, .leaf b =>
    if h : a = b then isTrue (by rw [h]) else isFalse (fun e => h (Ty.leaf.inj e))
  | .app g as, .app h bs =>
    if h1 : g = h then
      match Ty.decEqList as bs with
      | isTrue h2 => isTrue (by rw [h1, h2])
      | isFalse h2 => isFalse (fun e => h2 (Ty.app.inj e).2)
    else isFalse (fun e => h1 (Ty.app.inj e).1)
  | .vapp g v as, .vapp h w bs =>
    if h1 : g = h ∧ v = w then
      match Ty.decEqList as bs with
      | isTrue h2 => isTrue (by rw [h1.1, h1.2, h2])
      | isFalse h2 => isFalse (fun e => h2 (Ty.vapp.inj e).2.2)
    else isFalse (fun e => h1 ⟨(Ty.vapp.inj e).1, (Ty.vapp.inj e).2.1⟩)
  | .other g v as, .other h w bs =>
    if h1 : g = h ∧ v = w then
      match Ty.decEqList as bs with
      | isTrue h2 => isTrue (by rw [h1.1, h1.2, h2])
      | isFalse h2 => isFalse (fun e => h2 (Ty.other.inj e).2.2)
    else isFalse (fun e => h1 ⟨(Ty.other.inj e).1, (Ty.other.inj e).2.1⟩)
  | .leaf _, .app _ _ => isFalse (fun e => Ty.noConfusion e)
  | .leaf _, .vapp _ _ _ => isFalse (fun e => Ty.noConfusion e)
  | .leaf _, .other _ _ _ => isFalse (fun e => Ty.noConfusion e)
  | .app _ _, .leaf _ => isFalse (fun e => Ty.noConfusion e)
  | .app _ _, .vapp _ _ _ => isFalse (fun e => Ty.noConfusion e)
  | .app _ _, .other _ _ _ => isFalse (fun e => Ty.noConfusion e)
  | .vapp _ _ _, .leaf _ => isFalse (fun e => Ty.noConfusion e)
  | .vapp _ _ _, .app _ _ => isFalse (fun e => Ty.noConfusion e)
  | .vapp _ _ _, .other _ _ _ => isFalse (fun e => Ty.noConfusion e)
  | .other _ _ _, .leaf _ => isFalse (fun e => Ty.noConfusion e)
  | .other _ _ _, .app _ _ => isFalse (fun e => Ty.noConfusion e)
  | .other _ _ _, .vapp _ _ _ => isFalse (fun e => Ty.noConfusion e)
/-- Decidable equality of type-argument lists. -/
def Ty.decEqList : (as bs : List Ty) → Decidable (as = bs)
  | [], [] => isTrue rfl
  | [], _ :: _ => isFalse (fun e => List.noConfusion e)
  | _ :: _, [] => isFalse (fun e => List.noConfusion e)
  | a :: as, b :: bs =>
    match Ty.decEq a b with
    | isTrue h1 =>
      match Ty.decEqList as bs with
      | isTrue h2 => isTrue (by rw [h1, h2])
      | isFalse h2 => isFalse (fun e => h2 (List.cons.inj e).2)
    | isFalse h1 => isFalse (fun e => h1 (List.cons.inj e).1)
end

instance instDecidableEqTy : DecidableEq Ty := Ty.decEq

/-- The type arguments of a type (the children in its generic argument tree). -/
def Ty.args : Ty → List Ty
  | .leaf _ => []
  | .app _ as => as
  | .vapp _ _ as => as
  | .other _ _ as => as

/-- Two types are instantiations of the same template with the same value
arguments and the same number of type arguments (or the same leaf). -/
def Ty.sameHead : Ty → Ty → Bool
  | .leaf a, .leaf b => a == b
  | .app g as, .app h bs => g == h && as.length == bs.length
  | .vapp g v as, .vapp h w bs => g == h && v == w && as.length == bs.length
  | .other g v as, .other h w bs => g == h && v == w && as.length == bs.length
  | _, _ => false

/-- The subtree of a type at a position of its generic argument tree: a
position is the list of argument indices walked from the root. -/
def Ty.sub : Ty → List Nat → Option Ty
  | t, [] => some t
  | t, i :: p =>
    match t.args[i]? with
    | some c => c.sub p
    | none => none

mutual
/-- The pattern `P` occurs in `T`: `T` is `P`, or `P` occurs in a type
argument of `T`, at any depth. -/
def occurs (P : Ty) : Ty → Bool
  | .leaf n => decide (Ty.leaf n = P)
  | .app g as => decide (Ty.app g as = P) || occursArgs P as
  | .vapp g v as => decide (Ty.vapp g v as = P) || occursArgs P as
  | .other g vs as => decide (Ty.other g vs as = P) || occursArgs P as
/-- The pattern occurs in one of the listed types. -/
def occursArgs (P : Ty) : List Ty → Bool
  | [] => false
  | a :: as => occurs P a || occursArgs P as
end

/-! ### `Nodes.hpp`: the placeholder and the control-stage types -/

/-- The placeholder `struct Successor {}`. -/
def Successor : Ty := .leaf "Successor"

/-- The terminal `struct Sink`. -/
def Sink : Ty := .leaf "Sink"

/-- The terminal `struct Collect`. -/
def Collect : Ty := .leaf "Collect"

/-- The stage `PassThrough<Then>`. -/
def PassThrough (Then : Ty) : Ty := .app "PassThrough" [Then]

/-- The stage `Break<Then>`. -/
def Break (Then : Ty) : Ty := .app "Break" [Then]

/-! ### `Rebind.hpp` -/

mutual
/-- The member `Type` of `detail::RebindImpl<Pattern, Replacement, Target>`.

The primary template returns `Target`; the specialisation for
`Target = Pattern` returns `Replacement`; the specialisations for
`Target<Args...>` and `Target<V, Args...>` rebuild the instantiation from the
rebound arguments. When `Target` is `Pattern` and is also an instantiation
matched by the third or fourth specialisation, two specialisations match and
neither is more specialised: the instantiation is ambiguous (`none`). -/
def RebindImpl (Pattern Replacement : Ty) : Ty → Option Ty
  | .leaf n =>
    if Ty.leaf n = Pattern then some Replacement else some (.leaf n)
  | .app g as =>
    if Ty.app g as = Pattern then none
    else (RebindArgs Pattern Replacement as).map (Ty.app g)
  | .vapp g v as =>
    if Ty.vapp g v as = Pattern then none
    else (RebindArgs Pattern Replacement as).map (Ty.vapp g v)
  | .other g vs as =>
    if Ty.other g vs as = Pattern then some Replacement else some (.other g vs as)
/-- The pack expansion `typename RebindImpl<Pattern, Replacement, Args>::Type...`. -/
def RebindArgs (Pattern Replacement : Ty) : List Ty → Option (List Ty)
  | [] => some []
  | a :: as =>
    match RebindImpl Pattern Replacement a, RebindArgs Pattern Replacement as with
    | some a', some as' => some (a' :: as')
    | _, _ => none
end

/-- The alias `Rebind<Pattern, Replacement, Target>`. -/
def Rebind (Pattern Replacement Target : Ty) : Option Ty :=
  RebindImpl Pattern Replacement Target

mutual
/-- The pattern occurs strictly inside an instantiation that only the primary
template of `RebindImpl` matches, where the rewrite does not descend. -/
def hidden (P : Ty) : Ty → Bool
  | .leaf _ => false
  | .app _ as => hiddenArgs P as
  | .vapp _ _ as => hiddenArgs P as
  | .other g vs as => !decide (Ty.other g vs as = P) && occursArgs P as
/-- The pattern is hidden in one of the listed types. -/
def hiddenArgs (P : Ty) : List Ty → Bool
  | [] => false
  | a :: as => hidden P a || hiddenArgs P as
end

/-- The pattern is an instantiation that the third or fourth specialisation
of `RebindImpl` matches. -/
def Ty.isTemplateId : Ty → Bool
  | .app _ _ => true
  | .vapp _ _ _ => true
  | _ => false

/-! ### `Nodes.hpp`: classification -/

/-- What the declaration of a class or of a class template says about
`std::is_class_v` and `std::is_base_of_v<Successor, _>`. -/
structure ClassInfo where
  /-- The type is a class type (`std::is_class_v`). -/
  isClass : Bool
  /-- The placeholder `Successor` is a base whatever the template arguments are (for
  `Successor` itself: `std::is_base_of_v` holds of a class and itself). -/
  fixedBase : Bool
  /-- The positions of the type arguments the class derives from. -/
  baseArg : Nat → Bool
  /-- The class is declared `final`. -/
  isFinal : Bool
  /-- The member `process` is declared with `this auto&& self`, so that
  `self.Then::process(...)` names `Then` as a base of the class of the object
  `process` is called on; without it, `Then::process(...)` names `Then` as a
  base of the class itself. -/
  deducesThis : Bool

/-- What a class declaration is keyed by: the kind of type and its name. -/
inductive Head where
  | leaf (n : String)
  | tmpl (g : String)
  | vtmpl (g : String)
  | other (g : String)
deriving DecidableEq, Repr

/-- The declarations of the classes that are not part of the library (the
stages an application defines). -/
abbrev ClassTable := Head → ClassInfo

/-- The declarations of the library: `struct Successor {}`, `struct Sink`,
`struct Collect`, `struct PassThrough : Then`, `struct Break : Then`,
`struct Route : Node` and `struct Router : Routes...`. -/
def coreInfo : Head → Option ClassInfo
  | .leaf "Successor" => some ⟨true, true, fun _ => false, false, false⟩
  | .leaf "Sink" => some ⟨true, false, fun _ => false, false, true⟩
  | .leaf "Collect" => some ⟨true, false, fun _ => false, false, true⟩
  | .tmpl "PassThrough" => some ⟨true, false, fun i => i == 0, false, true⟩
  | .tmpl "Break" => some ⟨true, false, fun i => i == 0, false, false⟩
  | .vtmpl "Route" => some ⟨true, false, fun i => i == 0, false, true⟩
  | .tmpl "Router" => some ⟨true, false, fun _ => true, false, true⟩
  | _ => none

/-- The declaration of a class: the library's own, or the application's. -/
def classInfo (Γ : ClassTable) (h : Head) : ClassInfo :=
  (coreInfo h).getD (Γ h)

/-- The key of a type in the class table. -/
def Ty.head : Ty → Head
  | .leaf n => .leaf n
  | .app g _ => .tmpl g
  | .vapp g _ _ => .vtmpl g
  | .other g _ _ => .other g

/-- The trait `std::is_class_v<T>`. -/
def isClass (Γ : ClassTable) (T : Ty) : Bool :=
  (classInfo Γ T.head).isClass

mutual
/-- The trait `std::is_base_of_v<Successor, T>`: `Successor` is `T`, or a
base of `T`, directly or through the type arguments `T` derives from. -/
def isBaseOfSuccessor (Γ : ClassTable) : Ty → Bool
  | .leaf n => (classInfo Γ (.leaf n)).fixedBase
  | .app g as =>
    (classInfo Γ (.tmpl g)).fixedBase
      || anyBase Γ (classInfo Γ (.tmpl g)).baseArg 0 as
  | .vapp g _ as =>
    (classInfo Γ (.vtmpl g)).fixedBase
      || anyBase Γ (classInfo Γ (.vtmpl g)).baseArg 0 as
  | .other g _ as =>
    (classInfo Γ (.other g)).fixedBase
      || anyBase Γ (classInfo Γ (.other g)).baseArg 0 as
/-- One of the type arguments selected as a base has `Successor` as a base. -/
def anyBase (Γ : ClassTable) (sel : Nat → Bool) : Nat → List Ty → Bool
  | _, [] => false
  | k, a :: as => (sel k && isBaseOfSuccessor Γ a) || anyBase Γ sel (k + 1) as
end

namespace meta

/-- The concept `meta::Internal`:
`std::is_class_v<T> && std::is_base_of_v<Successor, T>`. -/
def Internal (Γ : ClassTable) (T : Ty) : Bool :=
  isClass Γ T && isBaseOfSuccessor Γ T

/-- The concept `meta::Terminal`:
`std::is_class_v<T> && !std::is_base_of_v<Successor, T>`. -/
def Terminal (Γ : ClassTable) (T : Ty) : Bool :=
  isClass Γ T && !isBaseOfSuccessor Γ T

/-- The concept `meta::NodeLike`: `Internal<T> || Terminal<T>`. -/
def NodeLike (Γ : ClassTable) (T : Ty) : Bool :=
  Internal Γ T || Terminal Γ T

end meta

/-! ### `Graph.hpp` -/

namespace detail

/-- The member `Type` of `detail::GraphImpl<Nodes...>`.

The primary template is declared and never defined, so the empty list has no
`Type`. `GraphImpl<Leaf>` asserts `meta::Terminal<Leaf>`;
`GraphImpl<Head, Tail...>` asserts `meta::Internal<Head>` and rebinds
`Successor` in `Head` to the type composed from the tail. -/
def GraphImpl (Γ : ClassTable) : List Ty → Option Ty
  | [] => none
  | [Leaf] => if meta.Terminal Γ Leaf then some Leaf else none
  | Head :: t :: Tail =>
    if meta.Internal Γ Head then
      (GraphImpl Γ (t :: Tail)).bind (fun composed => Rebind Successor composed Head)
    else none

end detail

/-- The member `Subgraph` of `Graph<Nodes...>`, the type named as the base
class of the graph: `detail::GraphImpl<Nodes...>::Type`, under the constraint
`requires(meta::NodeLike<Nodes> && ...)`. Whether `Graph` can derive from that
type is `Graph.accepted`. -/
def Graph.Subgraph (Γ : ClassTable) (Nodes : List Ty) : Option Ty :=
  if Nodes.all (meta.NodeLike Γ) then detail.GraphImpl Γ Nodes else none

/-- The composition `Composed[i]` of the specification, for `i` counted from
the end of the list: `composedBack S 0 = Composed[n] = Sn` and
`composedBack S (k + 1) = Composed[n - k - 1]
  = substitute(Successor, Composed[n - k], S(n - k - 1))`. -/
def composedBack (S : List Ty) : Nat → Option Ty
  | 0 => S[S.length - 1]?
  | k + 1 =>
    match composedBack S k, S[S.length - 1 - (k + 1)]? with
    | some c, some s => Rebind Successor c s
    | _, _ => none

/-- The composition `Composed[i]` of the specification, `1 ≤ i ≤ n`. -/
def Composed (S : List Ty) (i : Nat) : Option Ty :=
  if 1 ≤ i ∧ i ≤ S.length then composedBack S (S.length - i) else none

/-- The manual nesting `G1<G2<...G(n-1)<Sn>...>>` of the templates `G1..G(n-1)`
around the terminal `Sn`. -/
def nest : List String → Ty → Ty
  | [], Sn => Sn
  | g :: gs, Sn => .app g [nest gs Sn]

/-- The default instantiation `G<>` of `template <typename Then = Successor>`. -/
def stage (g : String) : Ty := .app g [Successor]

/-! ### `Router.hpp`: tags, routes and the traits over them -/

/-- The alias `Tag<EventV>`:
`std::integral_constant<decltype(EventV), EventV>`. -/
def Tag (EventV : Discr) : Ty :=
  .other "std::integral_constant" [EventV] [.leaf EventV.ty]

/-- The class `Route<EventV, Node>`. -/
def Route (EventV : Discr) (Node : Ty) : Ty := .vapp "Route" EventV [Node]

/-- The class `Router<Routes...>`. -/
def Router (Routes : List Ty) : Ty := .app "Router" Routes

/-- The member type `T::Tag` of a class of the model: `Route<EventV, Node>`
declares `using Tag = Tag<EventV>`; no other class of the library declares
one, and a class table describes the classes of an application by their bases,
without members. The routes of the model are the instantiations of `Route`: a
class that takes a `Tag` from a base, or declares one, is not described. -/
def memberTag : Ty → Option Ty
  | .vapp "Route" EventV [_] => some (Tag EventV)
  | _ => none

/-- The trait `std::remove_cvref_t`: the types of the model carry no
const, volatile or reference qualifier. -/
def remove_cvref_t (T : Ty) : Ty := T

mutual
/-- The member `value` of `detail::isHandledImpl<IC, Routes...>`.

The primary template folds
`std::is_same_v<std::remove_cvref_t<IC>, typename Routes::Tag> || ...` over
the pack; the specialisation for a single `std::tuple<Routes...>` inherits
from `isHandledImpl<IC, Routes...>`. -/
def detail.isHandledImpl (IC : Ty) : List Ty → Bool
  | [] => false
  | [T] => detail.isHandledSingle IC T
  | T :: U :: Routes =>
    (T :: U :: Routes).any (fun R => decide (memberTag R = some (remove_cvref_t IC)))
/-- The case `isHandledImpl<IC, T>` of a pack of one type. -/
def detail.isHandledSingle (IC : Ty) : Ty → Bool
  | .leaf n => decide (memberTag (.leaf n) = some (remove_cvref_t IC))
  | .app g Routes =>
    if g = "std::tuple" then detail.isHandledImpl IC Routes
    else decide (memberTag (.app g Routes) = some (remove_cvref_t IC))
  | .vapp g v as => decide (memberTag (.vapp g v as) = some (remove_cvref_t IC))
  | .other g vs as => decide (memberTag (.other g vs as) = some (remove_cvref_t IC))
end

/-- The member `value` of `detail::isVariantImpl<T>`. -/
def detail.isVariantImpl : Ty → Bool
  | .app g _ => g == "std::variant"
  | _ => false

/-- The concept `meta::Handleable<IC, Routes...>`. -/
def meta.Handleable (IC : Ty) (Routes : List Ty) : Bool :=
  detail.isHandledImpl IC Routes

/-- The concept `meta::Variant<T>`. -/
def meta.Variant (T : Ty) : Bool :=
  detail.isVariantImpl (remove_cvref_t T)

/-- The concept `meta::RouteLike<T>`:
`meta::NodeLike<T> && requires { typename T::Tag; }`, with the member `Tag` of
the classes of the model (`memberTag`). -/
def meta.RouteLike (Γ : ClassTable) (T : Ty) : Bool :=
  meta.NodeLike Γ T && (memberTag T).isSome

/-- The pack expansion `typename Routes::Tag...`. -/
def memberTags : List Ty → Option (List Ty)
  | [] => some []
  | R :: Routes =>
    match memberTag R, memberTags Routes with
    | some t, some ts => some (t :: ts)
    | _, _ => none

/-- The member `Event` of `Router<Routes...>`:
`std::variant<typename Routes::Tag...>`. -/
def Router.Event (Routes : List Ty) : Option Ty :=
  (memberTags Routes).map (Ty.app "std::variant")

/-- The member `RoutesTuple` of `Router<Routes...>`: `std::tuple<Routes...>`. -/
def Router.RoutesTuple (Routes : List Ty) : Ty := .app "std::tuple" Routes

/-- The static member `Router<Routes...>::createTag<EventV>()`: asserts
`meta::Handleable<Tag<EventV>, Routes...>` and returns the type of its
result, `Tag<EventV>`. -/
def Router.createTag (Routes : List Ty) (EventV : Discr) : Option Ty :=
  if meta.Handleable (Tag EventV) Routes then some (Tag EventV) else none

/-! ### Run time: values, arguments and results -/

/-- The values the stages of the library and of its examples pass around. -/
inductive Val where
  /-- An `int`. -/
  | int (i : Int)
  /-- A `char`. -/
  | chr (c : Char)
  /-- A `std::string`. -/
  | str (s : String)
  /-- An object of the empty class `Tag<EventV>`. -/
  | tag (EventV : Discr)
  /-- A `std::variant<Tag<alts>...>` that holds its alternative `active`. -/
  | event (alts : List Discr) (active : Nat)
  /-- A callable object, named by a number. -/
  | fn (id : Nat)
deriving DecidableEq, Repr

/-- The type of a value. -/
def Val.type : Val → Ty
  | .int _ => .leaf "int"
  | .chr _ => .leaf "char"
  | .str _ => .leaf "std::string"
  | .tag EventV => Tag EventV
  | .event alts _ => .app "std::variant" (alts.map Tag)
  | .fn id => .leaf ("closure#" ++ toString id)

/-- A location: an object of the caller. -/
abbrev Loc := Nat

/-- The objects of the caller. -/
abbrev Store := Loc → Val

/-- The store with the object at `l` replaced by `v`. -/
def Store.set (σ : Store) (l : Loc) (v : Val) : Store :=
  fun k => if k = l then v else σ k

/-- An argument of a call, bound to a forwarding reference `Args&&`: an lvalue
names an object of the caller (`Args` is deduced as an lvalue reference), an
rvalue carries a value. `std::forward` passes either on as it is. -/
inductive Arg where
  | lval (l : Loc)
  | rval (v : Val)
deriving DecidableEq, Repr

/-- The value an argument denotes. -/
def Arg.read (σ : Store) : Arg → Val
  | .lval l => σ l
  | .rval v => v

/-- An element of the record `Collect` returns: a reference to an object of
the caller, or a value of its own. -/
inductive Slot where
  | ref (l : Loc)
  | val (v : Val)
deriving DecidableEq, Repr

/-- The value seen through an element of a record. -/
def Slot.read (σ : Store) : Slot → Val
  | .ref l => σ l
  | .val v => v

/-- What a call of `process` returns: nothing (`void`) or a record
(`std::tuple`). These are the results of the terminals of the library. -/
inductive Result where
  | void
  | record (slots : List Slot)
deriving DecidableEq, Repr

/-- A member function `process`: from the caller's objects and the argument
list to the result and the caller's objects after the call; `none` when the
call is rejected (no such member, no viable overload) or has no defined
result. -/
abbrev Proc := Store → List Arg → Option (Result × Store)

/-- A class without a member `process`, as `Successor`. -/
def noProcess : Proc := fun _ _ => none

/-- The type of an argument of a call, as a forwarding reference `Args&&`
deduces it: the type of the value, and whether the argument is an lvalue
(`Args` is `T&`) or not (`Args` is `T`). In a `std::tuple` it is an element
type: `T&` or `T`. -/
structure ArgTy where
  type : Ty
  lvalue : Bool
deriving DecidableEq, Repr

/-- The type of an argument. -/
def Arg.type (σ : Store) : Arg → ArgTy
  | .lval l => ⟨(σ l).type, true⟩
  | .rval v => ⟨v.type, false⟩

/-- The return type of a call of `process`: `void` or a `std::tuple` of the
listed element types. -/
inductive RetTy where
  | void
  | tuple (elems : List ArgTy)
deriving DecidableEq, Repr

/-- The return type of a member function `process` at each list of argument
types; `none` when the call is ill-formed. -/
abbrev Sig := List ArgTy → Option RetTy

/-- A class without a member `process`, as `Successor`. -/
def noSig : Sig := fun _ => none

/-! ### `Nodes.hpp`: the control stages -/

/-- The member `PassThrough<Then>::process`:
`return self.Then::process(std::forward<Args>(args)...)`. -/
def PassThrough.process (Then : Proc) : Proc :=
  fun σ args => Then σ args

/-- The member `Break<Then>::process`: `return;` for every argument list. -/
def Break.process (_Then : Proc) : Proc :=
  fun σ _ => some (.void, σ)

/-- The member `Sink::process`: `return;` for every argument list. -/
def Sink.process : Proc :=
  fun σ _ => some (.void, σ)

/-- The element type of the record for one argument:
`std::conditional_t<std::is_lvalue_reference_v<Args>, Args, std::decay_t<Args>>`,
initialised from `std::forward<Args>(args)`. -/
def Collect.slot : Arg → Slot
  | .lval l => .ref l
  | .rval v => .val v

/-- The member `Collect::process`:
`return ReturnType{std::forward<Args>(args)...}`. -/
def Collect.process : Proc :=
  fun σ args => some (.record (args.map Collect.slot), σ)

/-- The return type of `PassThrough<Then>::process`, `decltype(auto)`: that of
`Then::process`. -/
def PassThrough.returnType (Then : Sig) : Sig := Then

/-- The return type of `Break<Then>::process`: `void`. -/
def Break.returnType (_Then : Sig) : Sig := fun _ => some .void

/-- The return type of `Sink::process`: `void`. -/
def Sink.returnType : Sig := fun _ => some .void

/-- The return type of `Collect::process`, `ReturnType`: the tuple with the
element `Args` for an lvalue argument and `std::decay_t<Args>` for another. -/
def Collect.returnType : Sig := fun args => some (.tuple args)

/-! ### `Router.hpp`: dispatch -/

/-- The member `Route<EventV, Node>::operator()(this auto&& self, Tag,
Args&&... args)`: viable for a first argument of type `Tag<EventV>`, it
returns `self.Node::process(args...)`. The function hands on what belongs to
`Node`: its `process`, or the return type of its `process`. The call names
`Node` as a base of the class of `self`, the whole `Router`, so it is
well-formed where `Node` is an unambiguous base of that class (see
`unambiguousBase`). The return type is `auto`, the decayed type of what
`Node::process` returns: `void` and a `std::tuple` are their own decayed
types, and the copy of a record holds the same references. -/
def Route.call {α : Type} (RouteTag : Ty) (Node : α) (IC : Ty) : Option α :=
  if remove_cvref_t IC = RouteTag then some Node else none

/-- The overload set `using Routes::operator()...` of a `Router`, at a first
argument of type `IC`: the viable `operator()` of every route, in route
order. The list `Nodes` holds `Node::process` of every route, or its return
type. -/
def Router.viable {α : Type} (IC : Ty) : List Ty → List α → List α
  | R :: Routes, p :: Nodes =>
    match memberTag R with
    | some t =>
      match Route.call t p IC with
      | some q => q :: Router.viable IC Routes Nodes
      | none => Router.viable IC Routes Nodes
    | none => Router.viable IC Routes Nodes
  | _, _ => []

/-- The call `self.operator()(ic, args...)`: overload resolution picks the
one viable `operator()`; with none, or with two of the same signature, the
call is rejected. -/
def Router.call {α : Type} (IC : Ty) (Routes : List Ty) (Nodes : List α) : Option α :=
  match Router.viable IC Routes Nodes with
  | [p] => some p
  | _ => none

/-- The first overload of `Router<Routes...>::process`, for a first argument
of type `IC`:
`requires(!meta::Variant<IC> && meta::Handleable<IC, Routes...>)`,
`return self.operator()(std::forward<IC>(ic), std::forward<Args>(args)...)`.
The list `args` is the argument list after the tag. -/
def Router.processTag (Routes : List Ty) (Nodes : List Proc) (IC : Ty) : Proc :=
  fun σ args =>
    if !meta.Variant IC && meta.Handleable IC Routes then
      match Router.call IC Routes Nodes with
      | some p => p σ args
      | none => none
    else none

/-- The return type of the first overload of `Router<Routes...>::process`,
`decltype(auto)`, for a first argument of type `IC`: that of the one viable
`operator()`. -/
def Router.typeTag (Routes : List Ty) (Sigs : List Sig) (IC : Ty) : Sig :=
  fun args =>
    if !meta.Variant IC && meta.Handleable IC Routes then
      match Router.call IC Routes Sigs with
      | some s => s args
      | none => none
    else none

/-- The return type of the second overload of `Router<Routes...>::process`,
for a `std::variant` of the alternatives `alts`: `std::visit` instantiates the
lambda `[&](auto tag) -> decltype(auto) { return self.process(tag, args...); }`
for every alternative, each call has to be well-formed, and all have to
return one type, which is the return type of the visit. -/
def Router.typeVisit (Routes : List Ty) (Sigs : List Sig) (alts : List Ty) : Sig :=
  fun args =>
    match alts.map (fun IC => Router.typeTag Routes Sigs IC args) with
    | some τ :: rest => if rest.all (fun t => decide (t = some τ)) then some τ else none
    | _ => none

/-- The return type of `Router<Routes...>::process`: the overload is chosen by
the type of the first argument. -/
def Router.returnType (Routes : List Ty) (Sigs : List Sig) : Sig :=
  fun args =>
    match args with
    | [] => none
    | ic :: rest =>
      if meta.Variant ic.type then
        match ic.type with
        | .app _ alts => Router.typeVisit Routes Sigs alts rest
        | _ => none
      else Router.typeTag Routes Sigs ic.type rest

/-- The second overload of `Router<Routes...>::process`, for a first argument
that is a `std::variant`: the call is well-formed when the visit has a return
type (`Router.typeVisit`); then `std::visit` calls the lambda with the active
alternative `tag`, and the lambda returns
`self.process(tag, std::forward<Args>(args)...)`, a call of the first
overload since a tag is no variant. -/
def Router.processVariant (Routes : List Ty) (Sigs : List Sig) (Nodes : List Proc)
    (alts : List Discr) (active : Nat) : Proc :=
  fun σ args =>
    if (Router.typeVisit Routes Sigs (alts.map Tag) (args.map (Arg.type σ))).isSome then
      match alts[active]? with
      | some EventV => Router.processTag Routes Nodes (Tag EventV) σ args
      | none => none
    else none

/-- The member `Router<Routes...>::process`: the overload is chosen by the
type of the first argument. The lists `Sigs` and `Nodes` hold the return type
of `Node::process` and `Node::process` of every route. -/
def Router.process (Routes : List Ty) (Sigs : List Sig) (Nodes : List Proc) : Proc :=
  fun σ args =>
    match args with
    | [] => none
    | ic :: rest =>
      if meta.Variant (ic.read σ).type then
        match ic.read σ with
        | .event alts active => Router.processVariant Routes Sigs Nodes alts active σ rest
        | _ => none
      else Router.processTag Routes Nodes (ic.read σ).type σ rest

/-! ### The composed types at run time -/

/-- The member functions `process` of the classes an application defines:
of a class that is not a template, and of an instantiation of a class
template, given `process` of each of its type arguments (a stage calls
`Then::process`). -/
structure Env where
  leaf : String → Proc
  tmpl : String → List Proc → Proc
  vtmpl : String → Discr → List Proc → Proc
  other : String → List Discr → List Proc → Proc
  /-- The return type of `process` of a class that is not a template. -/
  leafType : String → Sig
  /-- The return type of `process` of `g<args...>`, given those of `args`. -/
  tmplType : String → List Sig → Sig
  /-- The return type of `process` of `g<v, args...>`. -/
  vtmplType : String → Discr → List Sig → Sig
  /-- The return type of `process` of an instantiation of another shape. -/
  otherType : String → List Discr → List Sig → Sig

mutual
/-- The return type of the member `T::process` of a type, at each list of
argument types: the library's own classes as declared in `Nodes.hpp` and
`Router.hpp`, the others as the application declares them. -/
def signature (env : Env) : Ty → Sig
  | .leaf n =>
    if n = "Successor" then noSig
    else if n = "Sink" then Sink.returnType
    else if n = "Collect" then Collect.returnType
    else env.leafType n
  | .app g as =>
    if g = "PassThrough" then
      match signatures env as with
      | [Then] => PassThrough.returnType Then
      | _ => noSig
    else if g = "Break" then
      match signatures env as with
      | [Then] => Break.returnType Then
      | _ => noSig
    else if g = "Router" then Router.returnType as (signatures env as)
    else env.tmplType g (signatures env as)
  | .vapp g v as =>
    if g = "Route" then
      match signatures env as with
      | [Node] => Node
      | _ => noSig
    else env.vtmplType g v (signatures env as)
  | .other g vs as => env.otherType g vs (signatures env as)
/-- The return types of `process` of a list of types. -/
def signatures (env : Env) : List Ty → List Sig
  | [] => []
  | a :: as => signature env a :: signatures env as
end

mutual
/-- The member `T::process` of a type: the library's own classes as defined
in `Nodes.hpp` and `Router.hpp` (`Route<EventV, Node>` inherits
`Node::process`), the others as the application defines them. -/
def denote (env : Env) : Ty → Proc
  | .leaf n =>
    if n = "Successor" then noProcess
    else if n = "Sink" then Sink.process
    else if n = "Collect" then Collect.process
    else env.leaf n
  | .app g as =>
    if g = "PassThrough" then
      match denoteArgs env as with
      | [Then] => PassThrough.process Then
      | _ => noProcess
    else if g = "Break" then
      match denoteArgs env as with
      | [Then] => Break.process Then
      | _ => noProcess
    else if g = "Router" then Router.process as (signatures env as) (denoteArgs env as)
    else env.tmpl g (denoteArgs env as)
  | .vapp g v as =>
    if g = "Route" then
      match denoteArgs env as with
      | [Node] => Node
      | _ => noProcess
    else env.vtmpl g v (denoteArgs env as)
  | .other g vs as => env.other g vs (denoteArgs env as)
/-- The members `process` of a list of types. -/
def denoteArgs (env : Env) : List Ty → List Proc
  | [] => []
  | a :: as => denote env a :: denoteArgs env as
end

/-- The member `Graph<Nodes...>::process`:
`return self.Subgraph::process(std::forward<Args>(args)...)`. -/
def Graph.process (env : Env) (Γ : ClassTable) (Nodes : List Ty) : Proc :=
  fun σ args =>
    match Graph.Subgraph Γ Nodes with
    | some Subgraph => denote env Subgraph σ args
    | none => none

/-- The return type of `Graph<Nodes...>::process`, `decltype(auto)`: that of
`Subgraph::process`. -/
def Graph.returnType (env : Env) (Γ : ClassTable) (Nodes : List Ty) : Sig :=
  fun args =>
    match Graph.Subgraph Γ Nodes with
    | some Subgraph => signature env Subgraph args
    | none => none

/-! ### `examples/Arithmetic.cpp` -/

namespace Arithmetic

/-- The least `int` (32 bits). -/
def INT_MIN : Int := -(2 ^ 31)

/-- The greatest `int` (32 bits). -/
def INT_MAX : Int := 2 ^ 31 - 1

/-- The `int` congruent to `x` modulo `2 ^ 32`. -/
def wrap (x : Int) : Int := (x + 2 ^ 31) % 2 ^ 32 - 2 ^ 31

/-- The expression `acc << value` on `int`: the value congruent to
`acc * 2 ^ value` modulo `2 ^ 32`; undefined when `value` is negative or not
less than the width. -/
def shl (acc value : Int) : Option Int :=
  if 0 ≤ value ∧ value < 32 then some (wrap (acc * 2 ^ value.toNat)) else none

/-- The expression `acc + value` on `int`: undefined on overflow. -/
def add (acc value : Int) : Option Int :=
  if INT_MIN ≤ acc + value ∧ acc + value ≤ INT_MAX then some (acc + value) else none

/-- The member `Shifter<Then>::process(auto acc, auto value, auto&&... args)`:
`return Then::process(acc << value, std::forward<decltype(args)>(args)...)`,
for `int` arguments. -/
def Shifter.process (Then : Proc) : Proc :=
  fun σ args =>
    match args with
    | acc :: value :: rest =>
      match acc.read σ, value.read σ with
      | .int a, .int v =>
        match shl a v with
        | some r => Then σ (.rval (.int r) :: rest)
        | none => none
      | _, _ => none
    | _ => none

/-- The member `Adder<Then>::process(auto acc, auto value, auto&&... args)`:
`return Then::process(acc + value, std::forward<decltype(args)>(args)...)`,
for `int` arguments. -/
def Adder.process (Then : Proc) : Proc :=
  fun σ args =>
    match args with
    | acc :: value :: rest =>
      match acc.read σ, value.read σ with
      | .int a, .int v =>
        match add a v with
        | some r => Then σ (.rval (.int r) :: rest)
        | none => none
      | _, _ => none
    | _ => none

/-- The return type `auto` of `Shifter<Then>::process` at `int` arguments:
that of `Then::process(acc << value, args...)`, whose first argument is an
`int` that is no lvalue (`void` and a tuple are their own decayed types). -/
def Shifter.returnType (Then : Sig) : Sig :=
  fun args =>
    match args with
    | acc :: value :: rest =>
      if acc.type = .leaf "int" ∧ value.type = .leaf "int" then
        Then (⟨.leaf "int", false⟩ :: rest)
      else none
    | _ => none

/-- The return type `auto` of `Adder<Then>::process` at `int` arguments: that
of `Then::process(acc + value, args...)`. -/
def Adder.returnType (Then : Sig) : Sig :=
  fun args =>
    match args with
    | acc :: value :: rest =>
      if acc.type = .leaf "int" ∧ value.type = .leaf "int" then
        Then (⟨.leaf "int", false⟩ :: rest)
      else none
    | _ => none

/-- The class templates of the file: `struct Shifter : Then` and
`struct Adder : Then`. -/
def table : ClassTable
  | .tmpl "Shifter" => ⟨true, false, fun i => i == 0, false, false⟩
  | .tmpl "Adder" => ⟨true, false, fun i => i == 0, false, false⟩
  | _ => ⟨false, false, fun _ => false, false, false⟩

/-- The members `process` of the file. -/
def env : Env where
  leaf := fun _ => noProcess
  tmpl := fun g ps =>
    match ps with
    | [Then] =>
      if g = "Shifter" then Shifter.process Then
      else if g = "Adder" then Adder.process Then
      else noProcess
    | _ => noProcess
  vtmpl := fun _ _ _ => noProcess
  other := fun _ _ _ => noProcess
  leafType := fun _ => noSig
  tmplType := fun g ps =>
    match ps with
    | [Then] =>
      if g = "Shifter" then Shifter.returnType Then
      else if g = "Adder" then Adder.returnType Then
      else noSig
    | _ => noSig
  vtmplType := fun _ _ _ => noSig
  otherType := fun _ _ _ => noSig

/-- The stage list of `using ShiftAdd = Graph<Shifter<>, Adder<>, Collect>`. -/
def ShiftAdd : List Ty := [stage "Shifter", stage "Adder", Collect]

end Arithmetic

/-! ### `examples/Router.cpp` -/

namespace RouterExample

/-- The enumerator `Events::A`. -/
def Events.A : Discr := ⟨"Events", 0⟩

/-- The enumerator `Events::B`. -/
def Events.B : Discr := ⟨"Events", 1⟩

/-- The enumerator `Events::C`. -/
def Events.C : Discr := ⟨"Events", 2⟩

/-- The enumerator `Events::D`. -/
def Events.D : Discr := ⟨"Events", 3⟩

/-- The body shared by `HandleA`, `HandleB` and `HandleC`:
`acc += c; return Then::process(std::forward<String>(acc),
std::forward<Args>(args)...)`, for a `std::string` accumulator. An lvalue
accumulator is the caller's object and is changed in place. -/
def append (c : Char) (Then : Proc) : Proc :=
  fun σ args =>
    match args with
    | .lval l :: rest =>
      match σ l with
      | .str s => Then (σ.set l (.str (s.push c))) (.lval l :: rest)
      | _ => none
    | .rval (.str s) :: rest => Then σ (.rval (.str (s.push c)) :: rest)
    | _ => none

/-- The return type `auto` of `process` of `HandleA`, `HandleB` and `HandleC`
for a `std::string` accumulator: that of
`Then::process(std::forward<String>(acc), std::forward<Args>(args)...)`. -/
def appendType (Then : Sig) : Sig :=
  fun args =>
    match args with
    | acc :: _ => if acc.type = .leaf "std::string" then Then args else none
    | [] => none

/-- The member `HandleA<Then>::process`. -/
def HandleA.process (Then : Proc) : Proc := append 'A' Then

/-- The member `HandleB<Then>::process`. -/
def HandleB.process (Then : Proc) : Proc := append 'B' Then

/-- The member `HandleC<Then>::process`. -/
def HandleC.process (Then : Proc) : Proc := append 'C' Then

/-- The class templates of the file: `struct HandleA : Then`,
`struct HandleB : Then` and `struct HandleC : Then`. -/
def table : ClassTable
  | .tmpl "HandleA" => ⟨true, false, fun i => i == 0, false, false⟩
  | .tmpl "HandleB" => ⟨true, false, fun i => i == 0, false, false⟩
  | .tmpl "HandleC" => ⟨true, false, fun i => i == 0, false, false⟩
  | _ => ⟨false, false, fun _ => false, false, false⟩

/-- The members `process` of the file. -/
def env : Env where
  leaf := fun _ => noProcess
  tmpl := fun g ps =>
    match ps with
    | [Then] =>
      if g = "HandleA" then HandleA.process Then
      else if g = "HandleB" then HandleB.process Then
      else if g = "HandleC" then HandleC.process Then
      else noProcess
    | _ => noProcess
  vtmpl := fun _ _ _ => noProcess
  other := fun _ _ _ => noProcess
  leafType := fun _ => noSig
  tmplType := fun g ps =>
    match ps with
    | [Then] =>
      if g = "HandleA" ∨ g = "HandleB" ∨ g = "HandleC" then appendType Then else noSig
    | _ => noSig
  vtmplType := fun _ _ _ => noSig
  otherType := fun _ _ _ => noSig

/-- The routes of `EventRouter`. -/
def routes : List Ty :=
  [Route Events.A (stage "HandleA"), Route Events.B (stage "HandleB"),
    Route Events.C (stage "HandleC")]

/-- The type `EventRouter`. -/
def EventRouter : Ty := Router routes

/-- The stage list of `using EventHandler = Graph<EventRouter, Collect>`. -/
def EventHandler : List Ty := [EventRouter, Collect]

/-- The routes of the router `EventHandler` derives from, with `Successor`
rebound to `Collect`. -/
def handlerRoutes : List Ty :=
  [Route Events.A (.app "HandleA" [Collect]), Route Events.B (.app "HandleB" [Collect]),
    Route Events.C (.app "HandleC" [Collect])]

end RouterExample

/-- The caller's objects of the tests: every string empty. -/
def RouterExample.emptyStore : Store := fun _ => .str ""

/-- A target of the rewrite with the placeholder at two depths and an
instantiation of another parameter shape:
`G<Successor, Route<Events::A, H<Successor>>, std::array<int, 3>>`. -/
def sampleTarget : Ty :=
  .app "G" [Successor, Route ⟨"Events", 0⟩ (stage "H"),
    .other "std::array" [⟨"std::size_t", 3⟩] [.leaf "int"]]

/-! ### Stage types -/

/-- The class derives from every one of its type arguments, from position `k`
on. -/
def derivesAll (sel : Nat → Bool) : Nat → List Ty → Bool
  | _, [] => true
  | k, _ :: as => sel k && derivesAll sel (k + 1) as

mutual
/-- A stage type in the form the library gives its stages: the placeholder,
a class that is not a template and does not derive from `Successor` (a
terminal as `Sink`), or an instantiation of a class template of one of the two
shapes `Rebind` rewrites that derives from each of its type arguments and from
nothing else that holds `Successor` (`struct PassThrough : Then`,
`struct Route : Node`, `struct Router : Routes...`), its arguments stage types
again. -/
def stageShaped (Γ : ClassTable) : Ty → Bool
  | .leaf n =>
    (classInfo Γ (.leaf n)).isClass
      && (decide (Ty.leaf n = Successor) || !(classInfo Γ (.leaf n)).fixedBase)
  | .app g as =>
    (classInfo Γ (.tmpl g)).isClass && !(classInfo Γ (.tmpl g)).fixedBase
      && derivesAll (classInfo Γ (.tmpl g)).baseArg 0 as && stageShapedArgs Γ as
  | .vapp g _ as =>
    (classInfo Γ (.vtmpl g)).isClass && !(classInfo Γ (.vtmpl g)).fixedBase
      && derivesAll (classInfo Γ (.vtmpl g)).baseArg 0 as && stageShapedArgs Γ as
  | .other _ _ _ => false
/-- Every listed type is a stage type in the library's form. -/
def stageShapedArgs (Γ : ClassTable) : List Ty → Bool
  | [] => true
  | a :: as => stageShaped Γ a && stageShapedArgs Γ as
end

/-- A class table with a stage template of another parameter shape,
`template <typename Then, int N> struct Stop : Then`, whose `process`
returns without calling `Then::process`. -/
def Odd.table : ClassTable
  | .other "Stop" => ⟨true, false, fun i => i == 0, false, false⟩
  | _ => ⟨false, false, fun _ => false, false, false⟩

/-- The members `process` that go with `Odd.table`. -/
def Odd.env : Env where
  leaf := fun _ => noProcess
  tmpl := fun _ _ => noProcess
  vtmpl := fun _ _ _ => noProcess
  other := fun g _ _ => if g = "Stop" then Sink.process else noProcess
  leafType := fun _ => noSig
  tmplType := fun _ _ => noSig
  vtmplType := fun _ _ _ => noSig
  otherType := fun g _ _ => if g = "Stop" then Sink.returnType else noSig

/-- The stage `Stop<Successor, 3>`. -/
def Odd.Stop3 : Ty := .other "Stop" [⟨"int", 3⟩] [Successor]

/-- A class table with a stage template that holds its successor as a member
and derives from nothing, `template <typename Then = Successor> struct Owns`. -/
def Odd.owning : ClassTable
  | .tmpl "Owns" => ⟨true, false, fun _ => false, false, false⟩
  | _ => ⟨false, false, fun _ => false, false, false⟩

/-! ### Composition onto a composed tail -/

mutual
/-- Every `Router<Routes...>` in the type meets the part of its constraint
`requires(meta::RouteLike<Routes> && ...)` that asks each route for a member
`Tag`: a tree that does not is no type. -/
def routesOnly : Ty → Bool
  | .leaf _ => true
  | .app g as =>
    (!(g == "Router") || as.all (fun a => (memberTag a).isSome)) && routesOnlyArgs as
  | .vapp _ _ as => routesOnlyArgs as
  | .other _ _ as => routesOnlyArgs as
/-- Every listed type meets `routesOnly`. -/
def routesOnlyArgs : List Ty → Bool
  | [] => true
  | a :: as => routesOnly a && routesOnlyArgs as
end

/-- The steps of `GraphImpl<Head, Tail...>` for the stages `pre` before a tail
already composed to `c`: from the last stage of `pre` to the first, `Successor`
in the stage is rebound to the type composed so far. -/
def composeOnto : List Ty → Ty → Option Ty
  | [], c => some c
  | Head :: pre, c => (composeOnto pre c).bind (fun composed => Rebind Successor composed Head)

/-! ### A `Graph` as a stage of another pipeline -/

/-- The class table with the instantiation `Graph<Nodes...>` declared as a
class of its own under the name `name`: by `struct Graph : Subgraph` it is a
class when `Graph` accepts the list, and `Successor` is a base of it exactly
when it is one of its base `Subgraph`. -/
def declareGraph (Γ : ClassTable) (name : String) (Nodes : List Ty) : ClassTable :=
  fun h =>
    if h = Head.leaf name then
      match Graph.Subgraph Γ Nodes with
      | some Subgraph => ⟨true, isBaseOfSuccessor Γ Subgraph, fun _ => false, false, true⟩
      | none => ⟨false, false, fun _ => false, false, false⟩
    else Γ h

/-- The members `process` with that of `Graph<Nodes...>` under the name
`name`: `Graph::process`. -/
def Env.declareGraph (env : Env) (Γ : ClassTable) (name : String) (Nodes : List Ty) : Env where
  leaf := fun n => if n = name then Graph.process env Γ Nodes else env.leaf n
  tmpl := env.tmpl
  vtmpl := env.vtmpl
  other := env.other
  leafType := fun n => if n = name then Graph.returnType env Γ Nodes else env.leafType n
  tmplType := env.tmplType
  vtmplType := env.vtmplType
  otherType := env.otherType

/-! ### `examples/Middleware.cpp` -/

namespace Middleware

/-- The member `WithX<Then>::process`:
`return self.Then::process(std::forward<decltype(args)>(args)...)`. -/
def WithX.process (Then : Proc) : Proc :=
  fun σ args => Then σ args

/-- The member `Adder<Then>::process(this auto&& self, auto amt, auto&&... args)`:
`self.x += amt; return self.Then::process(std::forward<decltype(args)>(args)...)`,
for an `int` argument. The member `x` of the pipeline object `self` is the
caller's object `x`. -/
def Adder.process (x : Loc) (Then : Proc) : Proc :=
  fun σ args =>
    match args with
    | amt :: rest =>
      match σ x, amt.read σ with
      | .int a, .int v =>
        match Arithmetic.add a v with
        | some r => Then (σ.set x (.int r)) rest
        | none => none
      | _, _ => none
    | _ => none

/-- The member `Shifter<Then>::process(this auto&& self, auto amt)`:
`self.x <<= amt; return self.Then::process(self.x)`, for an `int` argument. -/
def Shifter.process (x : Loc) (Then : Proc) : Proc :=
  fun σ args =>
    match args with
    | [amt] =>
      match σ x, amt.read σ with
      | .int a, .int v =>
        match Arithmetic.shl a v with
        | some r => Then (σ.set x (.int r)) [.lval x]
        | none => none
      | _, _ => none
    | _ => none

/-- The return type `auto` of `WithX<Then>::process`: that of
`self.Then::process(args...)`. -/
def WithX.returnType (Then : Sig) : Sig := Then

/-- The return type `auto` of `Adder<Then>::process` at an `int` argument:
that of `self.Then::process(args...)`. -/
def Adder.returnType (Then : Sig) : Sig :=
  fun args =>
    match args with
    | amt :: rest => if amt.type = .leaf "int" then Then rest else none
    | [] => none

/-- The return type `auto` of `Shifter<Then>::process` at an `int` argument:
that of `self.Then::process(self.x)`, whose argument is an lvalue `int`. -/
def Shifter.returnType (Then : Sig) : Sig :=
  fun args =>
    match args with
    | [amt] => if amt.type = .leaf "int" then Then [⟨.leaf "int", true⟩] else none
    | _ => none

/-- The class templates of the file: `struct WithX : Then`,
`struct Adder : Then` and `struct Shifter : Then`. -/
def table : ClassTable
  | .tmpl "WithX" => ⟨true, false, fun i => i == 0, false, true⟩
  | .tmpl "Adder" => ⟨true, false, fun i => i == 0, false, true⟩
  | .tmpl "Shifter" => ⟨true, false, fun i => i == 0, false, true⟩
  | _ => ⟨false, false, fun _ => false, false, false⟩

/-- The members `process` of the file, for a pipeline object whose member
`x` is the caller's object `x`. -/
def env (x : Loc) : Env where
  leaf := fun _ => noProcess
  tmpl := fun g ps =>
    match ps with
    | [Then] =>
      if g = "WithX" then WithX.process Then
      else if g = "Adder" then Adder.process x Then
      else if g = "Shifter" then Shifter.process x Then
      else noProcess
    | _ => noProcess
  vtmpl := fun _ _ _ => noProcess
  other := fun _ _ _ => noProcess
  leafType := fun _ => noSig
  tmplType := fun g ps =>
    match ps with
    | [Then] =>
      if g = "WithX" then WithX.returnType Then
      else if g = "Adder" then Adder.returnType Then
      else if g = "Shifter" then Shifter.returnType Then
      else noSig
    | _ => noSig
  vtmplType := fun _ _ _ => noSig
  otherType := fun _ _ _ => noSig

/-- The stage list of `using AddShift = Graph<Adder<>, Shifter<>, Collect>`. -/
def AddShift : List Ty := [stage "Adder", stage "Shifter", Collect]

/-- The type `WithMember = WithX<AddShift>`, with `AddShift` declared under
its name. -/
def WithMember : Ty := .app "WithX" [.leaf "AddShift"]

/-- The function `test`, with `graph.x` the caller's object `0`:
`WithMember graph(20); auto [result] = graph.process(1, 1);`
`return (result == 42) && (result == graph.x)`. -/
def test : Option Bool :=
  match denote ((env 0).declareGraph table "AddShift" AddShift) WithMember
      (fun _ => .int 20) [.rval (.int 1), .rval (.int 1)] with
  | some (.record [result], σ) => some (result.read σ == .int 42 && result.read σ == σ 0)
  | _ => none

end Middleware

/-! ### `examples/Router.cpp`: the tests -/

namespace RouterExample

/-- The alternatives of `EventRouter::Event`, by enumerator. -/
def eventAlts : List Discr := [Events.A, Events.B, Events.C]

/-- The loop of `testVisitOverload` without its comparison, for any list of
first arguments: `auto [x] = handle.process(event, acc)` for each in turn, on
the same `handle` and the same `acc`. It returns, per call, the element `x`
of the record and the value read through `x` right after the call. -/
def feed (acc : Loc) : List Arg → Store → Option (List (Slot × Val) × Store)
  | [], σ => some ([], σ)
  | event :: stream, σ =>
    match Graph.process env table EventHandler σ [event, .lval acc] with
    | some (.record [x], σ') =>
      match feed acc stream σ' with
      | some (xs, σ'') => some ((x, x.read σ') :: xs, σ'')
      | none => none
    | _ => none

/-- The function `test`, with `acc` the caller's object `0`: three calls
with the tags made by `createTag`, and the comparison
`a == ab && ab == abc && abc == acc && acc == "ABC"` after the third. -/
def test : Option Bool :=
  match Graph.process env table EventHandler (fun _ => .str "")
      [.rval (.tag Events.A), .lval 0] with
  | some (.record [a], σ1) =>
    match Graph.process env table EventHandler σ1 [.rval (.tag Events.B), .lval 0] with
    | some (.record [ab], σ2) =>
      match Graph.process env table EventHandler σ2 [.rval (.tag Events.C), .lval 0] with
      | some (.record [abc], σ3) =>
        some (a.read σ3 == ab.read σ3 && ab.read σ3 == abc.read σ3
          && abc.read σ3 == σ3 0 && σ3 0 == .str "ABC")
      | _ => none
    | _ => none
  | _ => none

/-- The objects of `testVisitOverload`: `acc` is the object `0`, and
`stream[i]` is the object `i + 1`. -/
def streamStore : Store := fun k =>
  if k = 1 then .event eventAlts 0
  else if k = 2 then .event eventAlts 1
  else if k = 3 then .event eventAlts 2
  else .str ""

/-- The loop of `testVisitOverload` from index `i`, with `n` iterations left:
`auto [x] = handle.process(stream[i], acc); if (x != expected[i]) return false;`
and after the loop `return acc == "ABC"`. -/
def testVisitOverload.loop (expected : List String) : Nat → Nat → Store → Option Bool
  | 0, _, σ => some (σ 0 == .str "ABC")
  | n + 1, i, σ =>
    match Graph.process env table EventHandler σ [.lval (i + 1), .lval 0] with
    | some (.record [x], σ') =>
      if some (x.read σ') ≠ (expected[i]?).map Val.str then some false
      else testVisitOverload.loop expected n (i + 1) σ'
    | _ => none

/-- The function `testVisitOverload`. -/
def testVisitOverload : Option Bool :=
  testVisitOverload.loop ["A", "AB", "ABC"] 3 0 streamStore

/-- The enumerator a first argument selects: that of a tag, or that of the
active alternative of an `EventRouter::Event`. -/
def eventOf : Val → Option Discr
  | .tag EventV => some EventV
  | .event alts active => if alts = eventAlts then alts[active]? else none
  | _ => none

/-- The letter the handler of an enumerator appends. -/
def letterOf (EventV : Discr) : Option Char :=
  if EventV = Events.A then some 'A'
  else if EventV = Events.B then some 'B'
  else if EventV = Events.C then some 'C'
  else none

end RouterExample

/-! ### `examples/Strings.cpp` -/

namespace Strings

/-- The callable objects handed to the stages, by the number of `Val.fn`:
what `predicate(c)` gives as the condition of an `if`, and what
`transform(c)` gives as an element pushed to a `std::string`; `none` when the
call has no defined result. The callables have no effect on the objects of
the caller. -/
structure Callables where
  asPredicate : Nat → Char → Option Bool
  asTransform : Nat → Char → Option Char

/-- The loop of `Filter::process` over the elements left, with `result` so
far: `for (auto c : acc) { if (predicate(c)) { result.push_back(c); } }`. -/
def Filter.loop (predicate : Char → Option Bool) : List Char → String → Option String
  | [], result => some result
  | c :: acc, result =>
    match predicate c with
    | some true => Filter.loop predicate acc (result.push c)
    | some false => Filter.loop predicate acc result
    | none => none

/-- The member `Filter<Then>::process`, for a `std::string` accumulator:
`Container result;`, the loop, and
`return self.Then::process(std::move(result), std::forward<decltype(args)>(args)...)`. -/
def Filter.process (calls : Callables) (Then : Proc) : Proc :=
  fun σ args =>
    match args with
    | acc :: predicate :: rest =>
      match acc.read σ, predicate.read σ with
      | .str s, .fn p =>
        match Filter.loop (calls.asPredicate p) s.data "" with
        | some result => Then σ (.rval (.str result) :: rest)
        | none => none
      | _, _ => none
    | _ => none

/-- The loop of `Transform::process` over the elements left, with `result` so
far: `for (auto c : acc) { result.push_back(transform(c)); }`. -/
def Transform.loop (transform : Char → Option Char) : List Char → String → Option String
  | [], result => some result
  | c :: acc, result =>
    match transform c with
    | some d => Transform.loop transform acc (result.push d)
    | none => none

/-- The member `Transform<Then>::process`, for a `std::string` accumulator. -/
def Transform.process (calls : Callables) (Then : Proc) : Proc :=
  fun σ args =>
    match args with
    | acc :: transform :: rest =>
      match acc.read σ, transform.read σ with
      | .str s, .fn f =>
        match Transform.loop (calls.asTransform f) s.data "" with
        | some result => Then σ (.rval (.str result) :: rest)
        | none => none
      | _, _ => none
    | _ => none

/-- The type of a callable object of the model. -/
def isClosure : Ty → Bool
  | .leaf n => n.startsWith "closure#"
  | _ => false

/-- The return type `auto` of `Filter<Then>::process` for a `std::string`
accumulator and a callable: that of
`self.Then::process(std::move(result), args...)`, whose first argument is a
`std::string` that is no lvalue. -/
def Filter.returnType (Then : Sig) : Sig :=
  fun args =>
    match args with
    | acc :: predicate :: rest =>
      if acc.type = .leaf "std::string" ∧ isClosure predicate.type = true then
        Then (⟨.leaf "std::string", false⟩ :: rest)
      else none
    | _ => none

/-- The return type `auto` of `Transform<Then>::process` for a `std::string`
accumulator and a callable. -/
def Transform.returnType (Then : Sig) : Sig :=
  fun args =>
    match args with
    | acc :: transform :: rest =>
      if acc.type = .leaf "std::string" ∧ isClosure transform.type = true then
        Then (⟨.leaf "std::string", false⟩ :: rest)
      else none
    | _ => none

/-- The class templates of the file: `struct Filter : Then` and
`struct Transform : Then`. -/
def table : ClassTable
  | .tmpl "Filter" => ⟨true, false, fun i => i == 0, false, true⟩
  | .tmpl "Transform" => ⟨true, false, fun i => i == 0, false, true⟩
  | _ => ⟨false, false, fun _ => false, false, false⟩

/-- The members `process` of the file. -/
def env (calls : Callables) : Env where
  leaf := fun _ => noProcess
  tmpl := fun g ps =>
    match ps with
    | [Then] =>
      if g = "Filter" then Filter.process calls Then
      else if g = "Transform" then Transform.process calls Then
      else noProcess
    | _ => noProcess
  vtmpl := fun _ _ _ => noProcess
  other := fun _ _ _ => noProcess
  leafType := fun _ => noSig
  tmplType := fun g ps =>
    match ps with
    | [Then] =>
      if g = "Filter" then Filter.returnType Then
      else if g = "Transform" then Transform.returnType Then
      else noSig
    | _ => noSig
  vtmplType := fun _ _ _ => noSig
  otherType := fun _ _ _ => noSig

/-- The stage list of
`using FilterTransform = Graph<Filter<>, Transform<>, Collect>`. -/
def FilterTransform : List Ty := [stage "Filter", stage "Transform", Collect]

/-- The lambda `isLower` of `test`: `return !(c >= 'A' && c <= 'Z')`. -/
def isLower (c : Char) : Bool := !(decide (c ≥ 'A') && decide (c ≤ 'Z'))

/-- The lambda `toUpper` of `test`:
`if (c >= 'a' && c <= 'z') { return 'A' + (c - 'a'); } return c;`. -/
def toUpper (c : Char) : Char :=
  if c ≥ 'a' ∧ c ≤ 'z' then Char.ofNat ('A'.toNat + (c.toNat - 'a'.toNat)) else c

/-- The callables of `test`: `isLower` is number `0` and `toUpper` is number
`1`. A `bool` pushed to a string is the character `0` or `1`, and a `char`
as a condition is true when it is not the character `0`. -/
def testCalls : Callables where
  asPredicate := fun id c =>
    if id = 0 then some (isLower c)
    else if id = 1 then some (toUpper c != Char.ofNat 0)
    else none
  asTransform := fun id c =>
    if id = 0 then some (Char.ofNat (if isLower c then 1 else 0))
    else if id = 1 then some (toUpper c)
    else none

/-- The objects of `test`: `isLower` is the object `0` and `toUpper` is the
object `1`. -/
def testStore : Store := fun k => if k = 0 then .fn 0 else .fn 1

/-- The function `test`:
`auto [result] = graph.process(std::string("hello,FILTERED world"), isLower, toUpper);`
`return result == "HELLO, WORLD"`. -/
def test : Option Bool :=
  match Graph.process (env testCalls) table FilterTransform testStore
      [.rval (.str "hello,FILTERED world"), .lval 0, .lval 1] with
  | some (.record [result], σ) => some (result.read σ == .str "HELLO, WORLD")
  | _ => none

end Strings

/-! ### Bases that come from the type arguments -/

mutual
/-- On the paths of base classes from the type, `Successor` is a base only as
the placeholder itself: no other class on these paths has `Successor` as a
base whatever its arguments are. -/
def argBased (Γ : ClassTable) : Ty → Bool
  | .leaf n => decide (Ty.leaf n = Successor) || !(classInfo Γ (.leaf n)).fixedBase
  | .app g as =>
    !(classInfo Γ (.tmpl g)).fixedBase
      && argBasedSel Γ (classInfo Γ (.tmpl g)).baseArg 0 as
  | .vapp g _ as =>
    !(classInfo Γ (.vtmpl g)).fixedBase
      && argBasedSel Γ (classInfo Γ (.vtmpl g)).baseArg 0 as
  | .other g _ as =>
    !(classInfo Γ (.other g)).fixedBase
      && argBasedSel Γ (classInfo Γ (.other g)).baseArg 0 as
/-- Every type argument selected as a base meets `argBased`. -/
def argBasedSel (Γ : ClassTable) (sel : Nat → Bool) : Nat → List Ty → Bool
  | _, [] => true
  | k, a :: as => (!sel k || argBased Γ a) && argBasedSel Γ sel (k + 1) as
end

/-- A class table with a stage template that derives from its first type
argument only, `template <typename Then, typename Policy> struct Logged : Then`,
and a class `Policy` that is no stage. -/
def Odd.logged : ClassTable
  | .tmpl "Logged" => ⟨true, false, fun i => i == 0, false, false⟩
  | .leaf "Policy" => ⟨true, false, fun _ => false, false, false⟩
  | _ => ⟨false, false, fun _ => false, false, false⟩

/-! ### Classes that can be instantiated and derived from -/

/-- The type arguments a class derives from, in the order of its base-class
list. -/
def basesFrom (sel : Nat → Bool) : Nat → List Ty → List Ty
  | _, [] => []
  | k, a :: as => if sel k then a :: basesFrom sel (k + 1) as else basesFrom sel (k + 1) as

/-- The constraint on the template arguments of a class template of the
library: `requires meta::NodeLike<Then>` of `PassThrough` and `Break`,
`requires(meta::NodeLike<Node>)` of `Route`, and
`requires(meta::RouteLike<Routes> && ...)` of `Router`. The class templates of
an application are taken without a constraint. -/
def constraintOf (Γ : ClassTable) : Ty → Bool
  | .app g as =>
    if g = "PassThrough" ∨ g = "Break" then
      match as with
      | [Then] => meta.NodeLike Γ Then
      | _ => false
    else if g = "Router" then as.all (meta.RouteLike Γ)
    else true
  | .vapp g _ as =>
    if g = "Route" then
      match as with
      | [Node] => meta.NodeLike Γ Node
      | _ => false
    else true
  | _ => true

mutual
/-- The type is a class that can be instantiated: it is declared as a class,
the constraint of its template holds, no type is named twice in its list of
base classes, and each base class can itself be instantiated and is not
`final`. -/
def instantiable (Γ : ClassTable) : Ty → Bool
  | .leaf n => (classInfo Γ (.leaf n)).isClass
  | .app g as =>
    (classInfo Γ (.tmpl g)).isClass && constraintOf Γ (.app g as)
      && decide (basesFrom (classInfo Γ (.tmpl g)).baseArg 0 as).Nodup
      && usableBases Γ (classInfo Γ (.tmpl g)).baseArg 0 as
  | .vapp g v as =>
    (classInfo Γ (.vtmpl g)).isClass && constraintOf Γ (.vapp g v as)
      && decide (basesFrom (classInfo Γ (.vtmpl g)).baseArg 0 as).Nodup
      && usableBases Γ (classInfo Γ (.vtmpl g)).baseArg 0 as
  | .other g _ as =>
    (classInfo Γ (.other g)).isClass
      && decide (basesFrom (classInfo Γ (.other g)).baseArg 0 as).Nodup
      && usableBases Γ (classInfo Γ (.other g)).baseArg 0 as
/-- Every type argument selected as a base can be instantiated and is not
`final`. -/
def usableBases (Γ : ClassTable) (sel : Nat → Bool) : Nat → List Ty → Bool
  | _, [] => true
  | k, a :: as =>
    (!sel k || (instantiable Γ a && !(classInfo Γ a.head).isFinal))
      && usableBases Γ sel (k + 1) as
end

/-- The type can be named as a base class: it can be instantiated and is not
`final`. -/
def usableAsBase (Γ : ClassTable) (T : Ty) : Bool :=
  instantiable Γ T && !(classInfo Γ T.head).isFinal

/-- The class `Graph<Nodes...>` can be instantiated: the constraint
`requires(meta::NodeLike<Nodes> && ...)` and the assertions of `GraphImpl`
hold, and the composed type can be named as the base class in
`struct Graph : detail::GraphImpl<Nodes...>::Type`. -/
def Graph.accepted (Γ : ClassTable) (Nodes : List Ty) : Bool :=
  match Graph.Subgraph Γ Nodes with
  | some Subgraph => usableAsBase Γ Subgraph
  | none => false

/-! ### Routers of routes, and the bases a call names -/

/-- The class `Router<Routes...>` can be instantiated: the constraint
`requires(meta::RouteLike<Routes> && ...)` holds, every route can be named as
a base class, and no type is named twice in the base-class list `Routes...`.
Every instantiation of `Route` declares the `operator()` that
`using Routes::operator()...` names. Nothing compares the tags. -/
def Router.accepted (Γ : ClassTable) (Routes : List Ty) : Bool :=
  instantiable Γ (Router Routes)

mutual
/-- The number of base-class subobjects of type `B` in an object of type `T`,
`T` itself counted, along the type arguments that are bases. -/
def subobjects (Γ : ClassTable) (B : Ty) : Ty → Nat
  | .leaf n => if Ty.leaf n = B then 1 else 0
  | .app g as =>
    if Ty.app g as = B then 1
    else subobjectsSel Γ B (classInfo Γ (.tmpl g)).baseArg 0 as
  | .vapp g v as =>
    if Ty.vapp g v as = B then 1
    else subobjectsSel Γ B (classInfo Γ (.vtmpl g)).baseArg 0 as
  | .other g vs as =>
    if Ty.other g vs as = B then 1
    else subobjectsSel Γ B (classInfo Γ (.other g)).baseArg 0 as
/-- The subobjects of type `B` in the type arguments selected as bases. -/
def subobjectsSel (Γ : ClassTable) (B : Ty) (sel : Nat → Bool) : Nat → List Ty → Nat
  | _, [] => 0
  | k, a :: as =>
    (if sel k then subobjects Γ B a else 0) + subobjectsSel Γ B sel (k + 1) as
end

/-- The class `B` is `T` or an unambiguous base class of `T`: an object of
type `T` has one subobject of type `B`, so that `self.B::process(...)` on an
object of type `T` names one object. -/
def unambiguousBase (Γ : ClassTable) (B T : Ty) : Bool :=
  subobjects Γ B T == 1

mutual
/-- The call of `T::process` on an object of class `Self`, and the calls of
`process` of the bases of `T` it leads to, each name an unambiguous base of
the class of their object. A `process` declared with `this auto&& self` hands
the class of its object on to the bases it calls; another calls them on its
own class. `Break::process` calls no base. A `Route` or a `Router` below the
object is not followed. -/
def selfSafe (Γ : ClassTable) (Self : Ty) : Ty → Bool
  | .leaf n => unambiguousBase Γ (.leaf n) Self
  | .app g as =>
    unambiguousBase Γ (.app g as) Self
      && (g == "Break"
        || (!(g == "Router")
          && selfSafeSel Γ
            (if (classInfo Γ (.tmpl g)).deducesThis then Self else .app g as)
            (classInfo Γ (.tmpl g)).baseArg 0 as))
  | .vapp g v as =>
    unambiguousBase Γ (.vapp g v as) Self
      && !(g == "Route")
      && selfSafeSel Γ
        (if (classInfo Γ (.vtmpl g)).deducesThis then Self else .vapp g v as)
        (classInfo Γ (.vtmpl g)).baseArg 0 as
  | .other g vs as =>
    unambiguousBase Γ (.other g vs as) Self
      && selfSafeSel Γ
        (if (classInfo Γ (.other g)).deducesThis then Self else .other g vs as)
        (classInfo Γ (.other g)).baseArg 0 as
/-- The type arguments selected as bases meet `selfSafe`. -/
def selfSafeSel (Γ : ClassTable) (Self : Ty) (sel : Nat → Bool) : Nat → List Ty → Bool
  | _, [] => true
  | k, a :: as => (!sel k || selfSafe Γ Self a) && selfSafeSel Γ Self sel (k + 1) as
end

/-- The routes `Route<V1, H1>, ..., Route<Vk, Hk>` of the pairs `(Vi, Hi)`. -/
def routesOf (rs : List (Discr × Ty)) : List Ty :=
  rs.map (fun r => Route r.1 r.2)

/-- A router with the tag `Events::A` on two routes, composed with
`Collect`. -/
def RouterExample.repeated : List (Discr × Ty) :=
  [(RouterExample.Events.A, .app "HandleA" [Collect]),
    (RouterExample.Events.A, .app "HandleB" [Collect])]

/-! ### Stage lists with a composed type that is no base class -/

/-- A class table with a terminal declared `final`:
`struct Last final { ... }`. -/
def Odd.sealed : ClassTable
  | .leaf "Last" => ⟨true, false, fun _ => false, true, false⟩
  | _ => ⟨false, false, fun _ => false, false, false⟩

/-- A stage list whose router has two routes of one tag that the rewrite
turns into one type: `[Router<Route<A, Successor>, Route<A, Sink>>, Sink]`. -/
def Odd.merging : List Ty :=
  [Router [Route ⟨"Events", 0⟩ Successor, Route ⟨"Events", 0⟩ Sink], Sink]

/-- The pairs of tag and handler of the router `EventHandler` derives from. -/
def RouterExample.handlers : List (Discr × Ty) :=
  [(RouterExample.Events.A, .app "HandleA" [Collect]),
    (RouterExample.Events.B, .app "HandleB" [Collect]),
    (RouterExample.Events.C, .app "HandleC" [Collect])]

/-! ## Part II: theorems -/

/-! ### Induction over the generic argument tree -/

mutual
/-- Structural induction over types, with the hypothesis for every type
argument. -/
theorem Ty.induct (motive : Ty → Prop)
    (hleaf : ∀ n, motive (.leaf n))
    (happ : ∀ g as, (∀ a ∈ as, motive a) → motive (.app g as))
    (hvapp : ∀ g v as, (∀ a ∈ as, motive a) → motive (.vapp g v as))
    (hother : ∀ g vs as, (∀ a ∈ as, motive a) → motive (.other g vs as)) :
    ∀ T, motive T
  | .leaf n => hleaf n
  | .app g as => happ g as (Ty.inductArgs motive hleaf happ hvapp hother as)
  | .vapp g v as => hvapp g v as (Ty.inductArgs motive hleaf happ hvapp hother as)
  | .other g vs as => hother g vs as (Ty.inductArgs motive hleaf happ hvapp hother as)
/-- The induction hypothesis for a list of type arguments. -/
theorem Ty.inductArgs (motive : Ty → Prop)
    (hleaf : ∀ n, motive (.leaf n))
    (happ : ∀ g as, (∀ a ∈ as, motive a) → motive (.app g as))
    (hvapp : ∀ g v as, (∀ a ∈ as, motive a) → motive (.vapp g v as))
    (hother : ∀ g vs as, (∀ a ∈ as, motive a) → motive (.other g vs as)) :
    ∀ as : List Ty, ∀ a ∈ as, motive a
  | [] => fun _ h => absurd h (List.not_mem_nil _)
  | b :: bs => fun a h => by
    rcases List.mem_cons.mp h with rfl | h'
    · exact Ty.induct motive hleaf happ hvapp hother a
    · exact Ty.inductArgs motive hleaf happ hvapp hother bs a h'
end

theorem occursArgs_eq_false {P : Ty} {as : List Ty} :
    occursArgs P as = false ↔ ∀ a ∈ as, occurs P a = false := by
  induction as with
  | nil => simp [occursArgs]
  | cons a as ih => simp [occursArgs, ih]

theorem hiddenArgs_eq_false {P : Ty} {as : List Ty} :
    hiddenArgs P as = false ↔ ∀ a ∈ as, hidden P a = false := by
  induction as with
  | nil => simp [hiddenArgs]
  | cons a as ih => simp [hiddenArgs, ih]

theorem rebindArgs_eq_some {P R : Ty} {as as' : List Ty} :
    RebindArgs P R as = some as' ↔
      List.Forall₂ (fun a a' => RebindImpl P R a = some a') as as' := by
  induction as generalizing as' with
  | nil =>
    cases as' <;> simp [RebindArgs]
  | cons a as ih =>
    rw [RebindArgs]
    cases h1 : RebindImpl P R a with
    | none =>
      simp only [reduceCtorEq, false_iff]
      intro h
      cases h with
      | cons hh _ => rw [h1] at hh; cases hh
    | some a1 =>
      cases h2 : RebindArgs P R as with
      | none =>
        simp only [reduceCtorEq, false_iff]
        intro h
        cases h with
        | cons _ ht => rw [← ih] at ht; rw [h2] at ht; cases ht
      | some as1 =>
        simp only [Option.some.injEq]
        constructor
        · rintro rfl
          exact List.Forall₂.cons h1 (ih.mp h2)
        · intro h
          cases h with
          | cons hh ht =>
            rw [h1] at hh
            rw [← ih, h2] at ht
            cases hh; cases ht; rfl

/-! ### `Rebind.hpp`: the rewrite -/

theorem forall₂_refl_of {P R : Ty} {as : List Ty}
    (h : ∀ a ∈ as, RebindImpl P R a = some a) :
    List.Forall₂ (fun a a' => RebindImpl P R a = some a') as as := by
  induction as with
  | nil => exact List.Forall₂.nil
  | cons a as ih =>
    exact List.Forall₂.cons (h a (List.mem_cons_self _ _))
      (ih (fun b hb => h b (List.mem_cons_of_mem _ hb)))

/-- A target in which the pattern does not occur is returned unchanged. -/
theorem rebindImpl_of_not_occurs (P R : Ty) :
    ∀ T, occurs P T = false → RebindImpl P R T = some T := by
  intro T
  induction T using Ty.induct with
  | hleaf n =>
    intro h
    simp only [occurs, decide_eq_false_iff_not] at h
    simp [RebindImpl, h]
  | happ g as ih =>
    intro h
    simp only [occurs, Bool.or_eq_false_iff, decide_eq_false_iff_not] at h
    have hargs : RebindArgs P R as = some as :=
      rebindArgs_eq_some.mpr
        (forall₂_refl_of (fun a ha => ih a ha (occursArgs_eq_false.mp h.2 a ha)))
    simp [RebindImpl, h.1, hargs]
  | hvapp g v as ih =>
    intro h
    simp only [occurs, Bool.or_eq_false_iff, decide_eq_false_iff_not] at h
    have hargs : RebindArgs P R as = some as :=
      rebindArgs_eq_some.mpr
        (forall₂_refl_of (fun a ha => ih a ha (occursArgs_eq_false.mp h.2 a ha)))
    simp [RebindImpl, h.1, hargs]
  | hother g vs as _ =>
    intro h
    simp only [occurs, Bool.or_eq_false_iff, decide_eq_false_iff_not] at h
    simp [RebindImpl, h.1]

theorem hidden_of_not_occurs (P : Ty) :
    ∀ T, occurs P T = false → hidden P T = false := by
  intro T
  induction T using Ty.induct with
  | hleaf n => intro _; rfl
  | happ g as ih =>
    intro h
    simp only [occurs, Bool.or_eq_false_iff] at h
    simp only [hidden]
    exact hiddenArgs_eq_false.mpr (fun a ha => ih a ha (occursArgs_eq_false.mp h.2 a ha))
  | hvapp g v as ih =>
    intro h
    simp only [occurs, Bool.or_eq_false_iff] at h
    simp only [hidden]
    exact hiddenArgs_eq_false.mpr (fun a ha => ih a ha (occursArgs_eq_false.mp h.2 a ha))
  | hother g vs as _ =>
    intro h
    simp only [occurs, Bool.or_eq_false_iff] at h
    simp [hidden, h.2]

theorem forall₂_total {P R : Ty} {as : List Ty}
    (h : ∀ a ∈ as, ∃ a', RebindImpl P R a = some a') :
    ∃ as', List.Forall₂ (fun a a' => RebindImpl P R a = some a') as as' := by
  induction as with
  | nil => exact ⟨[], List.Forall₂.nil⟩
  | cons a as ih =>
    obtain ⟨a', ha'⟩ := h a (List.mem_cons_self _ _)
    obtain ⟨as', has'⟩ := ih (fun b hb => h b (List.mem_cons_of_mem _ hb))
    exact ⟨a' :: as', List.Forall₂.cons ha' has'⟩

/-- With a pattern that is not a template instantiation of one of the two
rewritten shapes (as `Successor`), no instantiation of `RebindImpl` is
ambiguous. -/
theorem rebindImpl_total (P R : Ty) (hP : P.isTemplateId = false) :
    ∀ T, ∃ T', RebindImpl P R T = some T' := by
  intro T
  induction T using Ty.induct with
  | hleaf n =>
    by_cases h : Ty.leaf n = P
    · exact ⟨R, by simp [RebindImpl, h]⟩
    · exact ⟨.leaf n, by simp [RebindImpl, h]⟩
  | happ g as ih =>
    have hne : Ty.app g as ≠ P := by
      intro h; rw [← h] at hP; simp [Ty.isTemplateId] at hP
    obtain ⟨as', has'⟩ := forall₂_total ih
    exact ⟨.app g as', by simp [RebindImpl, hne, rebindArgs_eq_some.mpr has']⟩
  | hvapp g v as ih =>
    have hne : Ty.vapp g v as ≠ P := by
      intro h; rw [← h] at hP; simp [Ty.isTemplateId] at hP
    obtain ⟨as', has'⟩ := forall₂_total ih
    exact ⟨.vapp g v as', by simp [RebindImpl, hne, rebindArgs_eq_some.mpr has']⟩
  | hother g vs as _ =>
    by_cases h : Ty.other g vs as = P
    · exact ⟨R, by simp [RebindImpl, h]⟩
    · exact ⟨.other g vs as, by simp [RebindImpl, h]⟩

/-- What `RebindImpl` returns for an instantiation of the third shape. -/
theorem rebindImpl_app {P R : Ty} {g : String} {as : List Ty} {T' : Ty}
    (h : RebindImpl P R (.app g as) = some T') :
    Ty.app g as ≠ P ∧ ∃ as', T' = .app g as' ∧
      List.Forall₂ (fun a a' => RebindImpl P R a = some a') as as' := by
  rw [RebindImpl] at h
  by_cases hp : Ty.app g as = P
  · simp [hp] at h
  · simp only [hp, if_false, Option.map_eq_some'] at h
    obtain ⟨as', h1, h2⟩ := h
    exact ⟨hp, as', h2.symm, rebindArgs_eq_some.mp h1⟩

/-- What `RebindImpl` returns for an instantiation of the fourth shape. -/
theorem rebindImpl_vapp {P R : Ty} {g : String} {v : Discr} {as : List Ty} {T' : Ty}
    (h : RebindImpl P R (.vapp g v as) = some T') :
    Ty.vapp g v as ≠ P ∧ ∃ as', T' = .vapp g v as' ∧
      List.Forall₂ (fun a a' => RebindImpl P R a = some a') as as' := by
  rw [RebindImpl] at h
  by_cases hp : Ty.vapp g v as = P
  · simp [hp] at h
  · simp only [hp, if_false, Option.map_eq_some'] at h
    obtain ⟨as', h1, h2⟩ := h
    exact ⟨hp, as', h2.symm, rebindArgs_eq_some.mp h1⟩

theorem forall₂_mem_right {α β : Type} {r : α → β → Prop} {as : List α} {bs : List β}
    (h : List.Forall₂ r as bs) : ∀ b ∈ bs, ∃ a ∈ as, r a b := by
  induction h with
  | nil => intro b hb; cases hb
  | cons hab _ ih =>
    intro b hb
    rcases List.mem_cons.mp hb with rfl | hb'
    · exact ⟨_, List.mem_cons_self _ _, hab⟩
    · obtain ⟨a, ha, hr⟩ := ih b hb'
      exact ⟨a, List.mem_cons_of_mem _ ha, hr⟩

theorem forall₂_getElem? {α β : Type} {r : α → β → Prop} {as : List α} {bs : List β}
    (h : List.Forall₂ r as bs) : ∀ (i : Nat) a, as[i]? = some a → ∃ b, bs[i]? = some b ∧ r a b := by
  induction h with
  | nil => intro i a ha; simp at ha
  | cons hab _ ih =>
    intro i a ha
    cases i with
    | zero =>
      simp only [List.getElem?_cons_zero, Option.some.injEq] at ha
      subst ha
      exact ⟨_, by simp, hab⟩
    | succ i =>
      simp only [List.getElem?_cons_succ] at ha
      obtain ⟨b, hb, hr⟩ := ih i a ha
      exact ⟨b, by simpa using hb, hr⟩

/-- The rewritten type holds no occurrence of the pattern. -/
theorem rebindImpl_not_occurs (P R : Ty) (hP : P.isTemplateId = false)
    (hR : occurs P R = false) :
    ∀ T T', RebindImpl P R T = some T' → hidden P T = false → occurs P T' = false := by
  intro T
  induction T using Ty.induct with
  | hleaf n =>
    intro T' h _
    by_cases hp : Ty.leaf n = P
    · simp [RebindImpl, hp] at h; rw [← h]; exact hR
    · simp [RebindImpl, hp] at h; rw [← h]; simp [occurs, hp]
  | happ g as ih =>
    intro T' h hh
    obtain ⟨_, as', rfl, hf⟩ := rebindImpl_app h
    have hne : Ty.app g as' ≠ P := by
      intro e; rw [← e] at hP; simp [Ty.isTemplateId] at hP
    simp only [hidden] at hh
    simp only [occurs, Bool.or_eq_false_iff, decide_eq_false_iff_not]
    refine ⟨hne, occursArgs_eq_false.mpr ?_⟩
    intro a' ha'
    obtain ⟨a, ha, hr⟩ := forall₂_mem_right hf a' ha'
    exact ih a ha a' hr (hiddenArgs_eq_false.mp hh a ha)
  | hvapp g v as ih =>
    intro T' h hh
    obtain ⟨_, as', rfl, hf⟩ := rebindImpl_vapp h
    have hne : Ty.vapp g v as' ≠ P := by
      intro e; rw [← e] at hP; simp [Ty.isTemplateId] at hP
    simp only [hidden] at hh
    simp only [occurs, Bool.or_eq_false_iff, decide_eq_false_iff_not]
    refine ⟨hne, occursArgs_eq_false.mpr ?_⟩
    intro a' ha'
    obtain ⟨a, ha, hr⟩ := forall₂_mem_right hf a' ha'
    exact ih a ha a' hr (hiddenArgs_eq_false.mp hh a ha)
  | hother g vs as _ =>
    intro T' h hh
    by_cases hp : Ty.other g vs as = P
    · simp [RebindImpl, hp] at h; rw [← h]; exact hR
    · simp [RebindImpl, hp] at h
      rw [← h]
      simp [hidden, hp] at hh
      simp [occurs, hp, hh]

/-- One step down the tree: away from the pattern, the rewritten type has the
same head, and its arguments are the rewritten arguments. -/
theorem rebindImpl_step (P R : Ty) {T T' : Ty} (h : RebindImpl P R T = some T')
    (hh : hidden P T = false) (hne : T ≠ P) :
    T.sameHead T' = true ∧
      ∀ (i : Nat) c, T.args[i]? = some c →
        ∃ c', T'.args[i]? = some c' ∧ RebindImpl P R c = some c' ∧ hidden P c = false := by
  cases T with
  | leaf n =>
    simp [RebindImpl, hne] at h
    subst h
    simp [Ty.sameHead, Ty.args]
  | app g as =>
    obtain ⟨_, as', rfl, hf⟩ := rebindImpl_app h
    simp only [hidden] at hh
    refine ⟨by simp [Ty.sameHead, hf.length_eq], ?_⟩
    intro i c hc
    obtain ⟨c', hc', hr⟩ := forall₂_getElem? hf i c hc
    exact ⟨c', hc', hr, hiddenArgs_eq_false.mp hh c (List.getElem?_mem hc)⟩
  | vapp g v as =>
    obtain ⟨_, as', rfl, hf⟩ := rebindImpl_vapp h
    simp only [hidden] at hh
    refine ⟨by simp [Ty.sameHead, hf.length_eq], ?_⟩
    intro i c hc
    obtain ⟨c', hc', hr⟩ := forall₂_getElem? hf i c hc
    exact ⟨c', hc', hr, hiddenArgs_eq_false.mp hh c (List.getElem?_mem hc)⟩
  | other g vs as =>
    simp [RebindImpl, hne] at h
    subst h
    simp [hidden, hne] at hh
    refine ⟨by simp [Ty.sameHead], ?_⟩
    intro i c hc
    have hoc : occurs P c = false :=
      occursArgs_eq_false.mp hh c (List.getElem?_mem hc)
    exact ⟨c, hc, rebindImpl_of_not_occurs P R c hoc, hidden_of_not_occurs P c hoc⟩

theorem sub_cons {T : Ty} {i : Nat} {p : List Nat} {t : Ty}
    (h : T.sub (i :: p) = some t) : ∃ c, T.args[i]? = some c ∧ c.sub p = some t := by
  rw [Ty.sub] at h
  cases hc : T.args[i]? with
  | none => rw [hc] at h; cases h
  | some c => rw [hc] at h; exact ⟨c, rfl, h⟩

theorem sub_cons_of {T c : Ty} {i : Nat} (p : List Nat)
    (h : T.args[i]? = some c) : T.sub (i :: p) = c.sub p := by
  rw [Ty.sub, h]

/-- Away from the occurrences of the pattern, the rewritten type has the node
of the target at every position. -/
theorem rebindImpl_same_off_pattern (P R : Ty) :
    ∀ (p : List Nat) (T T' t : Ty), RebindImpl P R T = some T' → hidden P T = false →
      T.sub p = some t → (∀ q, q <+: p → T.sub q ≠ some P) →
      ∃ t', T'.sub p = some t' ∧ t.sameHead t' = true := by
  intro p
  induction p with
  | nil =>
    intro T T' t h hh ht hq
    simp only [Ty.sub, Option.some.injEq] at ht
    subst ht
    have hne : T ≠ P := fun e => hq [] (List.prefix_refl _) (by simp [Ty.sub, e])
    exact ⟨T', by simp [Ty.sub], (rebindImpl_step P R h hh hne).1⟩
  | cons i p ih =>
    intro T T' t h hh ht hq
    have hne : T ≠ P := fun e => hq [] (List.nil_prefix) (by simp [Ty.sub, e])
    obtain ⟨c, hc, hct⟩ := sub_cons ht
    obtain ⟨c', hc', hr, hhc⟩ := (rebindImpl_step P R h hh hne).2 i c hc
    have hq' : ∀ q, q <+: p → c.sub q ≠ some P := by
      intro q hqp
      rw [← sub_cons_of q hc]
      exact hq (i :: q) ((List.prefix_cons_inj i).mpr hqp)
    obtain ⟨t', ht', hs⟩ := ih c c' t hr hhc hct hq'
    exact ⟨t', by rw [sub_cons_of p hc']; exact ht', hs⟩

/-- At every outermost occurrence of the pattern, the rewritten type has the
replacement. -/
theorem rebindImpl_replacement_at_pattern (P R : Ty) (hP : P.isTemplateId = false) :
    ∀ (p : List Nat) (T T' : Ty), RebindImpl P R T = some T' → hidden P T = false →
      T.sub p = some P → (∀ q, q <+: p → q ≠ p → T.sub q ≠ some P) →
      T'.sub p = some R := by
  intro p
  induction p with
  | nil =>
    intro T T' h _ ht _
    simp only [Ty.sub, Option.some.injEq] at ht
    subst ht
    cases T with
    | leaf n => simp [RebindImpl] at h; simp [Ty.sub, h]
    | app g as => simp [Ty.isTemplateId] at hP
    | vapp g v as => simp [Ty.isTemplateId] at hP
    | other g vs as => simp [RebindImpl] at h; simp [Ty.sub, h]
  | cons i p ih =>
    intro T T' h hh ht hq
    have hne : T ≠ P :=
      fun e => hq [] (List.nil_prefix) (by simp) (by simp [Ty.sub, e])
    obtain ⟨c, hc, hct⟩ := sub_cons ht
    obtain ⟨c', hc', hr, hhc⟩ := (rebindImpl_step P R h hh hne).2 i c hc
    have hq' : ∀ q, q <+: p → q ≠ p → c.sub q ≠ some P := by
      intro q hqp hqne
      rw [← sub_cons_of q hc]
      exact hq (i :: q) ((List.prefix_cons_inj i).mpr hqp) (by simpa using hqne)
    rw [sub_cons_of p hc']
    exact ih c c' hr hhc hct hq'

/-- C2, counterexample. `Rebind<Successor, Collect, std::array<Successor, 2>>`
is `std::array<Successor, 2>`: only the primary template of `RebindImpl`
matches an instantiation with a value argument after a type argument, so the
pattern, which does not occur in the replacement, still occurs in the result.
And when the pattern is itself an instantiation of a type template, as
`G<Successor>`, the rewrite of a target that holds it is ambiguous and has no
result at all. -/
theorem rebind_leaves_hidden_occurrence :
    occurs Successor Collect = false ∧
    Rebind Successor Collect (.other "std::array" [⟨"std::size_t", 2⟩] [Successor])
      = some (.other "std::array" [⟨"std::size_t", 2⟩] [Successor]) ∧
    occurs Successor (.other "std::array" [⟨"std::size_t", 2⟩] [Successor]) = true ∧
    occurs (stage "G") Collect = false ∧
    Rebind (stage "G") Collect (PassThrough (stage "G")) = none := by
  decide

/-- C2, amended. For every pattern `P` that is not itself an instantiation of
a type template or of a template with a leading value (as `Successor` is not),
every replacement `R` in which `P` does not occur and every target `T` in
which `P` does not occur strictly inside an instantiation of a template of
another parameter shape: `Rebind<P, R, T>` exists, holds no occurrence of `P`
at any depth, has the node of `T` at every position that is not at or below an
occurrence of `P`, and has `R` at every outermost occurrence of `P`. -/
theorem rebind_replaces_every_reachable_occurrence (P R T : Ty)
    (hP : P.isTemplateId = false) (hR : occurs P R = false)
    (hT : hidden P T = false) :
    ∃ T', Rebind P R T = some T' ∧ occurs P T' = false ∧
      (∀ p t, T.sub p = some t → (∀ q, q <+: p → T.sub q ≠ some P) →
        ∃ t', T'.sub p = some t' ∧ t.sameHead t' = true) ∧
      (∀ p, T.sub p = some P → (∀ q, q <+: p → q ≠ p → T.sub q ≠ some P) →
        T'.sub p = some R) := by
  obtain ⟨T', h⟩ := rebindImpl_total P R hP T
  refine ⟨T', h, rebindImpl_not_occurs P R hP hR T T' h hT, ?_, ?_⟩
  · intro p t ht hq
    exact rebindImpl_same_off_pattern P R p T T' t h hT ht hq
  · intro p ht hq
    exact rebindImpl_replacement_at_pattern P R hP p T T' h hT ht hq

/-- C2, witness: the rewrite of
`G<Successor, Route<Events::A, H<Successor>>, std::array<int, 3>>`. -/
theorem rebind_replaces_every_reachable_occurrence_witness :
    Successor.isTemplateId = false ∧ occurs Successor Collect = false ∧
    hidden Successor sampleTarget = false ∧
    ∃ T', Rebind Successor Collect sampleTarget = some T' ∧
      occurs Successor T' = false ∧
      (∀ p t, sampleTarget.sub p = some t →
        (∀ q, q <+: p → sampleTarget.sub q ≠ some Successor) →
        ∃ t', T'.sub p = some t' ∧ t.sameHead t' = true) ∧
      (∀ p, sampleTarget.sub p = some Successor →
        (∀ q, q <+: p → q ≠ p → sampleTarget.sub q ≠ some Successor) →
        T'.sub p = some Collect) :=
  ⟨by decide, by decide, by decide,
    rebind_replaces_every_reachable_occurrence Successor Collect sampleTarget
      (by decide) (by decide) (by decide)⟩

/-! ### `Graph.hpp`: the fold -/

theorem rebind_successor_total (R T : Ty) : ∃ T', Rebind Successor R T = some T' :=
  rebindImpl_total Successor R (by decide) T

theorem rebind_stage (R : Ty) (g : String) :
    Rebind Successor R (stage g) = some (.app g [R]) := by
  simp [Rebind, stage, RebindImpl, RebindArgs, Successor]

theorem graphImpl_cons (Γ : ClassTable) (Head : Ty) {Tail : List Ty} (h : Tail ≠ []) :
    detail.GraphImpl Γ (Head :: Tail) =
      if meta.Internal Γ Head then
        (detail.GraphImpl Γ Tail).bind (fun composed => Rebind Successor composed Head)
      else none := by
  cases Tail with
  | nil => exact absurd rfl h
  | cons t Tail => rw [detail.GraphImpl]

theorem composedBack_cons (Head : Ty) (Tail : List Ty) :
    ∀ k, k < Tail.length → composedBack (Head :: Tail) k = composedBack Tail k := by
  intro k
  induction k with
  | zero =>
    intro hk
    simp only [composedBack, List.length_cons, Nat.add_sub_cancel]
    obtain ⟨m, hm⟩ : ∃ m, Tail.length = m + 1 := ⟨Tail.length - 1, by omega⟩
    rw [hm]
    simp
  | succ k ih =>
    intro hk
    simp only [composedBack, List.length_cons, Nat.add_sub_cancel]
    rw [ih (by omega)]
    obtain ⟨m, hm⟩ : ∃ m, Tail.length = m + (k + 1) + 1 := ⟨Tail.length - (k + 1) - 1, by omega⟩
    rw [hm]
    have e1 : m + (k + 1) + 1 - (k + 1) = m + 1 := by omega
    have e2 : m + (k + 1) + 1 - 1 - (k + 1) = m := by omega
    rw [e1, e2]
    simp

theorem composedBack_top (Head : Ty) {Tail : List Ty} (h : Tail ≠ []) :
    composedBack (Head :: Tail) Tail.length =
      (composedBack Tail (Tail.length - 1)).bind (fun c => Rebind Successor c Head) := by
  obtain ⟨m, hm⟩ : ∃ m, Tail.length = m + 1 :=
    ⟨Tail.length - 1, by have := List.length_pos.mpr h; omega⟩
  rw [hm]
  simp only [composedBack, List.length_cons, Nat.add_sub_cancel]
  rw [composedBack_cons Head Tail m (by omega), hm]
  cases composedBack Tail m <;> simp

theorem graphImpl_eq_composedBack (Γ : ClassTable) :
    ∀ (S : List Ty) (T : Ty), detail.GraphImpl Γ S = some T →
      composedBack S (S.length - 1) = some T := by
  intro S
  induction S with
  | nil => intro T h; simp [detail.GraphImpl] at h
  | cons Head Tail ih =>
    intro T h
    cases Tail with
    | nil =>
      simp only [detail.GraphImpl] at h
      split at h
      · simpa [composedBack] using h
      · cases h
    | cons t Tail =>
      rw [graphImpl_cons Γ Head (by simp)] at h
      split at h
      · cases hc : detail.GraphImpl Γ (t :: Tail) with
        | none => rw [hc] at h; cases h
        | some c =>
          rw [hc] at h
          have := @composedBack_top Head (t :: Tail) (by simp)
          simp only [List.length_cons, Nat.add_sub_cancel] at this ⊢
          rw [this]
          have ihc := ih c hc
          simp only [List.length_cons, Nat.add_sub_cancel] at ihc
          rw [ihc]
          exact h
      · cases h

theorem graphImpl_stages (Γ : ClassTable) (Sn : Ty) :
    ∀ (gs : List String) (T : Ty),
      detail.GraphImpl Γ (gs.map stage ++ [Sn]) = some T → T = nest gs Sn := by
  intro gs
  induction gs with
  | nil =>
    intro T h
    simp only [List.map_nil, List.nil_append, detail.GraphImpl] at h
    split at h
    · simpa [nest] using h.symm
    · cases h
  | cons g gs ih =>
    intro T h
    rw [List.map_cons, List.cons_append, graphImpl_cons Γ (stage g) (by simp)] at h
    split at h
    · cases hc : detail.GraphImpl Γ (gs.map stage ++ [Sn]) with
      | none => rw [hc] at h; cases h
      | some c =>
        rw [hc] at h
        simp only [Option.some_bind, rebind_stage, Option.some.injEq] at h
        rw [← h, ih c hc, nest]
    · cases h

theorem subgraph_eq_graphImpl {Γ : ClassTable} {S : List Ty} {T : Ty}
    (h : Graph.Subgraph Γ S = some T) : detail.GraphImpl Γ S = some T := by
  unfold Graph.Subgraph at h
  split at h
  · exact h
  · cases h

/-- C1. For every stage list `S = [S1..Sn]` that `Graph` accepts, the base
class `Graph<S1..Sn>::Subgraph` is `Composed[1]`, where `Composed[n] = Sn`
and `Composed[i] = Rebind<Successor, Composed[i+1], Si>`; when the stages
before the last are of the form `Gi<Successor>`, it is the manual nesting
`G1<G2<...G(n-1)<Sn>...>>`; and `Graph::process` returns, for every argument
list, what `process` of that composed type returns. -/
theorem graph_subgraph_is_composed (env : Env) (Γ : ClassTable) (S : List Ty) (T : Ty)
    (h : Graph.Subgraph Γ S = some T) :
    Composed S 1 = some T ∧
    (∀ gs Sn, S = gs.map stage ++ [Sn] → T = nest gs Sn) ∧
    (∀ σ args, Graph.process env Γ S σ args = denote env T σ args) := by
  have hg := subgraph_eq_graphImpl h
  refine ⟨?_, ?_, ?_⟩
  · have hlen : 1 ≤ S.length := by
      cases S with
      | nil => simp [detail.GraphImpl] at hg
      | cons a as => simp
    simp only [Composed, le_refl, hlen, and_self, if_true]
    exact graphImpl_eq_composedBack Γ S T hg
  · intro gs Sn hS
    subst hS
    exact graphImpl_stages Γ Sn gs T hg
  · intro σ args
    simp [Graph.process, h]

/-- C1, witness: `Graph<Shifter<>, Adder<>, Collect>` of `Arithmetic.cpp`. -/
theorem graph_subgraph_is_composed_witness :
    Graph.Subgraph Arithmetic.table Arithmetic.ShiftAdd
      = some (nest ["Shifter", "Adder"] Collect) ∧
    Composed Arithmetic.ShiftAdd 1 = some (nest ["Shifter", "Adder"] Collect) ∧
    (∀ gs Sn, Arithmetic.ShiftAdd = gs.map stage ++ [Sn] →
      nest ["Shifter", "Adder"] Collect = nest gs Sn) ∧
    (∀ σ args, Graph.process Arithmetic.env Arithmetic.table Arithmetic.ShiftAdd σ args
      = denote Arithmetic.env (nest ["Shifter", "Adder"] Collect) σ args) :=
  ⟨by decide,
    graph_subgraph_is_composed Arithmetic.env Arithmetic.table Arithmetic.ShiftAdd
      (nest ["Shifter", "Adder"] Collect) (by decide)⟩

theorem internal_or_terminal_nodeLike {Γ : ClassTable} {T : Ty}
    (h : meta.Internal Γ T = true ∨ meta.Terminal Γ T = true) :
    meta.NodeLike Γ T = true := by
  simp only [meta.NodeLike, Bool.or_eq_true]
  exact h

theorem graphImpl_isSome_iff (Γ : ClassTable) :
    ∀ S : List Ty, (detail.GraphImpl Γ S).isSome = true ↔
      S ≠ [] ∧ (∀ Sn, S.getLast? = some Sn → meta.Terminal Γ Sn = true) ∧
        (∀ Si ∈ S.dropLast, meta.Internal Γ Si = true) := by
  intro S
  induction S with
  | nil => simp [detail.GraphImpl]
  | cons Head Tail ih =>
    cases Tail with
    | nil =>
      simp only [detail.GraphImpl]
      by_cases ht : meta.Terminal Γ Head = true <;> simp [ht]
    | cons t Tail =>
      rw [graphImpl_cons Γ Head (by simp)]
      have hlast : (Head :: t :: Tail).getLast? = (t :: Tail).getLast? := by
        simp [List.getLast?_cons_cons]
      have hdrop : (Head :: t :: Tail).dropLast = Head :: (t :: Tail).dropLast := by
        simp [List.dropLast]
      rw [hlast, hdrop]
      by_cases hi : meta.Internal Γ Head = true
      · simp only [hi, if_true]
        have hsome : ((detail.GraphImpl Γ (t :: Tail)).bind
            (fun composed => Rebind Successor composed Head)).isSome = true ↔
            (detail.GraphImpl Γ (t :: Tail)).isSome = true := by
          cases hc : detail.GraphImpl Γ (t :: Tail) with
          | none => simp
          | some c =>
            obtain ⟨T', hT'⟩ := rebind_successor_total c Head
            simp [hT']
        rw [hsome, ih]
        constructor
        · rintro ⟨_, h1, h2⟩
          refine ⟨by simp, h1, ?_⟩
          intro Si hSi
          rcases List.mem_cons.mp hSi with rfl | hSi
          · exact hi
          · exact h2 Si hSi
        · rintro ⟨_, h1, h2⟩
          exact ⟨by simp, h1, fun Si hSi => h2 Si (List.mem_cons_of_mem _ hSi)⟩
      · simp only [hi]
        constructor
        · intro h; simp at h
        · rintro ⟨_, _, h2⟩
          exact absurd (h2 Head (List.mem_cons_self _ _)) hi

theorem mem_dropLast_or_getLast {α : Type} :
    ∀ (S : List α) (x : α), x ∈ S → x ∈ S.dropLast ∨ S.getLast? = some x := by
  intro S
  induction S with
  | nil => intro x h; cases h
  | cons a as ih =>
    intro x hx
    cases as with
    | nil =>
      right
      simp only [List.mem_singleton] at hx
      simp [hx]
    | cons b bs =>
      rcases List.mem_cons.mp hx with rfl | hx'
      · left; simp [List.dropLast]
      · rcases ih x hx' with h | h
        · left; simp only [List.dropLast]; exact List.mem_cons_of_mem _ h
        · right; rw [List.getLast?_cons_cons]; exact h

theorem subgraph_isSome_iff (Γ : ClassTable) (S : List Ty) :
    (Graph.Subgraph Γ S).isSome = true ↔
      S ≠ [] ∧ (∀ Sn, S.getLast? = some Sn → meta.Terminal Γ Sn = true) ∧
        (∀ Si ∈ S.dropLast, meta.Internal Γ Si = true) := by
  rw [← graphImpl_isSome_iff]
  unfold Graph.Subgraph
  by_cases hall : S.all (meta.NodeLike Γ) = true
  · simp [hall]
  · simp only [hall]
    constructor
    · intro h; simp at h
    · intro h
      exfalso
      apply hall
      obtain ⟨_, h1, h2⟩ := (graphImpl_isSome_iff Γ S).mp h
      rw [List.all_eq_true]
      intro x hx
      rcases mem_dropLast_or_getLast S x hx with hd | hl
      · exact internal_or_terminal_nodeLike (Or.inl (h2 x hd))
      · exact internal_or_terminal_nodeLike (Or.inr (h1 x hl))

theorem not_internal_of_terminal {Γ : ClassTable} {T : Ty}
    (h : meta.Terminal Γ T = true) : meta.Internal Γ T = false := by
  simp only [meta.Terminal, Bool.and_eq_true, Bool.not_eq_true'] at h
  simp [meta.Internal, h.2]

theorem not_terminal_of_internal {Γ : ClassTable} {T : Ty}
    (h : meta.Internal Γ T = true) : meta.Terminal Γ T = false := by
  simp only [meta.Internal, Bool.and_eq_true] at h
  simp [meta.Terminal, h.2]

/-! ### `examples/Arithmetic.cpp` -/

theorem Arithmetic.wrap_of_int {x : Int} (h1 : Arithmetic.INT_MIN ≤ x)
    (h2 : x ≤ Arithmetic.INT_MAX) : Arithmetic.wrap x = x := by
  unfold Arithmetic.wrap
  unfold Arithmetic.INT_MIN at h1
  unfold Arithmetic.INT_MAX at h2
  rw [Int.emod_eq_of_lt (by omega) (by omega)]
  omega

theorem Arg.read_rval (σ : Store) (v : Val) : Arg.read σ (.rval v) = v := rfl

theorem Arg.read_lval (σ : Store) (l : Loc) : Arg.read σ (.lval l) = σ l := rfl

theorem denote_Collect (env : Env) : denote env Collect = Collect.process := by
  simp [denote, Collect]

theorem Arithmetic.denote_Shifter (T : Ty) :
    denote Arithmetic.env (.app "Shifter" [T])
      = Arithmetic.Shifter.process (denote Arithmetic.env T) := by
  simp [denote, denoteArgs, Arithmetic.env]

theorem Arithmetic.denote_Adder (T : Ty) :
    denote Arithmetic.env (.app "Adder" [T])
      = Arithmetic.Adder.process (denote Arithmetic.env T) := by
  simp [denote, denoteArgs, Arithmetic.env]

theorem Arithmetic.shiftAdd_subgraph :
    Graph.Subgraph Arithmetic.table Arithmetic.ShiftAdd
      = some (nest ["Shifter", "Adder"] Collect) := by
  decide

/-- C4. The stages run in declaration order. For all `int` values `acc`, `s`
and `a` with the shift count in range (`0 ≤ s < 32`) and no overflow,
`Graph<Shifter<>, Adder<>, Collect>.process(acc, s, a)` returns the record of
one element that holds `(acc << s) + a` and changes no object of the caller:
the shift of the first stage is applied before the addition of the second.
`process(10, 2, 2)` returns `42`, where adding first would give
`(10 + 2) << 2 = 48`. -/
theorem shiftAdd_runs_in_declaration_order (σ : Store) (x y z : Arg) (acc s a : Int)
    (hx : x.read σ = .int acc) (hy : y.read σ = .int s) (hz : z.read σ = .int a)
    (hs0 : 0 ≤ s) (hs : s < 32)
    (hlo : Arithmetic.INT_MIN ≤ acc * 2 ^ s.toNat)
    (hhi : acc * 2 ^ s.toNat ≤ Arithmetic.INT_MAX)
    (hlo' : Arithmetic.INT_MIN ≤ acc * 2 ^ s.toNat + a)
    (hhi' : acc * 2 ^ s.toNat + a ≤ Arithmetic.INT_MAX) :
    Graph.process Arithmetic.env Arithmetic.table Arithmetic.ShiftAdd σ [x, y, z]
      = some (.record [.val (.int (acc * 2 ^ s.toNat + a))], σ) ∧
    Arithmetic.shl acc s = some (acc * 2 ^ s.toNat) ∧
    Graph.process Arithmetic.env Arithmetic.table Arithmetic.ShiftAdd σ
      [.rval (.int 10), .rval (.int 2), .rval (.int 2)]
      = some (.record [.val (.int 42)], σ) ∧
    (Arithmetic.add 10 2).bind (fun t => Arithmetic.shl t 2) = some 48 := by
  have hshl : Arithmetic.shl acc s = some (acc * 2 ^ s.toNat) := by
    simp [Arithmetic.shl, hs0, hs, Arithmetic.wrap_of_int hlo hhi]
  have hadd : Arithmetic.add (acc * 2 ^ s.toNat) a = some (acc * 2 ^ s.toNat + a) := by
    simp [Arithmetic.add, hlo', hhi']
  refine ⟨?_, hshl, ?_, by decide⟩
  · simp only [Graph.process, Arithmetic.shiftAdd_subgraph]
    simp only [nest, Arithmetic.denote_Shifter, Arithmetic.denote_Adder, denote_Collect,
      Arithmetic.Shifter.process, hx, hy, hshl, Arithmetic.Adder.process, Arg.read_rval, hz, hadd,
      Collect.process, List.map, Collect.slot]
  · simp only [Graph.process, Arithmetic.shiftAdd_subgraph]
    have h1 : Arithmetic.shl 10 2 = some 40 := by decide
    have h2 : Arithmetic.add 40 2 = some 42 := by decide
    simp only [nest, Arithmetic.denote_Shifter, Arithmetic.denote_Adder, denote_Collect,
      Arithmetic.Shifter.process, Arithmetic.Adder.process, Arg.read_rval, h1, h2,
      Collect.process, List.map, Collect.slot]

/-- C4, witness: `process(10, 2, 2)`, the first argument an lvalue. -/
theorem shiftAdd_runs_in_declaration_order_witness :
    Graph.process Arithmetic.env Arithmetic.table Arithmetic.ShiftAdd (fun _ => .int 10)
      [.lval 0, .rval (.int 2), .rval (.int 2)]
      = some (.record [.val (.int (10 * 2 ^ (2 : Int).toNat + 2))], fun _ => .int 10) :=
  (shiftAdd_runs_in_declaration_order (fun _ => .int 10) (.lval 0) (.rval (.int 2))
    (.rval (.int 2)) 10 2 2 rfl rfl rfl (by decide) (by decide) (by decide) (by decide)
    (by decide) (by decide)).1

/-! ### `Router.hpp`: tags and dispatch -/

theorem Tag_inj {d d' : Discr} : Tag d = Tag d' ↔ d = d' := by
  constructor
  · intro h
    simp only [Tag, Ty.other.injEq, List.cons.injEq, and_true, true_and] at h
    exact h.1
  · rintro rfl; rfl

theorem memberTag_Route (d : Discr) (H : Ty) : memberTag (Route d H) = some (Tag d) := by
  simp [memberTag, Route]

theorem variant_Tag (d : Discr) : meta.Variant (Tag d) = false := by
  simp [meta.Variant, remove_cvref_t, detail.isVariantImpl, Tag]

theorem variant_event (alts : List Discr) (active : Nat) :
    meta.Variant (Val.event alts active).type = true := by
  simp [meta.Variant, remove_cvref_t, detail.isVariantImpl, Val.type]

theorem denoteArgs_eq_map (env : Env) (as : List Ty) :
    denoteArgs env as = as.map (denote env) := by
  induction as with
  | nil => simp [denoteArgs]
  | cons a as ih => simp [denoteArgs, ih]

theorem denote_Route (env : Env) (d : Discr) (H : Ty) :
    denote env (Route d H) = denote env H := by
  simp [Route, denote, denoteArgs]

theorem signatures_eq_map (env : Env) (as : List Ty) :
    signatures env as = as.map (signature env) := by
  induction as with
  | nil => simp [signatures]
  | cons a as ih => simp [signatures, ih]

theorem denote_Router (env : Env) (Routes : List Ty) :
    denote env (Router Routes)
      = Router.process Routes (Routes.map (signature env)) (Routes.map (denote env)) := by
  simp [Router, denote, denoteArgs_eq_map, signatures_eq_map]

/-- A type with a member `Tag` is not a `std::tuple`, so a pack of one such
type is handled by the primary template of `isHandledImpl`. -/
theorem isHandledSingle_of_memberTag (IC T : Ty) (h : (memberTag T).isSome = true) :
    detail.isHandledSingle IC T = decide (memberTag T = some (remove_cvref_t IC)) := by
  cases T with
  | leaf n => simp [detail.isHandledSingle]
  | app g as => simp [memberTag] at h
  | vapp g v as => simp [detail.isHandledSingle]
  | other g vs as => simp [detail.isHandledSingle]

theorem isHandledImpl_eq_any (IC : Ty) (Routes : List Ty)
    (h : ∀ R ∈ Routes, (memberTag R).isSome = true) :
    detail.isHandledImpl IC Routes = Routes.any (fun R => decide (memberTag R = some IC)) := by
  cases Routes with
  | nil => simp [detail.isHandledImpl]
  | cons T rest =>
    cases rest with
    | nil =>
      simp only [detail.isHandledImpl]
      rw [isHandledSingle_of_memberTag IC T (h T (List.mem_cons_self _ _))]
      simp [remove_cvref_t]
    | cons U rest =>
      simp only [detail.isHandledImpl, remove_cvref_t]

theorem Val.type_tag (d : Discr) : (Val.tag d).type = Tag d := rfl

/-- The viable overloads are the nodes of the routes that carry the tag. -/
theorem viable_routes {α : Type} (IC : Ty) (rs : List (Discr × Ty)) (f : Discr × Ty → α) :
    Router.viable IC (rs.map (fun r => Route r.1 r.2)) (rs.map f)
      = (rs.filter (fun r => decide (Tag r.1 = IC))).map f := by
  induction rs with
  | nil => simp [Router.viable]
  | cons r rs ih =>
    simp only [List.map_cons, Router.viable, memberTag_Route, Route.call, remove_cvref_t]
    by_cases hr : Tag r.1 = IC
    · have hr' : IC = Tag r.1 := hr.symm
      rw [if_pos hr', ih, List.filter_cons, if_pos (by simpa using hr), List.map_cons]
    · have hr' : ¬ IC = Tag r.1 := fun e => hr e.symm
      rw [if_neg hr', ih, List.filter_cons, if_neg (by simpa using hr)]

/-! ### `Nodes.hpp`: `Collect` -/

/-- C10. For every argument list `a1..an`, `Collect::process` returns a record
of length `n` whose `i`-th element denotes `ai`, in argument order, and
changes no object of the caller; an lvalue argument is stored as a reference
to the caller's object, so that a later change of that object is seen through
the record; every other argument is stored by value, which no later change
reaches; and the record is a function of the argument list alone. -/
theorem collect_returns_arguments (σ : Store) (args : List Arg) :
    ∃ slots, Collect.process σ args = some (.record slots, σ) ∧
      slots.length = args.length ∧
      (∀ (i : Nat) a, args[i]? = some a →
        ∃ s, slots[i]? = some s ∧ s.read σ = a.read σ) ∧
      (∀ (i : Nat) l, args[i]? = some (.lval l) →
        slots[i]? = some (.ref l) ∧
          ∀ (σ' : Store) (v : Val), (Slot.ref l).read (σ'.set l v) = v) ∧
      (∀ (i : Nat) v, args[i]? = some (.rval v) →
        slots[i]? = some (.val v) ∧ ∀ σ' : Store, (Slot.val v).read σ' = v) ∧
      (∀ σ' : Store, Collect.process σ' args = some (.record slots, σ')) := by
  refine ⟨args.map Collect.slot, rfl, by simp, ?_, ?_, ?_, fun _ => rfl⟩
  · intro i a ha
    refine ⟨Collect.slot a, by simp [ha], ?_⟩
    cases a <;> rfl
  · intro i l ha
    refine ⟨by simp [ha, Collect.slot], ?_⟩
    intro σ' v
    simp [Slot.read, Store.set]
  · intro i v ha
    exact ⟨by simp [ha, Collect.slot], fun _ => rfl⟩

/-! ### `Rebind.hpp`: targets without the pattern, and a leading value -/

/-- C18. For every pattern `P`, replacement `R` and target `T` in which `P`
does not occur anywhere in the generic argument tree, `Rebind<P, R, T>` is
`T`; in particular a type that is not a template instantiation and is not
`P`, such as `Sink` or `Collect`, is returned unchanged. -/
theorem rebind_without_pattern_is_identity (P R T : Ty) (h : occurs P T = false) :
    Rebind P R T = some T ∧
    (∀ n : String, Ty.leaf n ≠ P → Rebind P R (.leaf n) = some (.leaf n)) ∧
    (P ≠ Sink → Rebind P R Sink = some Sink) ∧
    (P ≠ Collect → Rebind P R Collect = some Collect) := by
  refine ⟨rebindImpl_of_not_occurs P R T h, ?_, ?_, ?_⟩
  · intro n hn
    simp [Rebind, RebindImpl, hn]
  · intro hn
    have : Ty.leaf "Sink" ≠ P := fun e => hn e.symm
    simp [Rebind, RebindImpl, Sink, this]
  · intro hn
    have : Ty.leaf "Collect" ≠ P := fun e => hn e.symm
    simp [Rebind, RebindImpl, Collect, this]

/-- C18, witness: `Rebind<Successor, Sink, PassThrough<Collect>>`. -/
theorem rebind_without_pattern_is_identity_witness :
    occurs Successor (PassThrough Collect) = false ∧
    Rebind Successor Sink (PassThrough Collect) = some (PassThrough Collect) :=
  ⟨by decide,
    (rebind_without_pattern_is_identity Successor Sink (PassThrough Collect) (by decide)).1⟩

theorem rebind_Route (R : Ty) (V : Discr) (H : Ty) :
    Rebind Successor R (Route V H) = (Rebind Successor R H).map (Route V) := by
  obtain ⟨H', hH'⟩ := rebind_successor_total R H
  have hH'' : RebindImpl Successor R H = some H' := hH'
  simp only [Rebind, Route, RebindImpl, RebindArgs, Successor] at hH'' ⊢
  simp [hH'', Route]

theorem memberTags_routes (rs : List (Discr × Ty)) :
    memberTags (rs.map (fun r => Route r.1 r.2)) = some (rs.map (fun r => Tag r.1)) := by
  induction rs with
  | nil => simp [memberTags]
  | cons r rs ih => simp [memberTags, memberTag_Route, ih]

/-- The routes of a router rewritten one by one: the tags stay, the handlers
are rewritten. -/
theorem rebindArgs_routes (R : Ty) :
    ∀ rs : List (Discr × Ty), ∃ rs' : List (Discr × Ty),
      List.Forall₂ (fun r r' => r'.1 = r.1 ∧ Rebind Successor R r.2 = some r'.2) rs rs' ∧
      RebindArgs Successor R (rs.map (fun r => Route r.1 r.2))
        = some (rs'.map (fun r => Route r.1 r.2)) ∧
      rs'.map Prod.fst = rs.map Prod.fst := by
  intro rs
  induction rs with
  | nil => exact ⟨[], List.Forall₂.nil, by simp [RebindArgs], by simp⟩
  | cons r rs ih =>
    obtain ⟨rs', hf, hr, hz⟩ := ih
    obtain ⟨H', hH'⟩ := rebind_successor_total R r.2
    refine ⟨(r.1, H') :: rs', List.Forall₂.cons ⟨rfl, hH'⟩ hf, ?_, ?_⟩
    · have h1 : RebindImpl Successor R (Route r.1 r.2) = some (Route r.1 H') := by
        have := rebind_Route R r.1 r.2
        rw [hH'] at this
        exact this
      simp [RebindArgs, h1, hr]
    · simp [hz]

theorem rebind_Router (R : Ty) (rs : List (Discr × Ty)) :
    ∃ rs' : List (Discr × Ty),
      List.Forall₂ (fun r r' => r'.1 = r.1 ∧ Rebind Successor R r.2 = some r'.2) rs rs' ∧
      Rebind Successor R (Router (rs.map (fun r => Route r.1 r.2)))
        = some (Router (rs'.map (fun r => Route r.1 r.2))) ∧
      rs'.map Prod.fst = rs.map Prod.fst := by
  obtain ⟨rs', hf, hr, hz⟩ := rebindArgs_routes R rs
  refine ⟨rs', hf, ?_, hz⟩
  simp only [Rebind, Router, RebindImpl, Successor] at hr ⊢
  simp [hr]

theorem memberTags_eq_of_fst {rs rs' : List (Discr × Ty)}
    (h : rs'.map Prod.fst = rs.map Prod.fst) :
    memberTags (rs'.map (fun r => Route r.1 r.2))
      = memberTags (rs.map (fun r => Route r.1 r.2)) := by
  rw [memberTags_routes, memberTags_routes]
  have e : ∀ l : List (Discr × Ty), l.map (fun r => Tag r.1) = (l.map Prod.fst).map Tag := by
    intro l; simp
  rw [e rs', e rs, h]

theorem handleable_routes (IC : Ty) (rs : List (Discr × Ty)) :
    meta.Handleable IC (rs.map (fun r => Route r.1 r.2))
      = (rs.map Prod.fst).any (fun d => decide (Tag d = IC)) := by
  rw [meta.Handleable, isHandledImpl_eq_any]
  · induction rs with
    | nil => simp
    | cons r rs ih => simp [memberTag_Route, ih]
  · intro R hR
    obtain ⟨r, _, rfl⟩ := List.mem_map.mp hR
    simp [memberTag_Route]

/-- C13. `Rebind` keeps a leading value parameter and rewrites only the type
arguments after it: for every value `V`, handler `H` and replacement `R`,
`Rebind<Successor, R, Route<V, H>>` is `Route<V, Rebind<Successor, R, H>>`.
Hence the rewrite of a Router, and so its composition into a `Graph`, keeps
the tag of every route in place, the `Event` alternatives and the tags that
are `Handleable`, and replaces every handler by its rewrite. -/
theorem rebind_keeps_route_tags (R : Ty) (rs : List (Discr × Ty)) :
    (∀ (V : Discr) (H : Ty), ∃ H', Rebind Successor R H = some H' ∧
      Rebind Successor R (Route V H) = some (Route V H')) ∧
    (∃ rs' : List (Discr × Ty),
      Rebind Successor R (Router (rs.map (fun r => Route r.1 r.2)))
        = some (Router (rs'.map (fun r => Route r.1 r.2))) ∧
      List.Forall₂ (fun r r' => r'.1 = r.1 ∧ Rebind Successor R r.2 = some r'.2) rs rs') ∧
    (∀ (Γ : ClassTable) (t : Ty) (Tail : List Ty) (T : Ty),
      Graph.Subgraph Γ (Router (rs.map (fun r => Route r.1 r.2)) :: t :: Tail) = some T →
      ∃ rs' : List (Discr × Ty), T = Router (rs'.map (fun r => Route r.1 r.2)) ∧
        rs'.map Prod.fst = rs.map Prod.fst ∧
        memberTags (rs'.map (fun r => Route r.1 r.2))
          = memberTags (rs.map (fun r => Route r.1 r.2)) ∧
        Router.Event (rs'.map (fun r => Route r.1 r.2))
          = Router.Event (rs.map (fun r => Route r.1 r.2)) ∧
        ∀ IC : Ty, meta.Handleable IC (rs'.map (fun r => Route r.1 r.2))
          = meta.Handleable IC (rs.map (fun r => Route r.1 r.2))) ∧
    Graph.Subgraph RouterExample.table RouterExample.EventHandler
      = some (Router RouterExample.handlerRoutes) ∧
    memberTags RouterExample.handlerRoutes = memberTags RouterExample.routes := by
  refine ⟨?_, ?_, ?_, by decide, by decide⟩
  · intro V H
    obtain ⟨H', hH'⟩ := rebind_successor_total R H
    exact ⟨H', hH', by rw [rebind_Route, hH']; rfl⟩
  · obtain ⟨rs', hf, hr, _⟩ := rebind_Router R rs
    exact ⟨rs', hr, hf⟩
  · intro Γ t Tail T h
    have hg := subgraph_eq_graphImpl h
    rw [graphImpl_cons Γ _ (by simp)] at hg
    split at hg
    · cases hc : detail.GraphImpl Γ (t :: Tail) with
      | none => rw [hc] at hg; cases hg
      | some c =>
        rw [hc] at hg
        simp only [Option.some_bind] at hg
        obtain ⟨rs', _, hr, hz⟩ := rebind_Router c rs
        rw [hr] at hg
        simp only [Option.some.injEq] at hg
        refine ⟨rs', hg.symm, hz, memberTags_eq_of_fst hz, ?_, ?_⟩
        · simp [Router.Event, memberTags_eq_of_fst hz]
        · intro IC
          rw [handleable_routes, handleable_routes, hz]
    · cases hg

/-! ### `Nodes.hpp`: classification of stage types -/

theorem stageShapedArgs_eq_true {Γ : ClassTable} {as : List Ty} :
    stageShapedArgs Γ as = true ↔ ∀ a ∈ as, stageShaped Γ a = true := by
  induction as with
  | nil => simp [stageShapedArgs]
  | cons a as ih => simp [stageShapedArgs, ih]

theorem occursArgs_eq_any (P : Ty) (as : List Ty) :
    occursArgs P as = as.any (occurs P) := by
  induction as with
  | nil => simp [occursArgs]
  | cons a as ih => simp [occursArgs, ih]

theorem anyBase_of_derivesAll (Γ : ClassTable) (sel : Nat → Bool) :
    ∀ (as : List Ty) (k : Nat), derivesAll sel k as = true →
      anyBase Γ sel k as = as.any (isBaseOfSuccessor Γ) := by
  intro as
  induction as with
  | nil => intro k _; simp [anyBase]
  | cons a as ih =>
    intro k h
    simp only [derivesAll, Bool.and_eq_true] at h
    simp [anyBase, h.1, ih (k + 1) h.2]

theorem any_congr_mem {α : Type} {p q : α → Bool} :
    ∀ (l : List α), (∀ a ∈ l, p a = q a) → l.any p = l.any q := by
  intro l
  induction l with
  | nil => intro _; rfl
  | cons a as ih =>
    intro h
    simp only [List.any_cons]
    rw [h a (List.mem_cons_self _ _), ih (fun b hb => h b (List.mem_cons_of_mem _ hb))]

/-- For a stage type in the library's form, `Successor` is a base exactly when
it occurs in the generic argument tree. -/
theorem isBaseOfSuccessor_eq_occurs (Γ : ClassTable) :
    ∀ T, stageShaped Γ T = true → isBaseOfSuccessor Γ T = occurs Successor T := by
  intro T
  induction T using Ty.induct with
  | hleaf n =>
    intro h
    simp only [stageShaped, Bool.and_eq_true, Bool.or_eq_true, decide_eq_true_eq,
      Bool.not_eq_true'] at h
    simp only [isBaseOfSuccessor, occurs]
    rcases h.2 with e | e
    · have hn : n = "Successor" := by
        simpa [Successor] using e
      subst hn
      simp [classInfo, coreInfo, Successor]
    · rw [e]
      by_cases hn : Ty.leaf n = Successor
      · have hn' : n = "Successor" := by simpa [Successor] using hn
        subst hn'
        simp [classInfo, coreInfo] at e
      · simp [hn]
  | happ g as ih =>
    intro h
    simp only [stageShaped, Bool.and_eq_true, Bool.not_eq_true'] at h
    obtain ⟨⟨⟨_, hfix⟩, hall⟩, hargs⟩ := h
    simp only [isBaseOfSuccessor, occurs, hfix, Bool.false_or,
      anyBase_of_derivesAll Γ _ as 0 hall, occursArgs_eq_any]
    have : decide (Ty.app g as = Successor) = false := by simp [Successor]
    rw [this, Bool.false_or]
    exact any_congr_mem as (fun a ha => ih a ha (stageShapedArgs_eq_true.mp hargs a ha))
  | hvapp g v as ih =>
    intro h
    simp only [stageShaped, Bool.and_eq_true, Bool.not_eq_true'] at h
    obtain ⟨⟨⟨_, hfix⟩, hall⟩, hargs⟩ := h
    simp only [isBaseOfSuccessor, occurs, hfix, Bool.false_or,
      anyBase_of_derivesAll Γ _ as 0 hall, occursArgs_eq_any]
    have : decide (Ty.vapp g v as = Successor) = false := by simp [Successor]
    rw [this, Bool.false_or]
    exact any_congr_mem as (fun a ha => ih a ha (stageShapedArgs_eq_true.mp hargs a ha))
  | hother g vs as _ =>
    intro h
    simp [stageShaped] at h

theorem isClass_of_stageShaped {Γ : ClassTable} {T : Ty} (h : stageShaped Γ T = true) :
    isClass Γ T = true := by
  cases T with
  | leaf n =>
    simp only [stageShaped, Bool.and_eq_true] at h
    exact h.1
  | app g as =>
    simp only [stageShaped, Bool.and_eq_true] at h
    exact h.1.1.1
  | vapp g v as =>
    simp only [stageShaped, Bool.and_eq_true] at h
    exact h.1.1.1
  | other g vs as => simp [stageShaped] at h

/-- C14, counterexample. The stage `Owns<>`, generic over its successor and
holding it as a member, has the unresolved placeholder for its successor and
classifies as Terminal, not as Internal: it does not derive from `Successor`. -/
theorem owning_stage_is_terminal :
    occurs Successor (stage "Owns") = true ∧
    meta.Internal Odd.owning (stage "Owns") = false ∧
    meta.Terminal Odd.owning (stage "Owns") = true := by
  decide

/-- C14, amended. Every class type classifies as exactly one of Internal and
Terminal, and the classification is decided by derivation from `Successor`
alone. For a stage type in the form the library gives its stages (a class
template deriving from each of its successor arguments), that is the presence
of the placeholder: the stage is Internal exactly when `Successor` is present
in it and Terminal exactly when it is not; `G<Successor>` is Internal and
`G<Then>` classifies as `Then` does. `PassThrough<>` and `Break<>` are
Internal, `Sink` and `Collect` are Terminal, whatever the application
declares. -/
theorem classification_by_placeholder (Γ : ClassTable) (T : Ty) :
    (isClass Γ T = true →
      (meta.Internal Γ T = true ∧ meta.Terminal Γ T = false) ∨
      (meta.Internal Γ T = false ∧ meta.Terminal Γ T = true)) ∧
    (meta.Internal Γ T = true ↔ isClass Γ T = true ∧ isBaseOfSuccessor Γ T = true) ∧
    (meta.Terminal Γ T = true ↔ isClass Γ T = true ∧ isBaseOfSuccessor Γ T = false) ∧
    (stageShaped Γ T = true →
      meta.Internal Γ T = occurs Successor T ∧
      meta.Terminal Γ T = !occurs Successor T) ∧
    (∀ g : String, stageShaped Γ (stage g) = true →
      meta.Internal Γ (stage g) = true ∧
      (stageShaped Γ T = true → meta.Internal Γ (.app g [T]) = meta.Internal Γ T)) ∧
    meta.Internal Γ (PassThrough Successor) = true ∧
    meta.Internal Γ (Break Successor) = true ∧
    meta.Terminal Γ Sink = true ∧ meta.Terminal Γ Collect = true := by
  refine ⟨?_, by simp [meta.Internal], by simp [meta.Terminal], ?_, ?_, ?_, ?_, ?_, ?_⟩
  rotate_left 3
  · simp [meta.Internal, isClass, isBaseOfSuccessor, anyBase, classInfo, coreInfo,
      PassThrough, Successor, Ty.head]
  · simp [meta.Internal, isClass, isBaseOfSuccessor, anyBase, classInfo, coreInfo,
      Break, Successor, Ty.head]
  · simp [meta.Terminal, isClass, isBaseOfSuccessor, classInfo, coreInfo, Sink, Ty.head]
  · simp [meta.Terminal, isClass, isBaseOfSuccessor, classInfo, coreInfo, Collect, Ty.head]
  · intro hc
    simp only [meta.Internal, meta.Terminal, hc, Bool.true_and]
    cases isBaseOfSuccessor Γ T <;> simp
  · intro hs
    simp [meta.Internal, meta.Terminal, isClass_of_stageShaped hs,
      isBaseOfSuccessor_eq_occurs Γ T hs]
  · intro g hg
    have hI : meta.Internal Γ (stage g) = true := by
      simp only [meta.Internal, isClass_of_stageShaped hg,
        isBaseOfSuccessor_eq_occurs Γ _ hg, Bool.true_and]
      simp [stage, occurs, occursArgs, Successor]
    refine ⟨hI, ?_⟩
    intro hT
    have hgT : stageShaped Γ (.app g [T]) = true := by
      simp only [stage, stageShaped, stageShapedArgs, derivesAll, Bool.and_true,
        Bool.and_eq_true] at hg ⊢
      exact ⟨hg.1, hT⟩
    simp only [meta.Internal, isClass_of_stageShaped hgT, isClass_of_stageShaped hT,
      isBaseOfSuccessor_eq_occurs Γ _ hgT, isBaseOfSuccessor_eq_occurs Γ _ hT, Bool.true_and]
    simp [occurs, occursArgs, Successor]

/-- C14, witness of the stage form: the router `EventRouter` of the example
holds the placeholder and is Internal, and `HandleA<Collect>` is Terminal. -/
theorem classification_by_placeholder_witness :
    stageShaped RouterExample.table RouterExample.EventRouter = true ∧
    meta.Internal RouterExample.table RouterExample.EventRouter
      = occurs Successor RouterExample.EventRouter ∧
    occurs Successor RouterExample.EventRouter = true ∧
    stageShaped RouterExample.table (.app "HandleA" [Collect]) = true ∧
    meta.Terminal RouterExample.table (.app "HandleA" [Collect]) = true :=
  ⟨by decide,
    ((classification_by_placeholder RouterExample.table RouterExample.EventRouter).2.2.2.1
      (by decide)).1,
    by decide, by decide, by decide⟩

/-! ### `Graph.hpp`: the composed type -/

theorem occurs_self (T : Ty) : occurs T T = true := by
  cases T <;> simp [occurs]

theorem occurs_of_mem_args {P : Ty} {as : List Ty} {a : Ty} (ha : a ∈ as)
    (h : occurs P a = true) : occursArgs P as = true := by
  rw [occursArgs_eq_any, List.any_eq_true]
  exact ⟨a, ha, h⟩

theorem occurs_args {P T : Ty} (h : occursArgs P T.args = true) : occurs P T = true := by
  cases T with
  | leaf n => simp [Ty.args, occursArgs] at h
  | app g as => simp only [Ty.args] at h; simp [occurs, h]
  | vapp g v as => simp only [Ty.args] at h; simp [occurs, h]
  | other g vs as => simp only [Ty.args] at h; simp [occurs, h]

theorem occurs_cases {P T : Ty} (h : occurs P T = true) :
    T = P ∨ occursArgs P T.args = true := by
  cases T with
  | leaf n => left; simpa [occurs] using h
  | app g as => simpa [occurs, Ty.args] using h
  | vapp g v as => simpa [occurs, Ty.args] using h
  | other g vs as => simpa [occurs, Ty.args] using h

/-- A node of a node of a type is a node of that type. -/
theorem occurs_trans (A B : Ty) (hAB : occurs A B = true) :
    ∀ C, occurs B C = true → occurs A C = true := by
  intro C
  induction C using Ty.induct with
  | hleaf n =>
    intro h
    rcases occurs_cases h with e | e
    · rw [e]; exact hAB
    · simp [Ty.args, occursArgs] at e
  | happ g as ih =>
    intro h
    rcases occurs_cases h with e | e
    · rw [e]; exact hAB
    · simp only [Ty.args, occursArgs_eq_any, List.any_eq_true] at e
      obtain ⟨a, ha, hBa⟩ := e
      exact occurs_args (occurs_of_mem_args (by simpa [Ty.args] using ha) (ih a ha hBa))
  | hvapp g v as ih =>
    intro h
    rcases occurs_cases h with e | e
    · rw [e]; exact hAB
    · simp only [Ty.args, occursArgs_eq_any, List.any_eq_true] at e
      obtain ⟨a, ha, hBa⟩ := e
      exact occurs_args (occurs_of_mem_args (by simpa [Ty.args] using ha) (ih a ha hBa))
  | hother g vs as ih =>
    intro h
    rcases occurs_cases h with e | e
    · rw [e]; exact hAB
    · simp only [Ty.args, occursArgs_eq_any, List.any_eq_true] at e
      obtain ⟨a, ha, hBa⟩ := e
      exact occurs_args (occurs_of_mem_args (by simpa [Ty.args] using ha) (ih a ha hBa))

theorem forall₂_mem_left {α β : Type} {r : α → β → Prop} {as : List α} {bs : List β}
    (h : List.Forall₂ r as bs) : ∀ a ∈ as, ∃ b ∈ bs, r a b := by
  induction h with
  | nil => intro a ha; cases ha
  | cons hab _ ih =>
    intro a ha
    rcases List.mem_cons.mp ha with rfl | ha'
    · exact ⟨_, List.mem_cons_self _ _, hab⟩
    · obtain ⟨b, hb, hr⟩ := ih a ha'
      exact ⟨b, List.mem_cons_of_mem _ hb, hr⟩

theorem derivesAll_length (sel : Nat → Bool) :
    ∀ (as bs : List Ty) (k : Nat), as.length = bs.length →
      derivesAll sel k as = derivesAll sel k bs := by
  intro as
  induction as with
  | nil => intro bs k h; cases bs <;> simp_all [derivesAll]
  | cons a as ih =>
    intro bs k h
    cases bs with
    | nil => simp at h
    | cons b bs =>
      simp only [derivesAll]
      rw [ih bs (k + 1) (by simpa using h)]

/-- The rewrite of a stage type by a stage type is a stage type. -/
theorem stageShaped_rebind (Γ : ClassTable) (R : Ty) (hR : stageShaped Γ R = true) :
    ∀ T T', stageShaped Γ T = true → RebindImpl Successor R T = some T' →
      stageShaped Γ T' = true := by
  intro T
  induction T using Ty.induct with
  | hleaf n =>
    intro T' hT h
    by_cases hp : Ty.leaf n = Successor
    · simp [RebindImpl, hp] at h; rw [← h]; exact hR
    · simp [RebindImpl, hp] at h; rw [← h]; exact hT
  | happ g as ih =>
    intro T' hT h
    obtain ⟨_, as', rfl, hf⟩ := rebindImpl_app h
    simp only [stageShaped, Bool.and_eq_true] at hT ⊢
    refine ⟨⟨hT.1.1, ?_⟩, ?_⟩
    · rw [← derivesAll_length _ as as' 0 hf.length_eq]; exact hT.1.2
    · rw [stageShapedArgs_eq_true]
      intro a' ha'
      obtain ⟨a, ha, hr⟩ := forall₂_mem_right hf a' ha'
      exact ih a ha a' (stageShapedArgs_eq_true.mp hT.2 a ha) hr
  | hvapp g v as ih =>
    intro T' hT h
    obtain ⟨_, as', rfl, hf⟩ := rebindImpl_vapp h
    simp only [stageShaped, Bool.and_eq_true] at hT ⊢
    refine ⟨⟨hT.1.1, ?_⟩, ?_⟩
    · rw [← derivesAll_length _ as as' 0 hf.length_eq]; exact hT.1.2
    · rw [stageShapedArgs_eq_true]
      intro a' ha'
      obtain ⟨a, ha, hr⟩ := forall₂_mem_right hf a' ha'
      exact ih a ha a' (stageShapedArgs_eq_true.mp hT.2 a ha) hr
  | hother g vs as _ =>
    intro T' hT _
    simp [stageShaped] at hT

theorem hidden_of_stageShaped (Γ : ClassTable) (P : Ty) :
    ∀ T, stageShaped Γ T = true → hidden P T = false := by
  intro T
  induction T using Ty.induct with
  | hleaf n => intro _; rfl
  | happ g as ih =>
    intro hT
    simp only [stageShaped, Bool.and_eq_true] at hT
    simp only [hidden]
    exact hiddenArgs_eq_false.mpr
      (fun a ha => ih a ha (stageShapedArgs_eq_true.mp hT.2 a ha))
  | hvapp g v as ih =>
    intro hT
    simp only [stageShaped, Bool.and_eq_true] at hT
    simp only [hidden]
    exact hiddenArgs_eq_false.mpr
      (fun a ha => ih a ha (stageShapedArgs_eq_true.mp hT.2 a ha))
  | hother g vs as _ =>
    intro hT
    simp [stageShaped] at hT

/-- Where the pattern occurs within reach of the rewrite, the replacement is a
node of the rewritten type. -/
theorem occurs_replacement (P R : Ty) :
    ∀ T T', RebindImpl P R T = some T' → occurs P T = true → hidden P T = false →
      occurs R T' = true := by
  intro T
  induction T using Ty.induct with
  | hleaf n =>
    intro T' h ho _
    simp only [occurs, decide_eq_true_eq] at ho
    simp [RebindImpl, ho] at h
    rw [← h]; exact occurs_self R
  | happ g as ih =>
    intro T' h ho hh
    obtain ⟨hne, as', rfl, hf⟩ := rebindImpl_app h
    simp only [occurs, hne, decide_False, Bool.false_or, occursArgs_eq_any,
      List.any_eq_true] at ho
    obtain ⟨a, ha, hoa⟩ := ho
    simp only [hidden] at hh
    obtain ⟨a', ha', hr⟩ := forall₂_mem_left hf a ha
    exact occurs_args (T := .app g as')
      (occurs_of_mem_args (by simpa [Ty.args] using ha')
        (ih a ha a' hr hoa (hiddenArgs_eq_false.mp hh a ha)))
  | hvapp g v as ih =>
    intro T' h ho hh
    obtain ⟨hne, as', rfl, hf⟩ := rebindImpl_vapp h
    simp only [occurs, hne, decide_False, Bool.false_or, occursArgs_eq_any,
      List.any_eq_true] at ho
    obtain ⟨a, ha, hoa⟩ := ho
    simp only [hidden] at hh
    obtain ⟨a', ha', hr⟩ := forall₂_mem_left hf a ha
    exact occurs_args (T := .vapp g v as')
      (occurs_of_mem_args (by simpa [Ty.args] using ha')
        (ih a ha a' hr hoa (hiddenArgs_eq_false.mp hh a ha)))
  | hother g vs as _ =>
    intro T' h ho hh
    by_cases hp : Ty.other g vs as = P
    · simp [RebindImpl, hp] at h
      rw [← h]; exact occurs_self R
    · simp only [occurs, hp, decide_False, Bool.false_or] at ho
      simp [hidden, hp, ho] at hh

theorem graphImpl_stageShaped (Γ : ClassTable) :
    ∀ (S : List Ty) (T : Ty), detail.GraphImpl Γ S = some T →
      (∀ s ∈ S, stageShaped Γ s = true) →
      stageShaped Γ T = true ∧ occurs Successor T = false ∧
        (∀ Sn, S.getLast? = some Sn → occurs Sn T = true) := by
  intro S
  induction S with
  | nil => intro T h; simp [detail.GraphImpl] at h
  | cons Head Tail ih =>
    intro T h hs
    cases Tail with
    | nil =>
      simp only [detail.GraphImpl] at h
      split at h
      · rename_i ht
        simp only [Option.some.injEq] at h
        subst h
        have hsh := hs Head (List.mem_cons_self _ _)
        have hterm : meta.Terminal Γ Head = !occurs Successor Head := by
          simp [meta.Terminal, isClass_of_stageShaped hsh,
            isBaseOfSuccessor_eq_occurs Γ Head hsh]
        refine ⟨hsh, ?_, ?_⟩
        · rw [hterm] at ht; simpa using ht
        · intro Sn hSn
          simp only [List.getLast?_singleton, Option.some.injEq] at hSn
          rw [← hSn]; exact occurs_self Head
      · cases h
    | cons t Tail =>
      rw [graphImpl_cons Γ Head (by simp)] at h
      split at h
      · rename_i hint
        cases hc : detail.GraphImpl Γ (t :: Tail) with
        | none => rw [hc] at h; cases h
        | some c =>
          rw [hc] at h
          simp only [Option.some_bind] at h
          obtain ⟨hcs, hco, hcl⟩ := ih c hc (fun s hs' => hs s (List.mem_cons_of_mem _ hs'))
          have hsh := hs Head (List.mem_cons_self _ _)
          have hhid := hidden_of_stageShaped Γ Successor Head hsh
          have hocc : occurs Successor Head = true := by
            have := isBaseOfSuccessor_eq_occurs Γ Head hsh
            simp only [meta.Internal, Bool.and_eq_true] at hint
            rw [← this]; exact hint.2
          refine ⟨stageShaped_rebind Γ c hcs Head T hsh h,
            rebindImpl_not_occurs Successor c (by decide) hco Head T h hhid, ?_⟩
          intro Sn hSn
          rw [List.getLast?_cons_cons] at hSn
          exact occurs_trans Sn c (hcl Sn hSn) T
            (occurs_replacement Successor c Head T h hocc hhid)
      · cases h

/-- C19, counterexample. The list `[Stop<Successor, 3>, Collect]` is accepted:
`Stop<Successor, 3>` derives from `Successor` and `Collect` is Terminal. Only
the primary template of `RebindImpl` matches `Stop<Successor, 3>`, so the
composed type is `Stop<Successor, 3>` itself: it still holds the placeholder
and classifies as Internal, not as Terminal. -/
theorem composed_type_keeps_hidden_placeholder :
    Graph.Subgraph Odd.table [Odd.Stop3, Collect] = some Odd.Stop3 ∧
    occurs Successor Odd.Stop3 = true ∧
    meta.Internal Odd.table Odd.Stop3 = true ∧
    meta.Terminal Odd.table Odd.Stop3 = false := by
  decide

/-! ### Composition is a congruence for `process` -/

theorem routesOnlyArgs_eq_true {as : List Ty} :
    routesOnlyArgs as = true ↔ ∀ a ∈ as, routesOnly a = true := by
  induction as with
  | nil => simp [routesOnlyArgs]
  | cons a as ih => simp [routesOnlyArgs, ih]

/-- The fold of `GraphImpl` over a list split in two: the tail is composed
first, the stages before it are composed onto it. -/
theorem graphImpl_append (Γ : ClassTable) {post : List Ty} (hpost : post ≠ []) :
    ∀ pre : List Ty, detail.GraphImpl Γ (pre ++ post) =
      if pre.all (meta.Internal Γ) then (detail.GraphImpl Γ post).bind (composeOnto pre)
      else none := by
  intro pre
  induction pre with
  | nil =>
    simp only [List.nil_append, List.all_nil, if_true]
    cases detail.GraphImpl Γ post <;> simp [composeOnto]
  | cons Head pre ih =>
    rw [List.cons_append, graphImpl_cons Γ Head (by simp [hpost]), ih]
    by_cases hH : meta.Internal Γ Head = true
    · by_cases hp : pre.all (meta.Internal Γ) = true
      · simp only [hH, hp, List.all_cons, Bool.and_self, if_true]
        cases detail.GraphImpl Γ post <;> simp [composeOnto]
      · simp [hH, hp]
    · simp [hH]

/-- The rewrite keeps the member `Tag` of a route. -/
theorem memberTag_rebind {R a a' t : Ty} (ht : memberTag a = some t)
    (h : RebindImpl Successor R a = some a') : memberTag a' = some t := by
  cases a with
  | leaf n => simp [memberTag] at ht
  | app g as => simp [memberTag] at ht
  | other g vs as => simp [memberTag] at ht
  | vapp g v as =>
    obtain ⟨_, as', rfl, hf⟩ := rebindImpl_vapp h
    by_cases hg : g = "Route"
    · subst hg
      cases as with
      | nil => simp [memberTag] at ht
      | cons x xs =>
        cases xs with
        | cons y ys => simp [memberTag] at ht
        | nil =>
          cases hf with
          | cons _ hnil =>
            cases hnil
            simpa [memberTag] using ht
    · exfalso
      unfold memberTag at ht
      split at ht
      · rename_i heq
        simp only [Ty.vapp.injEq] at heq
        exact hg heq.1
      · cases ht

theorem viable_congr {α : Type} (IC : Ty) :
    ∀ (as1 as2 : List Ty) (Nodes : List α), as1.map memberTag = as2.map memberTag →
      Router.viable IC as1 Nodes = Router.viable IC as2 Nodes := by
  intro as1
  induction as1 with
  | nil =>
    intro as2 Nodes h
    cases as2 with
    | nil => rfl
    | cons b bs => simp at h
  | cons a as ih =>
    intro as2 Nodes h
    cases as2 with
    | nil => simp at h
    | cons b bs =>
      simp only [List.map_cons, List.cons.injEq] at h
      cases Nodes with
      | nil => simp [Router.viable]
      | cons p ps =>
        simp only [Router.viable, h.1, ih bs ps h.2]

/-- The member `Router::process` and its return type depend on the routes
through their tags only. -/
theorem router_process_congr (as1 as2 : List Ty) (Sigs : List Sig) (Nodes : List Proc)
    (h : as1.map memberTag = as2.map memberTag)
    (h1 : ∀ a ∈ as1, (memberTag a).isSome = true) :
    Router.process as1 Sigs Nodes = Router.process as2 Sigs Nodes ∧
    Router.returnType as1 Sigs = Router.returnType as2 Sigs := by
  have h2 : ∀ a ∈ as2, (memberTag a).isSome = true := by
    intro a ha
    have : memberTag a ∈ as2.map memberTag := List.mem_map.mpr ⟨a, ha, rfl⟩
    rw [← h] at this
    obtain ⟨b, hb, hab⟩ := List.mem_map.mp this
    rw [← hab]; exact h1 b hb
  have hH : ∀ IC, meta.Handleable IC as1 = meta.Handleable IC as2 := by
    intro IC
    rw [meta.Handleable, meta.Handleable, isHandledImpl_eq_any IC as1 h1,
      isHandledImpl_eq_any IC as2 h2]
    have e : ∀ l : List Ty, l.any (fun R => decide (memberTag R = some IC))
        = (l.map memberTag).any (fun t => decide (t = some IC)) := by
      intro l; induction l with
      | nil => rfl
      | cons x xs ihx => simp [ihx]
    rw [e as1, e as2, h]
  have hT : ∀ IC, Router.processTag as1 Nodes IC = Router.processTag as2 Nodes IC := by
    intro IC
    funext σ args
    simp only [Router.processTag, Router.call, hH IC, viable_congr IC as1 as2 Nodes h]
  have hS : ∀ IC, Router.typeTag as1 Sigs IC = Router.typeTag as2 Sigs IC := by
    intro IC
    funext args
    simp only [Router.typeTag, Router.call, hH IC, viable_congr IC as1 as2 Sigs h]
  have hV : ∀ alts, Router.typeVisit as1 Sigs alts = Router.typeVisit as2 Sigs alts := by
    intro alts
    funext args
    simp only [Router.typeVisit, hS]
  constructor
  · funext σ args
    simp only [Router.process, Router.processVariant, hT, hV]
  · funext args
    simp only [Router.returnType, hS, hV]

theorem map_denote_congr (env : Env) {R R' : Ty} {as as1 as2 : List Ty}
    (ih : ∀ a ∈ as, ∀ T1 T2, routesOnly a = true → RebindImpl Successor R a = some T1 →
      RebindImpl Successor R' a = some T2 →
      denote env T1 = denote env T2 ∧ signature env T1 = signature env T2)
    (hro : ∀ a ∈ as, routesOnly a = true)
    (hf1 : List.Forall₂ (fun a a' => RebindImpl Successor R a = some a') as as1)
    (hf2 : List.Forall₂ (fun a a' => RebindImpl Successor R' a = some a') as as2) :
    denoteArgs env as1 = denoteArgs env as2 ∧ signatures env as1 = signatures env as2 := by
  induction hf1 generalizing as2 with
  | nil => cases hf2; exact ⟨rfl, rfl⟩
  | cons hab _ ih1 =>
    cases hf2 with
    | cons hab2 hrest2 =>
      simp only [denoteArgs, signatures]
      obtain ⟨e1, e2⟩ :=
        ih _ (List.mem_cons_self _ _) _ _ (hro _ (List.mem_cons_self _ _)) hab hab2
      obtain ⟨r1, r2⟩ := ih1 (fun a ha => ih a (List.mem_cons_of_mem _ ha))
        (fun a ha => hro a (List.mem_cons_of_mem _ ha)) hrest2
      rw [e1, e2, r1, r2]
      exact ⟨rfl, rfl⟩

theorem map_memberTag_congr {R R' : Ty} {as as1 as2 : List Ty}
    (hsome : ∀ a ∈ as, (memberTag a).isSome = true)
    (hf1 : List.Forall₂ (fun a a' => RebindImpl Successor R a = some a') as as1)
    (hf2 : List.Forall₂ (fun a a' => RebindImpl Successor R' a = some a') as as2) :
    as1.map memberTag = as2.map memberTag ∧ ∀ a ∈ as1, (memberTag a).isSome = true := by
  induction hf1 generalizing as2 with
  | nil => cases hf2; exact ⟨rfl, by simp⟩
  | cons hab _ ih1 =>
    cases hf2 with
    | cons hab2 hrest2 =>
      obtain ⟨t, ht⟩ := Option.isSome_iff_exists.mp (hsome _ (List.mem_cons_self _ _))
      obtain ⟨e, hs⟩ := ih1 (fun a ha => hsome a (List.mem_cons_of_mem _ ha)) hrest2
      refine ⟨by simp [memberTag_rebind ht hab, memberTag_rebind ht hab2, e], ?_⟩
      intro a ha
      rcases List.mem_cons.mp ha with rfl | ha'
      · simp [memberTag_rebind ht hab]
      · exact hs a ha'

/-- Replacements with the same `process`, of the same return type, give
rewrites with the same `process`, of the same return type: a stage reaches its
successor through `process` alone. -/
theorem denote_rebind_congr (env : Env) (R R' : Ty) (hR : denote env R = denote env R')
    (hS : signature env R = signature env R') :
    ∀ T T1 T2, routesOnly T = true → RebindImpl Successor R T = some T1 →
      RebindImpl Successor R' T = some T2 →
      denote env T1 = denote env T2 ∧ signature env T1 = signature env T2 := by
  intro T
  induction T using Ty.induct with
  | hleaf n =>
    intro T1 T2 _ h1 h2
    by_cases hp : Ty.leaf n = Successor
    · simp [RebindImpl, hp] at h1 h2
      rw [← h1, ← h2]; exact ⟨hR, hS⟩
    · simp [RebindImpl, hp] at h1 h2
      rw [← h1, ← h2]
      exact ⟨rfl, rfl⟩
  | happ g as ih =>
    intro T1 T2 hro h1 h2
    obtain ⟨_, as1, rfl, hf1⟩ := rebindImpl_app h1
    obtain ⟨_, as2, rfl, hf2⟩ := rebindImpl_app h2
    simp only [routesOnly, Bool.and_eq_true] at hro
    obtain ⟨hargs, hsigs⟩ := map_denote_congr env ih (routesOnlyArgs_eq_true.mp hro.2) hf1 hf2
    by_cases hg : g = "Router"
    · subst hg
      have hsome : ∀ a ∈ as, (memberTag a).isSome = true := by
        have := hro.1
        simp only [beq_self_eq_true, Bool.not_true, Bool.false_or, List.all_eq_true] at this
        exact this
      obtain ⟨e, hs1⟩ := map_memberTag_congr hsome hf1 hf2
      obtain ⟨c1, c2⟩ := router_process_congr as1 as2 (signatures env as2)
        (denoteArgs env as2) e hs1
      simp only [denote, signature, hargs, hsigs]
      simp only [show ("Router" = "PassThrough") = False by decide,
        show ("Router" = "Break") = False by decide, if_false, if_true]
      exact ⟨c1, c2⟩
    · refine ⟨?_, ?_⟩
      · simp only [denote, hargs, hg, if_false]
      · simp only [signature, hsigs, hg, if_false]
  | hvapp g v as ih =>
    intro T1 T2 hro h1 h2
    obtain ⟨_, as1, rfl, hf1⟩ := rebindImpl_vapp h1
    obtain ⟨_, as2, rfl, hf2⟩ := rebindImpl_vapp h2
    simp only [routesOnly] at hro
    obtain ⟨hargs, hsigs⟩ := map_denote_congr env ih (routesOnlyArgs_eq_true.mp hro) hf1 hf2
    refine ⟨?_, ?_⟩
    · simp only [denote, hargs]
    · simp only [signature, hsigs]
  | hother g vs as _ =>
    intro T1 T2 _ h1 h2
    simp [RebindImpl, Successor] at h1 h2
    rw [← h1, ← h2]
    exact ⟨rfl, rfl⟩

/-- Tails with the same `process`, of the same return type, give compositions
with the same `process`, of the same return type. -/
theorem composeOnto_congr (env : Env) (c1 c2 : Ty) (hc : denote env c1 = denote env c2)
    (hs : signature env c1 = signature env c2) :
    ∀ (pre : List Ty) (T1 T2 : Ty), (∀ s ∈ pre, routesOnly s = true) →
      composeOnto pre c1 = some T1 → composeOnto pre c2 = some T2 →
      denote env T1 = denote env T2 ∧ signature env T1 = signature env T2 := by
  intro pre
  induction pre with
  | nil =>
    intro T1 T2 _ h1 h2
    simp only [composeOnto, Option.some.injEq] at h1 h2
    rw [← h1, ← h2]; exact ⟨hc, hs⟩
  | cons Head pre ih =>
    intro T1 T2 hro h1 h2
    simp only [composeOnto] at h1 h2
    cases ha : composeOnto pre c1 with
    | none => rw [ha] at h1; cases h1
    | some a =>
      cases hb : composeOnto pre c2 with
      | none => rw [hb] at h2; cases h2
      | some b =>
        rw [ha] at h1; rw [hb] at h2
        simp only [Option.some_bind] at h1 h2
        obtain ⟨e1, e2⟩ := ih a b (fun s hs => hro s (List.mem_cons_of_mem _ hs)) ha hb
        exact denote_rebind_congr env a b e1 e2
          Head T1 T2 (hro Head (List.mem_cons_self _ _)) h1 h2

theorem all_nodeLike_of_internal {Γ : ClassTable} {pre : List Ty}
    (h : pre.all (meta.Internal Γ) = true) : pre.all (meta.NodeLike Γ) = true := by
  rw [List.all_eq_true] at h ⊢
  intro x hx
  exact internal_or_terminal_nodeLike (Or.inl (h x hx))

/-- A stage list split in two is accepted exactly when the stages before the
split are Internal and the tail is accepted; its composed type is the stages
before the split composed onto the composed tail. -/
theorem subgraph_append (Γ : ClassTable) (pre : List Ty) {post : List Ty}
    (hpost : post ≠ []) (T : Ty) :
    Graph.Subgraph Γ (pre ++ post) = some T ↔
      pre.all (meta.Internal Γ) = true ∧
        ∃ c, Graph.Subgraph Γ post = some c ∧ composeOnto pre c = some T := by
  unfold Graph.Subgraph
  rw [List.all_append, graphImpl_append Γ hpost]
  constructor
  · intro h
    by_cases hall : (pre.all (meta.NodeLike Γ) && post.all (meta.NodeLike Γ)) = true
    · simp only [hall, if_true] at h
      by_cases hint : pre.all (meta.Internal Γ) = true
      · simp only [hint, if_true] at h
        cases hc : detail.GraphImpl Γ post with
        | none => rw [hc] at h; cases h
        | some c =>
          rw [hc] at h
          simp only [Bool.and_eq_true] at hall
          exact ⟨hint, c, by simp [hall.2], h⟩
      · simp [hint] at h
    · simp [hall] at h
  · rintro ⟨hint, c, hc, hT⟩
    by_cases hp : post.all (meta.NodeLike Γ) = true
    · simp only [hp, if_true] at hc
      simp [all_nodeLike_of_internal hint, hp, hint, hc, hT]
    · simp [hp] at hc

theorem signature_Break (env : Env) (c : Ty) :
    signature env (Break c) = fun _ => some .void := by
  simp only [Break, signature, signatures, Break.returnType]
  rfl

theorem denote_Break (env : Env) (c : Ty) :
    denote env (Break c) = fun σ _ => some (.void, σ) := by
  simp only [Break, denote, denoteArgs, show ("Break" = "PassThrough") = False by decide,
    if_false, if_true]
  rfl

theorem internal_Break (Γ : ClassTable) : meta.Internal Γ (Break Successor) = true := by
  simp [meta.Internal, isClass, isBaseOfSuccessor, anyBase, classInfo, coreInfo,
    Break, Successor, Ty.head]

/-- C12. For every accepted pipeline with `Break<>` at a position, no stage
after that position runs: `Break::process` returns nothing for every argument
list and every successor, without a call of the successor and without a change
of the caller's objects, so `process` of the pipeline is the same whatever
stages follow the `Break<>`. The stages `pre` stand before the `Break<>`;
`post` and `post'` are two continuations; a Router among the stages before
lists only routes. -/
theorem break_cuts_pipeline (env : Env) (Γ : ClassTable) (pre post post' : List Ty)
    (T T' : Ty) (hro : ∀ s ∈ pre, routesOnly s = true)
    (h : Graph.Subgraph Γ (pre ++ Break Successor :: post) = some T)
    (h' : Graph.Subgraph Γ (pre ++ Break Successor :: post') = some T') :
    (∀ (Then : Proc) σ args, Break.process Then σ args = some (.void, σ)) ∧
    (∀ σ args, Graph.process env Γ (pre ++ Break Successor :: post) σ args
      = Graph.process env Γ (pre ++ Break Successor :: post') σ args) ∧
    (∀ c σ args, Graph.Subgraph Γ (Break Successor :: post) = some c →
      Graph.process env Γ (Break Successor :: post) σ args = some (.void, σ)) := by
  obtain ⟨_, c, hc, hT⟩ := (subgraph_append Γ pre (by simp) T).mp h
  obtain ⟨_, c', hc', hT'⟩ := (subgraph_append Γ pre (by simp) T').mp h'
  have hshape : ∀ (q : List Ty) (d : Ty), Graph.Subgraph Γ (Break Successor :: q) = some d →
      denote env d = (fun σ _ => some (.void, σ)) ∧
        signature env d = (fun _ => some .void) := by
    intro q d hd
    have hq : q ≠ [] := by
      intro e
      subst e
      have hI := not_terminal_of_internal (internal_Break Γ)
      simp [Graph.Subgraph, detail.GraphImpl, hI] at hd
    obtain ⟨_, e, he, hE⟩ := (subgraph_append Γ [Break Successor] hq d).mp (by simpa using hd)
    have hb : Rebind Successor e (Break Successor) = some (Break e) := rebind_stage e "Break"
    simp only [composeOnto, Option.some_bind, hb, Option.some.injEq] at hE
    rw [← hE, denote_Break, signature_Break]
    exact ⟨rfl, rfl⟩
  refine ⟨fun _ _ _ => rfl, ?_, ?_⟩
  · intro σ args
    simp only [Graph.process, h, h']
    rw [(composeOnto_congr env c c'
      (by rw [(hshape post c hc).1, (hshape post' c' hc').1])
      (by rw [(hshape post c hc).2, (hshape post' c' hc').2]) pre T T' hro hT hT').1]
  · intro d σ args hd
    simp only [Graph.process, hd, (hshape post d hd).1]

/-- C12, witness: `Graph<Shifter<>, Break<>, Adder<>, Collect>` and
`Graph<Shifter<>, Break<>, Sink>` at `process(10, 2, 2)`: both return
nothing. -/
theorem break_cuts_pipeline_witness :
    Graph.process Arithmetic.env Arithmetic.table
        ([stage "Shifter"] ++ Break Successor :: [stage "Adder", Collect])
        (fun _ => .int 0) [.rval (.int 10), .rval (.int 2), .rval (.int 2)]
      = Graph.process Arithmetic.env Arithmetic.table
        ([stage "Shifter"] ++ Break Successor :: [Sink])
        (fun _ => .int 0) [.rval (.int 10), .rval (.int 2), .rval (.int 2)] ∧
    (Graph.process Arithmetic.env Arithmetic.table
        ([stage "Shifter"] ++ Break Successor :: [stage "Adder", Collect])
        (fun _ => .int 0) [.rval (.int 10), .rval (.int 2), .rval (.int 2)]).map Prod.fst
      = some .void :=
  ⟨(break_cuts_pipeline Arithmetic.env Arithmetic.table [stage "Shifter"]
    [stage "Adder", Collect] [Sink]
    (.app "Shifter" [Break (nest ["Adder"] Collect)]) (.app "Shifter" [Break Sink])
    (by decide) (by decide) (by decide)).2.1 _ _, by decide⟩

/-! ### `Graph.hpp`: a `Graph` as the terminal of another pipeline -/

end Goose
namespace Goose

/-- The rewritten type is the replacement, or has the class template (or
the name) of the target. -/
theorem rebindImpl_head {P R T T' : Ty} (h : RebindImpl P R T = some T') :
    T' = R ∨ T'.head = T.head := by
  cases T with
  | leaf n =>
    by_cases hp : Ty.leaf n = P
    · simp [RebindImpl, hp] at h; exact Or.inl h.symm
    · simp [RebindImpl, hp] at h; rw [← h]; exact Or.inr rfl
  | app g as =>
    obtain ⟨_, as', rfl, _⟩ := rebindImpl_app h
    exact Or.inr rfl
  | vapp g v as =>
    obtain ⟨_, as', rfl, _⟩ := rebindImpl_vapp h
    exact Or.inr rfl
  | other g vs as =>
    by_cases hp : Ty.other g vs as = P
    · simp [RebindImpl, hp] at h; exact Or.inl h.symm
    · simp [RebindImpl, hp] at h; rw [← h]; exact Or.inr rfl

/-- The composed type of an accepted stage list is a class. -/
theorem isClass_graphImpl (Γ : ClassTable) :
    ∀ (S : List Ty) (T : Ty), detail.GraphImpl Γ S = some T → isClass Γ T = true := by
  intro S
  induction S with
  | nil => intro T h; simp [detail.GraphImpl] at h
  | cons Head Tail ih =>
    intro T h
    cases Tail with
    | nil =>
      simp only [detail.GraphImpl] at h
      split at h
      · rename_i ht
        simp only [Option.some.injEq] at h
        rw [← h]
        simp only [meta.Terminal, Bool.and_eq_true] at ht
        exact ht.1
      · cases h
    | cons t Tail =>
      rw [graphImpl_cons Γ Head (by simp)] at h
      split at h
      · rename_i hi
        cases hc : detail.GraphImpl Γ (t :: Tail) with
        | none => rw [hc] at h; cases h
        | some c =>
          rw [hc] at h
          simp only [Option.some_bind] at h
          rcases rebindImpl_head h with rfl | hh
          · exact ih T hc
          · simp only [meta.Internal, Bool.and_eq_true] at hi
            simp only [isClass, hh]
            exact hi.1
      · cases h

end Goose
namespace Goose

theorem RouterExample.subgraph_EventHandler :
    Graph.Subgraph RouterExample.table RouterExample.EventHandler
      = some (Router RouterExample.handlerRoutes) := by decide

theorem RouterExample.call_A :
    Router.call (Tag RouterExample.Events.A) RouterExample.handlerRoutes
        (RouterExample.handlerRoutes.map (denote RouterExample.env))
      = some (RouterExample.HandleA.process Collect.process) := by rfl

theorem RouterExample.call_B :
    Router.call (Tag RouterExample.Events.B) RouterExample.handlerRoutes
        (RouterExample.handlerRoutes.map (denote RouterExample.env))
      = some (RouterExample.HandleB.process Collect.process) := by rfl

theorem RouterExample.call_C :
    Router.call (Tag RouterExample.Events.C) RouterExample.handlerRoutes
        (RouterExample.handlerRoutes.map (denote RouterExample.env))
      = some (RouterExample.HandleC.process Collect.process) := by rfl

/-- One call of `EventHandler::process` with a tag of the router and the
accumulator: the letter is appended and the record refers to the
accumulator. -/
theorem RouterExample.process_tag (σ : Store) (e : Arg) (l : Loc) (s : String)
    (EventV : Discr) (c : Char) (he : e.read σ = .tag EventV)
    (hc : RouterExample.letterOf EventV = some c) (hl : σ l = .str s) :
    Graph.process RouterExample.env RouterExample.table RouterExample.EventHandler σ
        [e, .lval l]
      = some (.record [.ref l], σ.set l (.str (s.push c))) := by
  simp only [Graph.process, RouterExample.subgraph_EventHandler, denote_Router]
  simp only [RouterExample.letterOf] at hc
  split_ifs at hc with h1 h2 h3
  · subst h1
    cases hc
    have hh : meta.Handleable (Tag RouterExample.Events.A) RouterExample.handlerRoutes = true := by
      decide
    simp only [Router.process, he, Val.type_tag, variant_Tag, Router.processTag, hh,
      RouterExample.call_A, Bool.false_eq_true, if_false, Bool.not_false, Bool.and_self, if_true]
    simp [RouterExample.HandleA.process, RouterExample.append, hl, Collect.process, Collect.slot]
  · subst h2
    cases hc
    have hh : meta.Handleable (Tag RouterExample.Events.B) RouterExample.handlerRoutes = true := by
      decide
    simp only [Router.process, he, Val.type_tag, variant_Tag, Router.processTag, hh,
      RouterExample.call_B, Bool.false_eq_true, if_false, Bool.not_false, Bool.and_self, if_true]
    simp [RouterExample.HandleB.process, RouterExample.append, hl, Collect.process, Collect.slot]
  · subst h3
    cases hc
    have hh : meta.Handleable (Tag RouterExample.Events.C) RouterExample.handlerRoutes = true := by
      decide
    simp only [Router.process, he, Val.type_tag, variant_Tag, Router.processTag, hh,
      RouterExample.call_C, Bool.false_eq_true, if_false, Bool.not_false, Bool.and_self, if_true]
    simp [RouterExample.HandleC.process, RouterExample.append, hl, Collect.process, Collect.slot]

/-- The visit of an `EventRouter::Event` with a `std::string` lvalue is
well-formed: the three handlers return one type, the tuple of a reference to
the string. -/
theorem RouterExample.typeVisit_string :
    Router.typeVisit RouterExample.handlerRoutes
        (RouterExample.handlerRoutes.map (signature RouterExample.env))
        (RouterExample.eventAlts.map Tag) [⟨.leaf "std::string", true⟩]
      = some (.tuple [⟨.leaf "std::string", true⟩]) := by
  decide

/-- One call of `EventHandler::process` with an `Event` value: the call with
its active alternative. -/
theorem RouterExample.process_event (σ : Store) (e : Arg) (l : Loc) (s : String)
    (c : Char) (hc : (RouterExample.eventOf (e.read σ)).bind RouterExample.letterOf = some c)
    (hl : σ l = .str s) :
    Graph.process RouterExample.env RouterExample.table RouterExample.EventHandler σ
        [e, .lval l]
      = some (.record [.ref l], σ.set l (.str (s.push c))) := by
  cases hv : e.read σ with
  | tag EventV =>
    rw [hv] at hc
    exact RouterExample.process_tag σ e l s EventV c hv
      (by simpa [RouterExample.eventOf] using hc) hl
  | event alts active =>
    rw [hv] at hc
    simp only [RouterExample.eventOf] at hc
    split_ifs at hc with ha
    · cases hd : alts[active]? with
      | none => rw [hd] at hc; simp at hc
      | some EventV =>
        rw [hd] at hc
        simp only [Option.some_bind] at hc
        have key := RouterExample.process_tag σ (.rval (.tag EventV)) l s EventV c rfl hc hl
        rw [← key]
        simp only [Graph.process, RouterExample.subgraph_EventHandler, denote_Router]
        subst ha
        have hty : [Arg.lval l].map (Arg.type σ) = [⟨.leaf "std::string", true⟩] := by
          simp [Arg.type, hl, Val.type]
        simp only [Router.process, hv, variant_event, if_true, Router.processVariant, hd,
          Arg.read_rval, Val.type_tag, variant_Tag, Bool.false_eq_true, if_false, hty,
          RouterExample.typeVisit_string, Option.isSome_some]
    · simp at hc
  | int i => rw [hv] at hc; simp [RouterExample.eventOf] at hc
  | chr i => rw [hv] at hc; simp [RouterExample.eventOf] at hc
  | str i => rw [hv] at hc; simp [RouterExample.eventOf] at hc
  | fn i => rw [hv] at hc; simp [RouterExample.eventOf] at hc

theorem str_push_append_mk (s : String) (c : Char) (cs : List Char) :
    s.push c ++ String.mk cs = s ++ String.mk (c :: cs) := by
  apply String.ext
  simp [String.data_append, String.data_push]

theorem str_append_mk_singleton (s : String) (c : Char) :
    s ++ String.mk [c] = s.push c := by
  apply String.ext
  simp [String.data_append, String.data_push]

theorem str_append_mk_nil (s : String) : s ++ String.mk [] = s := by
  apply String.ext
  simp [String.data_append]

theorem Store.set_set (σ : Store) (l : Loc) (v w : Val) :
    (σ.set l v).set l w = σ.set l w := by
  funext k
  simp only [Store.set]
  split_ifs <;> rfl

theorem Store.set_self (σ : Store) (l : Loc) (v : Val) (h : σ l = v) : σ.set l v = σ := by
  funext k
  simp only [Store.set]
  split_ifs with hk
  · rw [hk, h]
  · rfl

theorem Arg.read_set_of_ne (σ : Store) (l : Loc) (v : Val) (e : Arg) (h : e ≠ .lval l) :
    e.read (σ.set l v) = e.read σ := by
  cases e with
  | lval k =>
    have hk : k ≠ l := fun hk => h (by rw [hk])
    simp [Arg.read, Store.set, hk]
  | rval w => rfl

/-- C15. For the router of `examples/Router.cpp` composed with `Collect`
(`EventHandler`), every accumulator object `acc` holding a string `s`, and
every finite stream of first arguments, each a tag `A`, `B` or `C` or an
`Event` value holding one of them (`letters` lists the letters they stand
for): all the calls `process(event, acc)` return; the record of the call
number `k + 1` is the one element that refers to `acc`, and read right after
that call it is `s` followed by the letters of the first `k + 1` events;
after the last call `acc` holds `s` followed by all the letters, and no other
object of the caller has changed. -/
theorem router_accumulates_letters (acc : Loc) (stream : List Arg) (σ : Store) (s : String)
    (letters : List Char) (hacc : σ acc = .str s)
    (hstream : stream.map
        (fun e => (RouterExample.eventOf (e.read σ)).bind RouterExample.letterOf)
      = letters.map some) :
    RouterExample.feed acc stream σ
      = some ((List.range stream.length).map
            (fun k => (Slot.ref acc, Val.str (s ++ String.mk (letters.take (k + 1))))),
          σ.set acc (.str (s ++ String.mk letters))) := by
  revert σ s letters
  induction stream with
  | nil =>
    intro σ s letters hacc hs
    cases letters with
    | nil =>
      simp [RouterExample.feed, str_append_mk_nil, Store.set_self σ acc _ hacc]
    | cons c cs => simp at hs
  | cons e es ih =>
    intro σ s letters hacc hs
    cases letters with
    | nil => simp at hs
    | cons c cs =>
      simp only [List.map_cons, List.cons.injEq] at hs
      obtain ⟨hc, hrest⟩ := hs
      have hcall := RouterExample.process_event σ e acc s c hc hacc
      have hacc' : (σ.set acc (.str (s.push c))) acc = .str (s.push c) := by simp [Store.set]
      have hrest' : es.map (fun e => (RouterExample.eventOf
            (e.read (σ.set acc (.str (s.push c))))).bind RouterExample.letterOf)
          = cs.map some := by
        rw [← hrest]
        apply List.map_congr_left
        intro e' he'
        by_cases hl : e' = .lval acc
        · exfalso
          have hmem : (RouterExample.eventOf (e'.read σ)).bind RouterExample.letterOf
              ∈ cs.map some := by
            rw [← hrest]; exact List.mem_map_of_mem _ he'
          rw [hl] at hmem
          simp [Arg.read, hacc, RouterExample.eventOf] at hmem
        · rw [Arg.read_set_of_ne σ acc _ e' hl]
      have hih := ih (σ.set acc (.str (s.push c))) (s.push c) cs hacc' hrest'
      simp only [RouterExample.feed, hcall, hih, Slot.read, hacc', Store.set_set,
        str_push_append_mk, List.length_cons, List.range_succ_eq_map, List.map_cons,
        List.map_map, Option.some.injEq, Prod.mk.injEq, List.cons.injEq, and_true, true_and]
      constructor
      · simp [str_append_mk_singleton]
      · apply List.map_congr_left
        intro k _
        simp

/-- C15, witness, on the events of the tests: `A` by tag, `B` through the `Event`
object `stream[1]`, `C` by tag, on an empty accumulator. The records read
"A", "AB" and "ABC" right after their calls, each refers to the accumulator,
the accumulator ends as "ABC"; and the functions `test` and
`testVisitOverload` of the file return `true`. -/
theorem router_accumulates_letters_witness :
    (RouterExample.feed 0
        [.rval (.tag RouterExample.Events.A), .lval 2, .rval (.tag RouterExample.Events.C)]
        RouterExample.streamStore).map Prod.fst
      = some [(.ref 0, .str "A"), (.ref 0, .str "AB"), (.ref 0, .str "ABC")] ∧
    (RouterExample.feed 0
        [.rval (.tag RouterExample.Events.A), .lval 2, .rval (.tag RouterExample.Events.C)]
        RouterExample.streamStore).map (fun r => r.2 0)
      = some (.str "ABC") ∧
    RouterExample.test = some true ∧
    RouterExample.testVisitOverload = some true :=
  have key := router_accumulates_letters 0
    [.rval (.tag RouterExample.Events.A), .lval 2, .rval (.tag RouterExample.Events.C)]
    RouterExample.streamStore "" ['A', 'B', 'C'] (by decide) (by decide)
  ⟨by rw [key]; decide, by rw [key]; decide, by decide, by decide⟩

/-! ### `examples/Strings.cpp`: filter, then transform -/

theorem Strings.subgraph_FilterTransform :
    Graph.Subgraph Strings.table Strings.FilterTransform
      = some (.app "Filter" [.app "Transform" [Collect]]) := by decide

theorem Strings.filter_loop (P : Char → Bool) :
    ∀ (acc : List Char) (result : String),
      Strings.Filter.loop (fun c => some (P c)) acc result
        = some (result ++ String.mk (acc.filter P)) := by
  intro acc
  induction acc with
  | nil => intro result; simp [Strings.Filter.loop, str_append_mk_nil]
  | cons c acc ih =>
    intro result
    simp only [Strings.Filter.loop]
    cases hP : P c with
    | true => simp only [ih, List.filter_cons_of_pos hP, str_push_append_mk]
    | false =>
      have hP' : ¬ (P c = true) := by simp [hP]
      simp only [ih, List.filter_cons_of_neg hP']

theorem Strings.transform_loop (F : Char → Char) :
    ∀ (acc : List Char) (result : String),
      Strings.Transform.loop (fun c => some (F c)) acc result
        = some (result ++ String.mk (acc.map F)) := by
  intro acc
  induction acc with
  | nil => intro result; simp [Strings.Transform.loop, str_append_mk_nil]
  | cons c acc ih =>
    intro result
    simp only [Strings.Transform.loop, ih, List.map_cons, str_push_append_mk]

theorem str_empty_append (s : String) : "" ++ s = s := by
  apply String.ext
  simp [String.data_append]

/-- C16. For every `std::string` `s`, every predicate `P` and every transform
`F` (callables with a result for every character and no effect on the
caller's objects), `Graph<Filter<>, Transform<>, Collect>::process(s, p, f)`
returns the record of one element that holds, by value, the string of
`map F (filter P s)`: the characters of `s` that `P` keeps, in their order in
`s`, each replaced by its image under `F`; the objects of the caller are
unchanged. -/
theorem filterTransform_is_map_filter (calls : Strings.Callables) (σ : Store)
    (acc predicate transform : Arg) (s : String) (p f : Nat)
    (P : Char → Bool) (F : Char → Char)
    (hacc : acc.read σ = .str s) (hp : predicate.read σ = .fn p)
    (hf : transform.read σ = .fn f)
    (hP : ∀ c, calls.asPredicate p c = some (P c))
    (hF : ∀ c, calls.asTransform f c = some (F c)) :
    Graph.process (Strings.env calls) Strings.table Strings.FilterTransform σ
        [acc, predicate, transform]
      = some (.record [.val (.str (String.mk ((s.data.filter P).map F)))], σ) := by
  have hP' : calls.asPredicate p = fun c => some (P c) := funext hP
  have hF' : calls.asTransform f = fun c => some (F c) := funext hF
  simp only [Graph.process, Strings.subgraph_FilterTransform]
  simp [denote, denoteArgs, Strings.env, Strings.Filter.process, Strings.Transform.process,
    hacc, hp, hf, hP', hF', Strings.filter_loop, Strings.transform_loop, str_empty_append,
    Collect.process, Collect.slot, Arg.read_rval, Collect]

/-- C16, witness, on the test of the file: `"hello,FILTERED world"` with `isLower` and
`toUpper` gives `"HELLO, WORLD"`, and `test` returns `true`. -/
theorem filterTransform_is_map_filter_witness :
    (Graph.process (Strings.env Strings.testCalls) Strings.table Strings.FilterTransform
        Strings.testStore [.rval (.str "hello,FILTERED world"), .lval 0, .lval 1]).map Prod.fst
      = some (.record [.val (.str "HELLO, WORLD")]) ∧
    Strings.test = some true :=
  have key := filterTransform_is_map_filter Strings.testCalls Strings.testStore
    (.rval (.str "hello,FILTERED world")) (.lval 0) (.lval 1) "hello,FILTERED world" 0 1
    Strings.isLower Strings.toUpper rfl rfl rfl (fun _ => rfl) (fun _ => rfl)
  ⟨by rw [key]; decide, by decide⟩

/-! ### `Graph.hpp`: when the composed type is Terminal -/

theorem anyBase_eq_false_iff (Γ : ClassTable) (sel : Nat → Bool) :
    ∀ (as : List Ty) (k : Nat), anyBase Γ sel k as = false ↔
      ∀ (i : Nat) (a : Ty), as[i]? = some a → sel (k + i) = true →
        isBaseOfSuccessor Γ a = false := by
  intro as
  induction as with
  | nil => intro k; simp [anyBase]
  | cons b as ih =>
    intro k
    simp only [anyBase, Bool.or_eq_false_iff, ih (k + 1)]
    constructor
    · rintro ⟨h0, hr⟩ i a ha hs
      cases i with
      | zero =>
        simp only [List.getElem?_cons_zero, Option.some.injEq] at ha
        subst ha
        simp only [Nat.add_zero] at hs
        simpa [hs] using h0
      | succ i =>
        simp only [List.getElem?_cons_succ] at ha
        exact hr i a ha (by rw [Nat.add_assoc, Nat.add_comm 1 i]; exact hs)
    · intro h
      refine ⟨?_, ?_⟩
      · cases hs : sel k with
        | false => simp
        | true => simpa using h 0 b (by simp) (by simpa using hs)
      · intro i a ha hs
        exact h (i + 1) a (by simpa using ha)
          (by rw [Nat.add_assoc, Nat.add_comm 1 i] at hs; exact hs)

theorem argBasedSel_eq_true_iff (Γ : ClassTable) (sel : Nat → Bool) :
    ∀ (as : List Ty) (k : Nat), argBasedSel Γ sel k as = true ↔
      ∀ (i : Nat) (a : Ty), as[i]? = some a → sel (k + i) = true → argBased Γ a = true := by
  intro as
  induction as with
  | nil => intro k; simp [argBasedSel]
  | cons b as ih =>
    intro k
    simp only [argBasedSel, Bool.and_eq_true, ih (k + 1)]
    constructor
    · rintro ⟨h0, hr⟩ i a ha hs
      cases i with
      | zero =>
        simp only [List.getElem?_cons_zero, Option.some.injEq] at ha
        subst ha
        simp only [Nat.add_zero] at hs
        simpa [hs] using h0
      | succ i =>
        simp only [List.getElem?_cons_succ] at ha
        exact hr i a ha (by rw [Nat.add_assoc, Nat.add_comm 1 i]; exact hs)
    · intro h
      refine ⟨?_, ?_⟩
      · cases hs : sel k with
        | false => simp
        | true => simpa using h 0 b (by simp) (by simpa using hs)
      · intro i a ha hs
        exact h (i + 1) a (by simpa using ha)
          (by rw [Nat.add_assoc, Nat.add_comm 1 i] at hs; exact hs)

/-- A type without the placeholder whose bases come from its arguments does
not derive from `Successor`. -/
theorem not_base_of_argBased (Γ : ClassTable) :
    ∀ T, argBased Γ T = true → occurs Successor T = false →
      isBaseOfSuccessor Γ T = false := by
  intro T
  induction T using Ty.induct with
  | hleaf n =>
    intro ha ho
    simp only [occurs, decide_eq_false_iff_not] at ho
    simpa [argBased, isBaseOfSuccessor, ho] using ha
  | happ g as ih =>
    intro ha ho
    simp only [argBased, Bool.and_eq_true, Bool.not_eq_true', argBasedSel_eq_true_iff] at ha
    simp only [occurs, Bool.or_eq_false_iff] at ho
    simp only [isBaseOfSuccessor, ha.1, Bool.false_or, anyBase_eq_false_iff]
    intro i a hi hs
    have hmem := List.getElem?_mem hi
    exact ih a hmem (ha.2 i a hi hs) (occursArgs_eq_false.mp ho.2 a hmem)
  | hvapp g v as ih =>
    intro ha ho
    simp only [argBased, Bool.and_eq_true, Bool.not_eq_true', argBasedSel_eq_true_iff] at ha
    simp only [occurs, Bool.or_eq_false_iff] at ho
    simp only [isBaseOfSuccessor, ha.1, Bool.false_or, anyBase_eq_false_iff]
    intro i a hi hs
    have hmem := List.getElem?_mem hi
    exact ih a hmem (ha.2 i a hi hs) (occursArgs_eq_false.mp ho.2 a hmem)
  | hother g vs as ih =>
    intro ha ho
    simp only [argBased, Bool.and_eq_true, Bool.not_eq_true', argBasedSel_eq_true_iff] at ha
    simp only [occurs, Bool.or_eq_false_iff] at ho
    simp only [isBaseOfSuccessor, ha.1, Bool.false_or, anyBase_eq_false_iff]
    intro i a hi hs
    have hmem := List.getElem?_mem hi
    exact ih a hmem (ha.2 i a hi hs) (occursArgs_eq_false.mp ho.2 a hmem)

/-- A type that does not derive from `Successor` has no class with
`Successor` as a fixed base on its paths of bases. -/
theorem argBased_of_not_base (Γ : ClassTable) :
    ∀ T, isBaseOfSuccessor Γ T = false → argBased Γ T = true := by
  intro T
  induction T using Ty.induct with
  | hleaf n =>
    intro h
    simp only [isBaseOfSuccessor] at h
    simp [argBased, h]
  | happ g as ih =>
    intro h
    simp only [isBaseOfSuccessor, Bool.or_eq_false_iff, anyBase_eq_false_iff] at h
    simp only [argBased, h.1, Bool.not_false, Bool.true_and, argBasedSel_eq_true_iff]
    intro i a hi hs
    exact ih a (List.getElem?_mem hi) (h.2 i a hi hs)
  | hvapp g v as ih =>
    intro h
    simp only [isBaseOfSuccessor, Bool.or_eq_false_iff, anyBase_eq_false_iff] at h
    simp only [argBased, h.1, Bool.not_false, Bool.true_and, argBasedSel_eq_true_iff]
    intro i a hi hs
    exact ih a (List.getElem?_mem hi) (h.2 i a hi hs)
  | hother g vs as ih =>
    intro h
    simp only [isBaseOfSuccessor, Bool.or_eq_false_iff, anyBase_eq_false_iff] at h
    simp only [argBased, h.1, Bool.not_false, Bool.true_and, argBasedSel_eq_true_iff]
    intro i a hi hs
    exact ih a (List.getElem?_mem hi) (h.2 i a hi hs)

theorem forall₂_getElem?_right {α β : Type} {r : α → β → Prop} {as : List α} {bs : List β}
    (h : List.Forall₂ r as bs) :
    ∀ (i : Nat) (b : β), bs[i]? = some b → ∃ a, as[i]? = some a ∧ r a b := by
  induction h with
  | nil => intro i b hb; simp at hb
  | cons hab _ ih =>
    intro i b hb
    cases i with
    | zero =>
      simp only [List.getElem?_cons_zero, Option.some.injEq] at hb
      subst hb
      exact ⟨_, by simp, hab⟩
    | succ i =>
      simp only [List.getElem?_cons_succ] at hb
      obtain ⟨a, ha, hr⟩ := ih i b hb
      exact ⟨a, by simpa using ha, hr⟩

theorem isBaseOfSuccessor_Successor (Γ : ClassTable) :
    isBaseOfSuccessor Γ (.leaf "Successor") = true := by
  simp [isBaseOfSuccessor, classInfo, coreInfo]

/-- The rewrite adds no base `Successor` to a type that has none. -/
theorem not_base_rebind (Γ : ClassTable) (R : Ty) :
    ∀ T T', RebindImpl Successor R T = some T' → isBaseOfSuccessor Γ T = false →
      isBaseOfSuccessor Γ T' = false := by
  intro T
  induction T using Ty.induct with
  | hleaf n =>
    intro T' h hb
    by_cases hp : Ty.leaf n = Successor
    · simp only [Successor, Ty.leaf.injEq] at hp
      subst hp
      rw [isBaseOfSuccessor_Successor] at hb
      cases hb
    · simp [RebindImpl, hp] at h; rw [← h]; exact hb
  | happ g as ih =>
    intro T' h hb
    obtain ⟨_, as', rfl, hf⟩ := rebindImpl_app h
    simp only [isBaseOfSuccessor, Bool.or_eq_false_iff, anyBase_eq_false_iff] at hb ⊢
    refine ⟨hb.1, ?_⟩
    intro i a' hi hs
    obtain ⟨a, ha, hr⟩ := forall₂_getElem?_right hf i a' hi
    exact ih a (List.getElem?_mem ha) a' hr (hb.2 i a ha hs)
  | hvapp g v as ih =>
    intro T' h hb
    obtain ⟨_, as', rfl, hf⟩ := rebindImpl_vapp h
    simp only [isBaseOfSuccessor, Bool.or_eq_false_iff, anyBase_eq_false_iff] at hb ⊢
    refine ⟨hb.1, ?_⟩
    intro i a' hi hs
    obtain ⟨a, ha, hr⟩ := forall₂_getElem?_right hf i a' hi
    exact ih a (List.getElem?_mem ha) a' hr (hb.2 i a ha hs)
  | hother g vs as _ =>
    intro T' h hb
    have hp : Ty.other g vs as ≠ Successor := by simp [Successor]
    simp [RebindImpl, hp] at h; rw [← h]; exact hb

/-- Where `Successor` is a base by way of the arguments, the rewritten type
derives from `Successor` exactly when the replacement does. -/
theorem base_rebind (Γ : ClassTable) (R : Ty) :
    ∀ T T', RebindImpl Successor R T = some T' → argBased Γ T = true →
      hidden Successor T = false → isBaseOfSuccessor Γ T = true →
      isBaseOfSuccessor Γ T' = isBaseOfSuccessor Γ R := by
  intro T
  induction T using Ty.induct with
  | hleaf n =>
    intro T' h ha _ hb
    by_cases hp : Ty.leaf n = Successor
    · simp [RebindImpl, hp] at h; rw [← h]
    · simp only [isBaseOfSuccessor] at hb
      simp [argBased, hp, hb] at ha
  | happ g as ih =>
    intro T' h ha hh hb
    obtain ⟨_, as', rfl, hf⟩ := rebindImpl_app h
    simp only [argBased, Bool.and_eq_true, Bool.not_eq_true', argBasedSel_eq_true_iff] at ha
    simp only [hidden] at hh
    have hh' := hiddenArgs_eq_false.mp hh
    simp only [isBaseOfSuccessor, ha.1, Bool.false_or] at hb ⊢
    cases hR : isBaseOfSuccessor Γ R with
    | false =>
      rw [anyBase_eq_false_iff]
      intro i a' hi hs
      obtain ⟨a, hai, hr⟩ := forall₂_getElem?_right hf i a' hi
      cases hba : isBaseOfSuccessor Γ a with
      | false => exact not_base_rebind Γ R a a' hr hba
      | true => rw [ih a (List.getElem?_mem hai) a' hr (ha.2 i a hai hs)
          (hh' a (List.getElem?_mem hai)) hba, hR]
    | true =>
      by_contra hcon
      have hcon' : anyBase Γ (classInfo Γ (.tmpl g)).baseArg 0 as' = false := by
        simpa using hcon
      rw [anyBase_eq_false_iff] at hcon'
      have hb' : anyBase Γ (classInfo Γ (.tmpl g)).baseArg 0 as ≠ false := by simp [hb]
      apply hb'
      rw [anyBase_eq_false_iff]
      intro i a hai hs
      obtain ⟨a', hi', hr⟩ := forall₂_getElem? hf i a hai
      by_contra hba
      have hba' : isBaseOfSuccessor Γ a = true := by simpa using hba
      have := ih a (List.getElem?_mem hai) a' hr (ha.2 i a hai hs)
        (hh' a (List.getElem?_mem hai)) hba'
      rw [hcon' i a' hi' hs, hR] at this
      cases this
  | hvapp g v as ih =>
    intro T' h ha hh hb
    obtain ⟨_, as', rfl, hf⟩ := rebindImpl_vapp h
    simp only [argBased, Bool.and_eq_true, Bool.not_eq_true', argBasedSel_eq_true_iff] at ha
    simp only [hidden] at hh
    have hh' := hiddenArgs_eq_false.mp hh
    simp only [isBaseOfSuccessor, ha.1, Bool.false_or] at hb ⊢
    cases hR : isBaseOfSuccessor Γ R with
    | false =>
      rw [anyBase_eq_false_iff]
      intro i a' hi hs
      obtain ⟨a, hai, hr⟩ := forall₂_getElem?_right hf i a' hi
      cases hba : isBaseOfSuccessor Γ a with
      | false => exact not_base_rebind Γ R a a' hr hba
      | true => rw [ih a (List.getElem?_mem hai) a' hr (ha.2 i a hai hs)
          (hh' a (List.getElem?_mem hai)) hba, hR]
    | true =>
      by_contra hcon
      have hcon' : anyBase Γ (classInfo Γ (.vtmpl g)).baseArg 0 as' = false := by
        simpa using hcon
      rw [anyBase_eq_false_iff] at hcon'
      have hb' : anyBase Γ (classInfo Γ (.vtmpl g)).baseArg 0 as ≠ false := by simp [hb]
      apply hb'
      rw [anyBase_eq_false_iff]
      intro i a hai hs
      obtain ⟨a', hi', hr⟩ := forall₂_getElem? hf i a hai
      by_contra hba
      have hba' : isBaseOfSuccessor Γ a = true := by simpa using hba
      have := ih a (List.getElem?_mem hai) a' hr (ha.2 i a hai hs)
        (hh' a (List.getElem?_mem hai)) hba'
      rw [hcon' i a' hi' hs, hR] at this
      cases this
  | hother g vs as _ =>
    intro T' h ha hh hb
    have hp : Ty.other g vs as ≠ Successor := by simp [Successor]
    exfalso
    simp only [hidden, hp, decide_False, Bool.not_false, Bool.true_and] at hh
    have hno : isBaseOfSuccessor Γ (.other g vs as) = false :=
      not_base_of_argBased Γ (.other g vs as) ha (by simp [occurs, hp, hh])
    rw [hno] at hb
    cases hb

/-- The rewrite keeps what `argBased` asks of the target. -/
theorem argBased_of_rebind (Γ : ClassTable) (R : Ty) :
    ∀ T T', RebindImpl Successor R T = some T' → argBased Γ T' = true →
      argBased Γ T = true := by
  intro T
  induction T using Ty.induct with
  | hleaf n =>
    intro T' h ha
    by_cases hp : Ty.leaf n = Successor
    · simp [argBased, hp]
    · simp [RebindImpl, hp] at h; rw [← h] at ha; exact ha
  | happ g as ih =>
    intro T' h ha
    obtain ⟨_, as', rfl, hf⟩ := rebindImpl_app h
    simp only [argBased, Bool.and_eq_true, Bool.not_eq_true', argBasedSel_eq_true_iff] at ha ⊢
    refine ⟨ha.1, ?_⟩
    intro i a hai hs
    obtain ⟨a', hi', hr⟩ := forall₂_getElem? hf i a hai
    exact ih a (List.getElem?_mem hai) a' hr (ha.2 i a' hi' hs)
  | hvapp g v as ih =>
    intro T' h ha
    obtain ⟨_, as', rfl, hf⟩ := rebindImpl_vapp h
    simp only [argBased, Bool.and_eq_true, Bool.not_eq_true', argBasedSel_eq_true_iff] at ha ⊢
    refine ⟨ha.1, ?_⟩
    intro i a hai hs
    obtain ⟨a', hi', hr⟩ := forall₂_getElem? hf i a hai
    exact ih a (List.getElem?_mem hai) a' hr (ha.2 i a' hi' hs)
  | hother g vs as _ =>
    intro T' h ha
    have hp : Ty.other g vs as ≠ Successor := by simp [Successor]
    simp [RebindImpl, hp] at h; rw [← h] at ha; exact ha

/-- A placeholder the rewrite does not reach is still in the rewritten type. -/
theorem occurs_of_hidden_rebind (R : Ty) :
    ∀ T T', RebindImpl Successor R T = some T' → hidden Successor T = true →
      occurs Successor T' = true := by
  intro T
  induction T using Ty.induct with
  | hleaf n => intro T' _ hh; simp [hidden] at hh
  | happ g as ih =>
    intro T' h hh
    obtain ⟨_, as', rfl, hf⟩ := rebindImpl_app h
    simp only [hidden] at hh
    have hex : ∃ a ∈ as, hidden Successor a = true := by
      by_contra hcon
      have : hiddenArgs Successor as = false :=
        hiddenArgs_eq_false.mpr (fun a ha => by
          cases hx : hidden Successor a with
          | false => rfl
          | true => exact absurd ⟨a, ha, hx⟩ hcon)
      rw [this] at hh; cases hh
    obtain ⟨a, ha, hha⟩ := hex
    obtain ⟨a', ha', hr⟩ := forall₂_mem_left hf a ha
    exact occurs_args (T := .app g as')
      (occurs_of_mem_args (by simpa [Ty.args] using ha') (ih a ha a' hr hha))
  | hvapp g v as ih =>
    intro T' h hh
    obtain ⟨_, as', rfl, hf⟩ := rebindImpl_vapp h
    simp only [hidden] at hh
    have hex : ∃ a ∈ as, hidden Successor a = true := by
      by_contra hcon
      have : hiddenArgs Successor as = false :=
        hiddenArgs_eq_false.mpr (fun a ha => by
          cases hx : hidden Successor a with
          | false => rfl
          | true => exact absurd ⟨a, ha, hx⟩ hcon)
      rw [this] at hh; cases hh
    obtain ⟨a, ha, hha⟩ := hex
    obtain ⟨a', ha', hr⟩ := forall₂_mem_left hf a ha
    exact occurs_args (T := .vapp g v as')
      (occurs_of_mem_args (by simpa [Ty.args] using ha') (ih a ha a' hr hha))
  | hother g vs as _ =>
    intro T' h hh
    have hp : Ty.other g vs as ≠ Successor := by simp [Successor]
    simp only [RebindImpl, hp, if_false, Option.some.injEq] at h
    subst h
    simp only [hidden, hp, decide_False, Bool.not_false, Bool.true_and] at hh
    simp [occurs, hh]

theorem graphImpl_terminal_iff (Γ : ClassTable) :
    ∀ (S : List Ty) (T : Ty), detail.GraphImpl Γ S = some T →
      ((occurs Successor T = false ∧ isBaseOfSuccessor Γ T = false) ↔
        ((∀ s ∈ S, hidden Successor s = false ∧ argBased Γ s = true) ∧
          ∀ Sn, S.getLast? = some Sn → occurs Successor Sn = false)) ∧
      ((∀ s ∈ S, hidden Successor s = false ∧ argBased Γ s = true) →
        ∀ Sn, S.getLast? = some Sn → occurs Sn T = true) := by
  intro S
  induction S with
  | nil => intro T h; simp [detail.GraphImpl] at h
  | cons Head Tail ih =>
    intro T h
    cases Tail with
    | nil =>
      simp only [detail.GraphImpl] at h
      split at h
      · rename_i ht
        simp only [Option.some.injEq] at h
        subst h
        simp only [meta.Terminal, Bool.and_eq_true, Bool.not_eq_true'] at ht
        refine ⟨⟨?_, ?_⟩, ?_⟩
        · rintro ⟨ho, hb⟩
          refine ⟨?_, ?_⟩
          · intro s hs
            simp only [List.mem_singleton] at hs
            subst hs
            exact ⟨hidden_of_not_occurs Successor s ho, argBased_of_not_base Γ s hb⟩
          · intro Sn hSn
            simp only [List.getLast?_singleton, Option.some.injEq] at hSn
            rw [← hSn]; exact ho
        · rintro ⟨_, hl⟩
          exact ⟨hl Head (by simp), ht.2⟩
        · intro _ Sn hSn
          simp only [List.getLast?_singleton, Option.some.injEq] at hSn
          rw [← hSn]; exact occurs_self Head
      · cases h
    | cons t Tail =>
      rw [graphImpl_cons Γ Head (by simp)] at h
      split at h
      · rename_i hint
        simp only [meta.Internal, Bool.and_eq_true] at hint
        cases hc : detail.GraphImpl Γ (t :: Tail) with
        | none => rw [hc] at h; cases h
        | some c =>
          rw [hc] at h
          simp only [Option.some_bind] at h
          obtain ⟨ihiff, ihocc⟩ := ih c hc
          have hreach : hidden Successor Head = false → argBased Γ Head = true →
              occurs c T = true := by
            intro hh ha
            have ho : occurs Successor Head = true := by
              by_contra hcon
              have := not_base_of_argBased Γ Head ha (by simpa using hcon)
              rw [this] at hint
              exact absurd hint.2 (by simp)
            exact occurs_replacement Successor c Head T h ho hh
          refine ⟨⟨?_, ?_⟩, ?_⟩
          · rintro ⟨ho, hb⟩
            have hh : hidden Successor Head = false := by
              by_contra hcon
              have := occurs_of_hidden_rebind c Head T h (by simpa using hcon)
              rw [ho] at this; cases this
            have ha : argBased Γ Head = true :=
              argBased_of_rebind Γ c Head T h (argBased_of_not_base Γ T hb)
            have hbc : isBaseOfSuccessor Γ c = false := by
              rw [← base_rebind Γ c Head T h ha hh hint.2]; exact hb
            have hoc : occurs Successor c = false := by
              by_contra hcon
              have := occurs_trans Successor c (by simpa using hcon) T (hreach hh ha)
              rw [ho] at this; cases this
            obtain ⟨hall, hlast⟩ := ihiff.mp ⟨hoc, hbc⟩
            refine ⟨?_, ?_⟩
            · intro s hs
              rcases List.mem_cons.mp hs with rfl | hs'
              · exact ⟨hh, ha⟩
              · exact hall s hs'
            · intro Sn hSn
              rw [List.getLast?_cons_cons] at hSn
              exact hlast Sn hSn
          · rintro ⟨hall, hlast⟩
            obtain ⟨hh, ha⟩ := hall Head (List.mem_cons_self _ _)
            obtain ⟨hoc, hbc⟩ := ihiff.mpr
              ⟨fun s hs => hall s (List.mem_cons_of_mem _ hs),
                fun Sn hSn => hlast Sn (by rw [List.getLast?_cons_cons]; exact hSn)⟩
            refine ⟨rebindImpl_not_occurs Successor c (by decide) hoc Head T h hh, ?_⟩
            rw [base_rebind Γ c Head T h ha hh hint.2]; exact hbc
          · intro hall Sn hSn
            obtain ⟨hh, ha⟩ := hall Head (List.mem_cons_self _ _)
            rw [List.getLast?_cons_cons] at hSn
            exact occurs_trans Sn c
              (ihocc (fun s hs => hall s (List.mem_cons_of_mem _ hs)) Sn hSn) T (hreach hh ha)
      · cases h

/-- C19, amended. For every stage list accepted by `Graph`, the composed type
holds no `Successor` and classifies as Terminal exactly when no stage holds a
placeholder where `Rebind` does not descend (inside an instantiation of
another parameter shape), no stage has a class other than the placeholder
with `Successor` as a base whatever its arguments are, and the declared
terminal stage `Sn` holds no placeholder. When that is so, the composed type
is not Internal and has `Sn` among its nodes. -/
theorem composed_type_is_terminal (Γ : ClassTable) (S : List Ty) (T : Ty)
    (h : Graph.Subgraph Γ S = some T) :
    ((occurs Successor T = false ∧ meta.Terminal Γ T = true) ↔
      ((∀ s ∈ S, hidden Successor s = false ∧ argBased Γ s = true) ∧
        ∀ Sn, S.getLast? = some Sn → occurs Successor Sn = false)) ∧
    ((occurs Successor T = false ∧ meta.Terminal Γ T = true) →
      meta.Internal Γ T = false ∧ ∀ Sn, S.getLast? = some Sn → occurs Sn T = true) := by
  have hg := subgraph_eq_graphImpl h
  have hclass := isClass_graphImpl Γ S T hg
  obtain ⟨hiff, hocc⟩ := graphImpl_terminal_iff Γ S T hg
  have hterm : meta.Terminal Γ T = true ↔ isBaseOfSuccessor Γ T = false := by
    simp [meta.Terminal, hclass]
  refine ⟨?_, ?_⟩
  · rw [hterm]; exact hiff
  · intro hT
    rw [hterm] at hT
    refine ⟨by simp [meta.Internal, hT.2], hocc (hiff.mp hT).1⟩

/-- C19, witness: the list `[Logged<Successor, Policy>, Collect]`, with
`Logged` deriving from its first argument only, and
`EventHandler = Graph<EventRouter, Collect>` of the example. -/
theorem composed_type_is_terminal_witness :
    Graph.Subgraph Odd.logged [.app "Logged" [Successor, .leaf "Policy"], Collect]
      = some (.app "Logged" [Collect, .leaf "Policy"]) ∧
    occurs Successor (.app "Logged" [Collect, .leaf "Policy"]) = false ∧
    meta.Terminal Odd.logged (.app "Logged" [Collect, .leaf "Policy"]) = true ∧
    occurs Collect (.app "Logged" [Collect, .leaf "Policy"]) = true ∧
    meta.Terminal RouterExample.table (Router RouterExample.handlerRoutes) = true :=
  have key := composed_type_is_terminal Odd.logged
    [.app "Logged" [Successor, .leaf "Policy"], Collect]
    (.app "Logged" [Collect, .leaf "Policy"]) (by decide)
  have key' := composed_type_is_terminal RouterExample.table RouterExample.EventHandler
    (Router RouterExample.handlerRoutes) (by decide)
  have h1 := key.1.mpr ⟨by decide, by decide⟩
  ⟨by decide, h1.1, h1.2, (key.2 h1).2 Collect (by decide), (key'.1.mpr ⟨by decide, by decide⟩).2⟩

/-! ### `Graph.hpp`: which lists `Graph` accepts -/

/-- C3, counterexample. The list
`[Router<Route<A, Successor>, Route<A, Sink>>, Sink]` is not empty, its last
entry is Terminal and its first is Internal, and the router is a class that
can be instantiated; the rewrite makes both routes `Route<A, Sink>`, so the
composed type names one base class twice and `Graph` cannot derive from it.
The list `[Last]` of one terminal declared `final` is rejected in the same
way. -/
theorem graph_rejects_unusable_base :
    Odd.merging ≠ [] ∧
    (∀ Sn, Odd.merging.getLast? = some Sn → meta.Terminal RouterExample.table Sn = true) ∧
    (∀ Si ∈ Odd.merging.dropLast, meta.Internal RouterExample.table Si = true) ∧
    (∀ Si ∈ Odd.merging, usableAsBase RouterExample.table Si = true) ∧
    Graph.Subgraph RouterExample.table Odd.merging
      = some (Router [Route ⟨"Events", 0⟩ Sink, Route ⟨"Events", 0⟩ Sink]) ∧
    Graph.accepted RouterExample.table Odd.merging = false ∧
    meta.Terminal Odd.sealed (.leaf "Last") = true ∧
    Graph.Subgraph Odd.sealed [.leaf "Last"] = some (.leaf "Last") ∧
    Graph.accepted Odd.sealed [.leaf "Last"] = false := by
  refine ⟨by decide, by decide, by decide, by decide, by decide, by decide, by decide,
    by decide, by decide⟩

/-- C3, amended. Constructing `Graph<S1..Sn>` succeeds only if the list is
not empty, its last entry classifies as Terminal and every entry before the
last classifies as Internal: the empty list, a list with a Terminal stage
before the last position and a list with an Internal stage in the last
position are rejected. A list that meets the three conditions has a composed
type, and is accepted exactly when that type can be named as a base class. -/
theorem graph_accepted_iff (Γ : ClassTable) (S : List Ty) :
    (Graph.accepted Γ S = true →
      S ≠ [] ∧ (∀ Sn, S.getLast? = some Sn → meta.Terminal Γ Sn = true) ∧
        (∀ Si ∈ S.dropLast, meta.Internal Γ Si = true)) ∧
    Graph.accepted Γ [] = false ∧
    (∀ (T : Ty) (rest : List Ty), meta.Terminal Γ T = true → rest ≠ [] →
      ∀ pre : List Ty, Graph.accepted Γ (pre ++ T :: rest) = false) ∧
    (∀ (T : Ty) (pre : List Ty), meta.Internal Γ T = true →
      Graph.accepted Γ (pre ++ [T]) = false) ∧
    (S ≠ [] → (∀ Sn, S.getLast? = some Sn → meta.Terminal Γ Sn = true) →
      (∀ Si ∈ S.dropLast, meta.Internal Γ Si = true) →
      ∃ T, Graph.Subgraph Γ S = some T ∧ Graph.accepted Γ S = usableAsBase Γ T) := by
  have hacc : ∀ S', Graph.accepted Γ S' = true → (Graph.Subgraph Γ S').isSome = true := by
    intro S' h
    unfold Graph.accepted at h
    cases hs : Graph.Subgraph Γ S' with
    | none => rw [hs] at h; cases h
    | some T => rfl
  have hrej : ∀ S', (Graph.Subgraph Γ S').isSome ≠ true → Graph.accepted Γ S' = false := by
    intro S' h
    cases hx : Graph.accepted Γ S' with
    | false => rfl
    | true => exact absurd (hacc S' hx) h
  refine ⟨fun h => (subgraph_isSome_iff Γ S).mp (hacc S h), by simp [Graph.accepted,
    Graph.Subgraph, detail.GraphImpl], ?_, ?_, ?_⟩
  · intro T rest hT hrest pre
    apply hrej
    intro hsome
    obtain ⟨_, _, h2⟩ := (subgraph_isSome_iff Γ _).mp hsome
    have hmem : T ∈ (pre ++ T :: rest).dropLast := by
      rw [List.dropLast_append_of_ne_nil _ (by simp)]
      apply List.mem_append_right
      cases rest with
      | nil => exact absurd rfl hrest
      | cons r rs => simp [List.dropLast]
    have := h2 T hmem
    rw [not_internal_of_terminal hT] at this
    cases this
  · intro T pre hT
    apply hrej
    intro hsome
    obtain ⟨_, h1, _⟩ := (subgraph_isSome_iff Γ _).mp hsome
    have := h1 T (by simp)
    rw [not_terminal_of_internal hT] at this
    cases this
  · intro h0 h1 h2
    have hsome := (subgraph_isSome_iff Γ S).mpr ⟨h0, h1, h2⟩
    obtain ⟨T, hT⟩ := Option.isSome_iff_exists.mp hsome
    exact ⟨T, hT, by simp [Graph.accepted, hT]⟩

/-! ### `Router.hpp`: routers of routes -/

theorem filter_tag_eq (rs : List (Discr × Ty)) (V : Discr) :
    rs.filter (fun r => decide (Tag r.1 = Tag V)) = rs.filter (fun r => decide (r.1 = V)) := by
  apply List.filter_congr
  intro r _
  simp [Tag_inj]

/-- The call `self.operator()(tag, ...)` on a router of routes: the handler
of the one route with this tag. -/
theorem call_routesOf {α : Type} (rs : List (Discr × Ty)) (f : Discr × Ty → α) (V : Discr) :
    Router.call (Tag V) (routesOf rs) (rs.map f)
      = match rs.filter (fun r => decide (r.1 = V)) with
        | [r] => some (f r)
        | _ => none := by
  unfold Router.call routesOf
  rw [viable_routes, filter_tag_eq]
  cases h : rs.filter (fun r => decide (r.1 = V)) with
  | nil => rfl
  | cons r rest =>
    cases rest with
    | nil => rfl
    | cons r' rest' => rfl

theorem handleable_routesOf (rs : List (Discr × Ty)) (V : Discr) :
    meta.Handleable (Tag V) (routesOf rs) = true ↔ ∃ r ∈ rs, r.1 = V := by
  unfold routesOf
  rw [handleable_routes]
  simp [Tag_inj]

theorem handleable_of_filter {rs : List (Discr × Ty)} {V : Discr} {r : Discr × Ty}
    (h : rs.filter (fun r => decide (r.1 = V)) = [r]) :
    meta.Handleable (Tag V) (routesOf rs) = true := by
  have hm : r ∈ rs.filter (fun r => decide (r.1 = V)) := by rw [h]; simp
  rw [List.mem_filter] at hm
  exact (handleable_routesOf rs V).mpr ⟨r, hm.1, by simpa using hm.2⟩

theorem filter_nil_of_not_handleable {rs : List (Discr × Ty)} {V : Discr}
    (h : meta.Handleable (Tag V) (routesOf rs) = false) :
    rs.filter (fun r => decide (r.1 = V)) = [] := by
  rw [List.filter_eq_nil_iff]
  intro r hr hV
  have := (handleable_routesOf rs V).mpr ⟨r, hr, by simpa using hV⟩
  rw [h] at this
  cases this

/-- Static dispatch on a router of routes: `process` of the handler of the
one route with this tag; rejected when no route or more than one has it. -/
theorem processTag_routesOf (rs : List (Discr × Ty)) (f : Discr × Ty → Proc) (V : Discr)
    (σ : Store) (args : List Arg) :
    Router.processTag (routesOf rs) (rs.map f) (Tag V) σ args
      = match rs.filter (fun r => decide (r.1 = V)) with
        | [r] => f r σ args
        | _ => none := by
  unfold Router.processTag
  rw [call_routesOf, variant_Tag]
  cases h : rs.filter (fun r => decide (r.1 = V)) with
  | nil => simp
  | cons r rest =>
    cases rest with
    | nil => simp [handleable_of_filter h]
    | cons r' rest' => simp

/-- The return type of static dispatch on a router of routes. -/
theorem typeTag_routesOf (rs : List (Discr × Ty)) (g : Discr × Ty → Sig) (V : Discr)
    (args : List ArgTy) :
    Router.typeTag (routesOf rs) (rs.map g) (Tag V) args
      = match rs.filter (fun r => decide (r.1 = V)) with
        | [r] => g r args
        | _ => none := by
  unfold Router.typeTag
  rw [call_routesOf, variant_Tag]
  cases h : rs.filter (fun r => decide (r.1 = V)) with
  | nil => simp
  | cons r rest =>
    cases rest with
    | nil => simp [handleable_of_filter h]
    | cons r' rest' => simp

theorem map_routesOf {α : Type} (rs : List (Discr × Ty)) (F : Ty → α) :
    (routesOf rs).map F = rs.map (fun r => F (Route r.1 r.2)) := by
  simp [routesOf, List.map_map, Function.comp]

/-- Static dispatch through `denote`. -/
theorem denote_router_tag (env : Env) (rs : List (Discr × Ty)) (V : Discr) (σ : Store)
    (ic : Arg) (args : List Arg) (hic : ic.read σ = .tag V) :
    denote env (Router (routesOf rs)) σ (ic :: args)
      = match rs.filter (fun r => decide (r.1 = V)) with
        | [r] => denote env r.2 σ args
        | _ => none := by
  rw [denote_Router, map_routesOf, map_routesOf]
  simp only [Router.process, hic, Val.type_tag, variant_Tag, Bool.false_eq_true, if_false]
  rw [processTag_routesOf]
  cases h : rs.filter (fun r => decide (r.1 = V)) with
  | nil => rfl
  | cons r rest =>
    cases rest with
    | nil => simp [denote_Route]
    | cons r' rest' => rfl

/-- C5, counterexample. The router
`Router<Route<A, HandleA<Collect>>, Route<A, HandleB<Collect>>>` is accepted
and `Tag<A>` is a declared tag of it; `HandleA<Collect>::process(acc)` returns
the record of `acc`, and static dispatch `process(Tag<A>{}, acc)` is rejected:
two `operator()` are viable. -/
theorem repeated_tag_dispatch_rejected :
    Router.accepted RouterExample.table (routesOf RouterExample.repeated) = true ∧
    meta.Handleable (Tag RouterExample.Events.A) (routesOf RouterExample.repeated) = true ∧
    (denote RouterExample.env (.app "HandleA" [Collect]) RouterExample.emptyStore
      [.lval 0]).map Prod.fst = some (.record [.ref 0]) ∧
    (denote RouterExample.env (Router (routesOf RouterExample.repeated))
      RouterExample.emptyStore [.rval (.tag RouterExample.Events.A), .lval 0]).map Prod.fst
      = none := by
  refine ⟨by decide, by decide, by decide, by decide⟩

theorem unambiguousBase_of_selfSafe {Γ : ClassTable} {Self T : Ty}
    (h : selfSafe Γ Self T = true) : unambiguousBase Γ T Self = true := by
  cases T with
  | leaf n => simpa [selfSafe] using h
  | app g as =>
    simp only [selfSafe, Bool.and_eq_true] at h
    exact h.1
  | vapp g v as =>
    simp only [selfSafe, Bool.and_eq_true] at h
    exact h.1.1
  | other g vs as =>
    simp only [selfSafe, Bool.and_eq_true] at h
    exact h.1

/-- C5, amended. For every Router with routes `(T1, H1)..(Tk, Hk)` and every
tag `V` that exactly one route `(V, H)` carries, where `H` and the bases its
`process` calls are unambiguous bases of the class they are named on: static
dispatch `process(V, args...)` is `H.process(args...)`, the tag argument
removed, with the same result (nothing or a record, which the return type
`auto` of `operator()` hands on as it is) and the same objects of the caller
afterwards; the other routes have no part in it, whatever they are; and the
router holds one subobject of the class `H`. -/
theorem router_static_dispatch (env : Env) (Γ : ClassTable) (rs : List (Discr × Ty))
    (V : Discr) (H : Ty)
    (hone : rs.filter (fun r => decide (r.1 = V)) = [(V, H)])
    (hsafe : selfSafe Γ (Router (routesOf rs)) H = true)
    (σ : Store) (ic : Arg) (args : List Arg) (hic : ic.read σ = .tag V) :
    denote env (Router (routesOf rs)) σ (ic :: args) = denote env H σ args ∧
    (∀ rs' : List (Discr × Ty), rs'.filter (fun r => decide (r.1 = V)) = [(V, H)] →
      denote env (Router (routesOf rs')) σ (ic :: args)
        = denote env (Router (routesOf rs)) σ (ic :: args)) ∧
    subobjects Γ H (Router (routesOf rs)) = 1 := by
  have h1 : denote env (Router (routesOf rs)) σ (ic :: args) = denote env H σ args := by
    rw [denote_router_tag env rs V σ ic args hic, hone]
  refine ⟨h1, ?_, by simpa [unambiguousBase] using unambiguousBase_of_selfSafe hsafe⟩
  intro rs' hone'
  rw [h1, denote_router_tag env rs' V σ ic args hic, hone']

/-- C5, witness: `process(Tag<Events::B>{}, acc)` on the router of
`EventHandler` is `HandleB<Collect>::process(acc)`, the record of `acc` with
`B` appended. -/
theorem router_static_dispatch_witness :
    denote RouterExample.env (Router (routesOf RouterExample.handlers))
        RouterExample.emptyStore [.rval (.tag RouterExample.Events.B), .lval 0]
      = denote RouterExample.env (.app "HandleB" [Collect]) RouterExample.emptyStore
          [.lval 0] ∧
    (denote RouterExample.env (Router (routesOf RouterExample.handlers))
        RouterExample.emptyStore [.rval (.tag RouterExample.Events.B), .lval 0]).map
        (fun r => (r.1, r.2 0))
      = some (.record [.ref 0], .str "B") :=
  ⟨(router_static_dispatch RouterExample.env RouterExample.table RouterExample.handlers
      RouterExample.Events.B (.app "HandleB" [Collect]) (by decide) (by decide)
      RouterExample.emptyStore (.rval (.tag RouterExample.Events.B)) [.lval 0] rfl).1,
    by decide⟩

theorem handleable_tuple (IC : Ty) (Routes : List Ty) :
    meta.Handleable IC [Router.RoutesTuple Routes] = meta.Handleable IC Routes := by
  simp [meta.Handleable, detail.isHandledImpl, detail.isHandledSingle, Router.RoutesTuple]

/-- C7, counterexample. In the router
`Router<Route<A, HandleA<Collect>>, Route<A, HandleB<Collect>>>` a route has
the tag `Tag<A>`: `Handleable` holds and `createTag<A>()` is accepted; static
dispatch on `Tag<A>` is rejected. -/
theorem handleable_tag_not_dispatched :
    (∃ r ∈ RouterExample.repeated, r.1 = RouterExample.Events.A) ∧
    meta.Handleable (Tag RouterExample.Events.A) (routesOf RouterExample.repeated) = true ∧
    Router.createTag (routesOf RouterExample.repeated) RouterExample.Events.A
      = some (Tag RouterExample.Events.A) ∧
    (denote RouterExample.env (Router (routesOf RouterExample.repeated))
      RouterExample.emptyStore [.rval (.tag RouterExample.Events.A), .lval 0]).map Prod.fst
      = none := by
  refine ⟨by decide, by decide, by decide, by decide⟩

/-- C7, amended. For every Router of routes and every value `V`:
`meta::Handleable<Tag<V>, ...>` holds, over the pack of routes as over the
router's `RoutesTuple`, if and only if some route has the tag `Tag<V>`;
`createTag<V>()` is accepted if and only if it holds. Static dispatch on
`Tag<V>` is accepted only if it holds, and then exactly one route has the tag
and `process` of its handler accepts the remaining arguments. For a value
without a route, as `Events::D` in the router of the example, `Handleable` is
false, and `createTag` and static dispatch are rejected. -/
theorem handleable_iff_some_route (env : Env) (rs : List (Discr × Ty)) (V : Discr) :
    (meta.Handleable (Tag V) (routesOf rs) = true ↔ ∃ r ∈ rs, r.1 = V) ∧
    meta.Handleable (Tag V) [Router.RoutesTuple (routesOf rs)]
      = meta.Handleable (Tag V) (routesOf rs) ∧
    (Router.createTag (routesOf rs) V = some (Tag V) ↔
      meta.Handleable (Tag V) (routesOf rs) = true) ∧
    (∀ (σ : Store) (ic : Arg) (args : List Arg), ic.read σ = .tag V →
      (denote env (Router (routesOf rs)) σ (ic :: args)).isSome = true →
      meta.Handleable (Tag V) (routesOf rs) = true ∧
        ∃ H, rs.filter (fun r => decide (r.1 = V)) = [(V, H)] ∧
          (denote env H σ args).isSome = true) ∧
    (meta.Handleable (Tag V) (routesOf rs) = false →
      Router.createTag (routesOf rs) V = none ∧
        ∀ (σ : Store) (ic : Arg) (args : List Arg), ic.read σ = .tag V →
          denote env (Router (routesOf rs)) σ (ic :: args) = none) ∧
    meta.Handleable (Tag RouterExample.Events.D)
      [Router.RoutesTuple RouterExample.routes] = false ∧
    Router.createTag RouterExample.routes RouterExample.Events.D = none := by
  refine ⟨handleable_routesOf rs V, handleable_tuple _ _, ?_, ?_, ?_, by decide, by decide⟩
  · unfold Router.createTag
    cases meta.Handleable (Tag V) (routesOf rs) <;> simp
  · intro σ ic args hic hsome
    rw [denote_router_tag env rs V σ ic args hic] at hsome
    cases hf : rs.filter (fun r => decide (r.1 = V)) with
    | nil => rw [hf] at hsome; cases hsome
    | cons r rest =>
      cases rest with
      | cons r' rest' => rw [hf] at hsome; cases hsome
      | nil =>
        rw [hf] at hsome
        have hm : r ∈ rs.filter (fun r => decide (r.1 = V)) := by rw [hf]; simp
        have hV : r.1 = V := by simpa using (List.mem_filter.mp hm).2
        have hr : r = (V, r.2) := by rw [← hV]
        exact ⟨handleable_of_filter hf, r.2, by rw [← hr], hsome⟩
  · intro hH
    refine ⟨by simp [Router.createTag, hH], ?_⟩
    intro σ ic args hic
    rw [denote_router_tag env rs V σ ic args hic, filter_nil_of_not_handleable hH]

theorem basesFrom_all : ∀ (as : List Ty) (k : Nat), basesFrom (fun _ => true) k as = as := by
  intro as
  induction as with
  | nil => intro k; rfl
  | cons a as ih => intro k; simp [basesFrom, ih]

theorem usableBases_all (Γ : ClassTable) :
    ∀ (as : List Ty) (k : Nat),
      usableBases Γ (fun _ => true) k as = as.all (usableAsBase Γ) := by
  intro as
  induction as with
  | nil => intro k; rfl
  | cons a as ih => intro k; simp [usableBases, usableAsBase, ih]

theorem nodeLike_of_isClass {Γ : ClassTable} {T : Ty} (h : isClass Γ T = true) :
    meta.NodeLike Γ T = true := by
  simp only [meta.NodeLike, meta.Internal, meta.Terminal, h, Bool.true_and]
  cases isBaseOfSuccessor Γ T <;> rfl

theorem routeLike_Route (Γ : ClassTable) (V : Discr) (H : Ty) :
    meta.RouteLike Γ (Route V H) = true := by
  have hc : isClass Γ (Route V H) = true := by
    simp [isClass, classInfo, coreInfo, Route, Ty.head]
  simp [meta.RouteLike, nodeLike_of_isClass hc, memberTag_Route]

/-- A route can be named as a base class exactly when its handler is
`NodeLike` and can be named as a base class. -/
theorem usableAsBase_Route (Γ : ClassTable) (V : Discr) (H : Ty) :
    usableAsBase Γ (Route V H) = (meta.NodeLike Γ H && usableAsBase Γ H) := by
  simp [usableAsBase, instantiable, classInfo, coreInfo, constraintOf, basesFrom,
    usableBases, Route, Ty.head]

/-- What the construction of a router of routes checks. -/
theorem accepted_routesOf (Γ : ClassTable) (rs : List (Discr × Ty)) :
    Router.accepted Γ (routesOf rs) = true ↔
      (routesOf rs).Nodup ∧
        ∀ r ∈ rs, meta.NodeLike Γ r.2 = true ∧ usableAsBase Γ r.2 = true := by
  have hrl : (routesOf rs).all (meta.RouteLike Γ) = true := by
    rw [List.all_eq_true]
    intro R hR
    obtain ⟨r, _, rfl⟩ := List.mem_map.mp hR
    exact routeLike_Route Γ r.1 r.2
  have hus : (routesOf rs).all (usableAsBase Γ) = true ↔
      ∀ r ∈ rs, meta.NodeLike Γ r.2 = true ∧ usableAsBase Γ r.2 = true := by
    rw [List.all_eq_true]
    constructor
    · intro h r hr
      have := h (Route r.1 r.2) (List.mem_map.mpr ⟨r, hr, rfl⟩)
      rw [usableAsBase_Route] at this
      simpa using this
    · intro h R hR
      obtain ⟨r, hr, rfl⟩ := List.mem_map.mp hR
      rw [usableAsBase_Route]
      simpa using h r hr
  simp only [Router.accepted, instantiable, Router, classInfo, coreInfo, Option.getD_some,
    constraintOf, basesFrom_all, usableBases_all, Bool.and_eq_true, decide_eq_true_eq]
  simp only [show ("Router" = "PassThrough" ∨ "Router" = "Break") = False by decide,
    if_false, if_true, hrl, true_and, hus]

/-- C8, counterexample. The router
`Router<Route<A, HandleA<Collect>>, Route<A, HandleB<Collect>>>` is accepted:
its two routes are two different base classes. They carry one tag. -/
theorem router_accepts_repeated_tag :
    Router.accepted RouterExample.table (routesOf RouterExample.repeated) = true ∧
    memberTags (routesOf RouterExample.repeated)
      = some [Tag RouterExample.Events.A, Tag RouterExample.Events.A] ∧
    ¬ (RouterExample.repeated.map Prod.fst).Nodup := by
  refine ⟨by decide, by decide, by decide⟩

/-- C8, amended. The construction of a Router compares no tags. A Router of
routes is accepted if and only if no route type is listed twice and every
handler is `NodeLike` and can be named as a base class; so two routes with one
tag and two different handlers are accepted. A tag that two routes carry
shows at the call: every static dispatch on it is rejected, the call of
`operator()` being ambiguous. -/
theorem router_accepted_iff (Γ : ClassTable) (rs : List (Discr × Ty)) :
    (Router.accepted Γ (routesOf rs) = true ↔
      (routesOf rs).Nodup ∧
        ∀ r ∈ rs, meta.NodeLike Γ r.2 = true ∧ usableAsBase Γ r.2 = true) ∧
    (∀ (V : Discr) (H1 H2 : Ty), H1 ≠ H2 →
      meta.NodeLike Γ H1 = true → usableAsBase Γ H1 = true →
      meta.NodeLike Γ H2 = true → usableAsBase Γ H2 = true →
      Router.accepted Γ (routesOf [(V, H1), (V, H2)]) = true) ∧
    (∀ (env : Env) (V : Discr) (σ : Store) (ic : Arg) (args : List Arg),
      ic.read σ = .tag V → 2 ≤ (rs.filter (fun r => decide (r.1 = V))).length →
      denote env (Router (routesOf rs)) σ (ic :: args) = none) := by
  refine ⟨accepted_routesOf Γ rs, ?_, ?_⟩
  · intro V H1 H2 hne n1 u1 n2 u2
    rw [accepted_routesOf]
    refine ⟨?_, ?_⟩
    · simp [routesOf, Route, hne]
    · intro r hr
      simp only [List.mem_cons, List.mem_singleton, List.not_mem_nil, or_false] at hr
      rcases hr with rfl | rfl
      · exact ⟨n1, u1⟩
      · exact ⟨n2, u2⟩
  · intro env V σ ic args hic h2
    rw [denote_router_tag env rs V σ ic args hic]
    cases hf : rs.filter (fun r => decide (r.1 = V)) with
    | nil => rfl
    | cons r rest =>
      cases rest with
      | nil => rw [hf] at h2; simp at h2
      | cons r' rest' => rfl

/-- C9. For every Router of routes, the alternatives of its `Event` type are
the tags of its routes, in route order: the alternative at a position is the
tag of the route at that position. So every alternative is a tag that is
`Handleable` for the router, every `Event` value holds the tag of a route of
the router, and the overload set of `operator()` is not empty at the active
alternative: dynamic dispatch reaches no alternative without a route. -/
theorem event_alternatives_are_route_tags (rs : List (Discr × Ty)) :
    Router.Event (routesOf rs) = some (.app "std::variant" (rs.map (fun r => Tag r.1))) ∧
    (∀ (i : Nat) (V : Discr) (H : Ty), rs[i]? = some (V, H) →
      (rs.map (fun r => Tag r.1))[i]? = some (Tag V)) ∧
    (∀ alt ∈ rs.map (fun r => Tag r.1),
      meta.Handleable alt (routesOf rs) = true ∧ meta.Variant alt = false) ∧
    (∀ active : Nat, (Val.event (rs.map Prod.fst) active).type
      = .app "std::variant" (rs.map (fun r => Tag r.1))) ∧
    (∀ (active : Nat) (V : Discr), (rs.map Prod.fst)[active]? = some V →
      ∃ H, rs[active]? = some (V, H) ∧ (routesOf rs)[active]? = some (Route V H) ∧
        memberTag (Route V H) = some (Tag V)) ∧
    (∀ (f : Discr × Ty → Proc) (active : Nat) (V : Discr),
      (rs.map Prod.fst)[active]? = some V →
      Router.viable (Tag V) (routesOf rs) (rs.map f) ≠ []) := by
  refine ⟨?_, ?_, ?_, ?_, ?_, ?_⟩
  · simp [Router.Event, routesOf, memberTags_routes]
  · intro i V H hi
    simp [List.getElem?_map, hi]
  · intro alt halt
    obtain ⟨r, hr, rfl⟩ := List.mem_map.mp halt
    exact ⟨(handleable_routesOf rs r.1).mpr ⟨r, hr, rfl⟩, variant_Tag r.1⟩
  · intro active
    simp [Val.type, List.map_map, Function.comp]
  · intro active V hV
    simp only [List.getElem?_map, Option.map_eq_some'] at hV
    obtain ⟨r, hr, rfl⟩ := hV
    exact ⟨r.2, hr, by simp [routesOf, List.getElem?_map, hr], memberTag_Route r.1 r.2⟩
  · intro f active V hV
    simp only [List.getElem?_map, Option.map_eq_some'] at hV
    obtain ⟨r, hr, rfl⟩ := hV
    unfold routesOf
    rw [viable_routes, filter_tag_eq]
    intro hnil
    have hm : r ∈ rs.filter (fun x => decide (x.1 = r.1)) :=
      List.mem_filter.mpr ⟨List.getElem?_mem hr, by simp⟩
    have : f r ∈ (rs.filter (fun x => decide (x.1 = r.1))).map f := List.mem_map_of_mem f hm
    rw [hnil] at this
    cases this

end Goose
